import Mathlib

/-!
# VTrack sequencing engine: a shallow embedding of `VTrack/VTrackEffect.cpp`

Conventions of the embedding.

* `float` and `double` values are the rationals (`ℚ`) they denote; infinities and NaN are not
  represented. Where the code rounds visibly, the rounding of the result is written out
  (`to_double`, `to_float`: IEEE 754 round to nearest, ties to even): in the read position and
  the stored product of `Playback::fill`, and in the length, offset and time of the events
  emitted by `process_trigs`. The time base (`samples_per_qn`, `get_next_trig`, the pattern
  position) and the remaining sums and products are stated with exact arithmetic.
* `size_t`, `uint8` and `int32` values are `Nat` / `Int`; an index is bounded by the length of
  a buffer, and where a conversion or a sum can leave the range of the type this is written
  out (`safe_get`, `int32_of_double`, `add_int32`).
* A heap array is a `List ℚ`. Every element access is checked (`readAt` / `writeAt` return
  `none` outside the allocation); an operation that performs such an access returns `none`.
  The functions with suffix `_with` take the reading of `buf[i]` as a parameter instead, to
  cover a build that goes on after a read outside the allocation.
* The objects the host passes in (`ProcessData`, its buses and event lists) are taken to be
  present, and input and output channel buffers to be distinct memory; segment offsets and
  counts are natural numbers.
* A `while` loop whose termination is not evident runs on a bound for the number of
  iterations and reports when the bound is reached (`Outcome.timeout`), apart from a fault.
* `shared_ptr<DumbBuffer>` is `Option DumbBuffer` (the empty pointer is `none`). A `DumbBuffer`
  is never written after construction (both members are `const`), so sharing is value copying
  as long as no object is destroyed while a pointer to it is held; `SharedState` models the
  pointers, the use counts and the destruction of snapshots, and `SharedState.Denotes` relates
  it to the values.
* Fixed-size member arrays (`T a[N]`) are functions `Fin N → T`.
-/

namespace VTrack

/-! ## Constants -/

abbrev SAMPLE_RATE : Nat := 44100
abbrev NUM_INPUTS : Nat := 4
abbrev NUM_OUTPUTS : Nat := 4
abbrev NUM_TRACKS : Nat := 8
abbrev PATTERN_SCALE : Nat := 16
abbrev TRIGS_PER_QN : Nat := PATTERN_SCALE / 4
abbrev PATTERN_LENGTH_QN : Nat := 4
abbrev PATTERN_LENGTH : Nat := PATTERN_LENGTH_QN * TRIGS_PER_QN
abbrev MAX_STACK_SIZE : Nat := 16

abbrev kTrigEnable : Nat := 1 <<< 0
abbrev kMidiEnable : Nat := kTrigEnable
abbrev kMidiCC : Nat := 1 <<< 1
abbrev kSampleEnable : Nat := kTrigEnable
abbrev kSampleStack : Nat := 1 <<< 1

/-! ## Memory accesses -/

/-- Checked read of `buf[i]`; `none` is an access outside the allocation. -/
def readAt (buf : List ℚ) (i : Nat) : Option ℚ := buf[i]?

/-- Checked write `buf[i] = v`; `none` is an access outside the allocation. -/
def writeAt (buf : List ℚ) (i : Nat) (v : ℚ) : Option (List ℚ) :=
  if i < buf.length then some (buf.set i v) else none

/-- Result of `new float[n]`: `n` slots whose contents are whatever the allocator left there
(`fresh i` in slot `i`). -/
def alloc (fresh : Nat → ℚ) (n : Nat) : List ℚ := (List.range n).map fresh

/-- Model of `memset(buf + start, 0, count * sizeof(float))`: zeroes the slots
`start, ..., start + count - 1`. -/
def memset_zero (buf : List ℚ) (start : Nat) : Nat → Option (List ℚ)
  | 0 => some buf
  | count + 1 =>
    match memset_zero buf start count with
    | none => none
    | some b => writeAt b (start + count) 0

/-! ## DumbBuffer -/

/-- An immutable snapshot: `const float *const buffer; const size_t length`. -/
structure DumbBuffer where
  buffer : List ℚ
  length : Nat
deriving DecidableEq

/-- The `while (n--)` loop of `DumbBuffer::copy_circular`. The arguments are the remaining
count `n`, the read cursor `position` and the part of `output` written so far (`*output++`
appends). The cursor is advanced and wrapped before the read. -/
def copy_circular_loop (source : List ℚ) (length : Nat) : Nat → Nat → List ℚ → Option (List ℚ)
  | 0, _, output => some output
  | n + 1, position, output =>
    let position := if position + 1 = length then 0 else position + 1
    match readAt source position with
    | none => none
    | some v => copy_circular_loop source length n position (output ++ [v])

/-- Embedding of `DumbBuffer::copy_circular(source, position, length)`. -/
def DumbBuffer.copy_circular (source : List ℚ) (position length : Nat) : Option DumbBuffer :=
  match copy_circular_loop source length length position [] with
  | none => none
  | some output => some ⟨output, length⟩

/-! ## SampleBuffer -/

/-- The ring buffer of one input channel: `float *buffer; size_t position, length`. -/
structure SampleBuffer where
  buffer : List ℚ
  position : Nat
  length : Nat
deriving DecidableEq

/-- Embedding of the constructor `SampleBuffer()`. -/
def SampleBuffer.init : SampleBuffer := ⟨[], 0, 0⟩

/-- The growing loop `for (size_t n = length; n--;)` of `set_length`: the arguments are the
remaining count, the read cursor `p`, `new_position` and `new_buffer`; the result is the final
`new_buffer` and `new_position`. -/
def set_length_grow_loop (buffer : List ℚ) (length : Nat) :
    Nat → Nat → Nat → List ℚ → Option (List ℚ × Nat)
  | 0, _, new_position, new_buffer => some (new_buffer, new_position)
  | n + 1, p, new_position, new_buffer =>
    match readAt buffer p with
    | none => none
    | some v =>
      match writeAt new_buffer new_position v with
      | none => none
      | some nb =>
        let p := p + 1
        let p := if p = length then 0 else p
        set_length_grow_loop buffer length n p (new_position + 1) nb

/-- The shrinking loop `while (n--)` of `set_length`: in the body `n` is already decremented;
it reads `buffer[p]`, writes `new_buffer[n]`, then steps `p` down (to `length` from `0`). -/
def set_length_shrink_loop (buffer : List ℚ) (length : Nat) :
    Nat → Nat → List ℚ → Option (List ℚ)
  | 0, _, new_buffer => some new_buffer
  | n + 1, p, new_buffer =>
    match readAt buffer p with
    | none => none
    | some v =>
      match writeAt new_buffer n v with
      | none => none
      | some nb =>
        let p := if p > 0 then p - 1 else length
        set_length_shrink_loop buffer length n p nb

/-- The indices at which the shrinking loop of `set_length` reads `buffer`, in order, for `n`
iterations from cursor `p`: the cursor is read, then stepped down, from `0` to `length`. -/
def set_length_shrink_reads (length : Nat) : Nat → Nat → List Nat
  | 0, _ => []
  | n + 1, p => p :: set_length_shrink_reads length n (if p > 0 then p - 1 else length)

/-- Embedding of `SampleBuffer::set_length(new_length)`; `fresh` is the content of the newly
allocated memory before anything is written to it. -/
def SampleBuffer.set_length (fresh : Nat → ℚ) (sb : SampleBuffer) (new_length : Nat) :
    Option SampleBuffer :=
  if new_length = sb.length then some sb
  else
    let new_buffer := alloc fresh new_length
    if new_length ≥ sb.length then
      match set_length_grow_loop sb.buffer sb.length sb.length sb.position 0 new_buffer with
      | none => none
      | some (nb, new_position) =>
        match memset_zero nb new_position (new_length - sb.length) with
        | none => none
        | some nb => some ⟨nb, new_position, new_length⟩
    else
      match set_length_shrink_loop sb.buffer sb.length new_length sb.position new_buffer with
      | none => none
      | some nb => some ⟨nb, 0, new_length⟩

/-- Embedding of `SampleBuffer::latch()`. -/
def SampleBuffer.latch (sb : SampleBuffer) : Option DumbBuffer :=
  DumbBuffer.copy_circular sb.buffer sb.position sb.length

/-- A capture buffer in a consistent state: `buffer` points to `length` floats and the write
cursor is inside them (or the buffer is empty). -/
def SampleBuffer.WF (sb : SampleBuffer) : Prop :=
  sb.buffer.length = sb.length ∧ (sb.position < sb.length ∨ sb.length = 0)

instance (sb : SampleBuffer) : Decidable sb.WF := by
  unfold SampleBuffer.WF; infer_instance

/-! ## InputChannel -/

/-- One input channel: its capture buffer, its history stack (`std::deque`, front = head of
the list), the direct-mix gains, the latch trigger rows and the armed flag. -/
structure InputChannel where
  sampler : SampleBuffer
  sample_stack : List DumbBuffer
  direct : Fin NUM_OUTPUTS → ℚ
  latch_trigs : Fin PATTERN_LENGTH → Bool
  latch_trig_oneshots : Fin PATTERN_LENGTH → Bool
  armed : Bool

/-- Embedding of the constructor `InputChannel()`. -/
def InputChannel.init : InputChannel :=
  { sampler := SampleBuffer.init
    sample_stack := []
    direct := fun _ => 0
    latch_trigs := fun _ => false
    latch_trig_oneshots := fun _ => false
    armed := false }

/-- Embedding of `InputChannel::latch()`: `push_front` of the new snapshot, then `pop_back`
when the size exceeds `MAX_STACK_SIZE`. -/
def InputChannel.latch (ch : InputChannel) : Option InputChannel :=
  match ch.sampler.latch with
  | none => none
  | some snap =>
    let sample_stack := snap :: ch.sample_stack
    let sample_stack :=
      if sample_stack.length > MAX_STACK_SIZE then sample_stack.dropLast else sample_stack
    some { ch with sample_stack := sample_stack }

/-- Scenario driver: successive calls of `latch()` on one channel, where before the `k`-th call
the capture buffer has reached the state `ss[k]` (by whatever was recorded in between). -/
def latch_run : InputChannel → List SampleBuffer → Option InputChannel
  | ch, [] => some ch
  | ch, s :: ss =>
    match ({ ch with sampler := s } : InputChannel).latch with
    | none => none
    | some ch' => latch_run ch' ss

/-! ## Conversions of `double` values -/

/-- Conversion of a `double` to an integer type: the fractional part is discarded. -/
def trunc (x : ℚ) : Int := if 0 ≤ x then ⌊x⌋ else ⌈x⌉

/-- The C library function `fmod(x, y)`: the remainder of `x / y` with the quotient truncated
(the result has the sign of `x`). -/
def fmod (x y : ℚ) : ℚ := x - (trunc (x / y) : ℚ) * y

/-! ## Rounding of `double` and `float` results -/

/-- The number of halvings that bring `n` below 2, which is `floor(log2 n)` for `n >= 1`; the
first argument bounds the recursion. -/
def log2_loop : Nat → Nat → Nat
  | 0, _ => 0
  | fuel + 1, n => if 2 ≤ n then log2_loop fuel (n / 2) + 1 else 0

/-- The binary exponent of a non-zero rational: the integer `e` with
`2 ^ e <= |x| < 2 ^ (e + 1)`. The difference of the bit lengths of numerator and denominator is
`e` or `e + 1`. -/
def binary_exponent (x : ℚ) : Int :=
  let e : Int := (log2_loop x.num.natAbs x.num.natAbs : Int) - (log2_loop x.den x.den : Int)
  if (2 : ℚ) ^ e ≤ |x| then e else e - 1

/-- Rounding to the nearest integer, a tie to the even one. -/
def round_half_even (x : ℚ) : Int :=
  let f : Int := ⌊x⌋
  let r : ℚ := x - f
  if r < 1 / 2 then f
  else if 1 / 2 < r then f + 1
  else if f % 2 = 0 then f else f + 1

/-- The result of an IEEE 754 operation whose exact value is `x`, in the binary format with
`prec` significant bits and least normal exponent `emin`: round to nearest, ties to even, with
gradual underflow. The exponent is not bounded above here: a value of magnitude `2 ^ (emax + 1)`
or more stands for an overflow, and the functions that store such a value return `none`. -/
def round_binary (prec : Nat) (emin : Int) (x : ℚ) : ℚ :=
  if x = 0 then 0
  else
    let e : Int := max (binary_exponent x) emin
    let ulp : ℚ := (2 : ℚ) ^ (e - (prec : Int) + 1)
    (round_half_even (x / ulp) : ℚ) * ulp

/-- Rounding to `double` (binary64: 53 significant bits, least normal exponent -1022). -/
def to_double (x : ℚ) : ℚ := round_binary 53 (-1022) x

/-- Rounding to `float` (binary32: 24 significant bits, least normal exponent -126). -/
def to_float (x : ℚ) : ℚ := round_binary 24 (-126) x

/-- Conversion of a `double` to `int32`: the truncated value when `int32` can hold it. Otherwise
the conversion is undefined in C++; the value here, `-2 ^ 31`, is what the conversion
instruction of x86 delivers. -/
def int32_of_double (x : ℚ) : Int :=
  if -(2 ^ 31) ≤ trunc x ∧ trunc x < 2 ^ 31 then trunc x else -(2 ^ 31)

/-- Addition of two `int32` values in two's complement (overflow wraps around). -/
def add_int32 (a b : Int) : Int := (a + b + 2 ^ 31) % 2 ^ 32 - 2 ^ 31

/-! ## Triggers -/

/-- A note trigger: `uint8 flags; union { uint8 note; uint8 cc; }; uint8 ccvalue;
TQuarterNotes length`. -/
structure MidiTrig where
  flags : Nat
  note : Nat
  ccvalue : Nat
  length : ℚ

/-- Embedding of the constructor `MidiTrig()`. -/
def MidiTrig.init : MidiTrig := ⟨0, 0, 0, 0⟩

/-- Embedding of `MidiTrig::enabled()`. -/
def MidiTrig.enabled (m : MidiTrig) : Bool := m.flags &&& kMidiEnable != 0

/-- Embedding of `MidiTrig::is_note()`. -/
def MidiTrig.is_note (m : MidiTrig) : Bool := m.flags &&& kMidiCC == 0

/-- A sample trigger: `uint8 flags; union { uint8 stack; uint8 sample; }; double rate`. -/
structure SampleTrig where
  flags : Nat
  stack : Nat
  rate : ℚ

/-- Embedding of the constructor `SampleTrig()`. -/
def SampleTrig.init : SampleTrig := ⟨0, 0, 1⟩

/-- Embedding of `SampleTrig::enabled()`. -/
def SampleTrig.enabled (t : SampleTrig) : Bool := t.flags &&& kSampleEnable != 0

/-! ## Playback -/

/-- Embedding of `DumbBuffer::safe_get(position)`. The conversion `size_t p = position` is
undefined when the 64-bit `size_t` cannot hold the truncated value, that is when it is negative
or `2 ^ 64` or more (`none`); otherwise `p < 0` is never true of the unsigned `p`, and an index
`p >= length` gives `0`. -/
def DumbBuffer.safe_get (b : DumbBuffer) (position : ℚ) : Option ℚ :=
  let t := trunc position
  if t < 0 ∨ 2 ^ 64 ≤ t then none
  else
    let p := t.toNat
    if p ≥ b.length then some 0 else readAt b.buffer p

/-- The voice of a track: `shared_ptr<DumbBuffer> source; double rate; double position`. -/
structure Playback where
  source : Option DumbBuffer
  rate : ℚ
  position : ℚ
deriving DecidableEq

/-- Embedding of the constructor `Playback()`. -/
def Playback.init : Playback := ⟨none, 0, 0⟩

/-- The value of the expression `dst[i] = source->safe_get(p) * level` for a sample `v`: the
`float` sample is multiplied by the `double` gain in `double`, and the product is converted to
`float` for the store. -/
def fill_value (v level : ℚ) : ℚ := to_float (to_double (v * level))

/-- The `for` loop of `Playback::fill`: the arguments are the number of iterations left, the
index `i`, the read position `p`, the flag `sound` and the destination. The stored value is
tested by the `if`; `p += rate` is a `double` addition. A product that overflows `float`
(magnitude `2 ^ 128` or more after rounding) is not a finite value and ends the function
here (`none`). -/
def fill_loop (source : DumbBuffer) (rate level : ℚ) :
    Nat → Nat → ℚ → Bool → List ℚ → Option (List ℚ × Bool)
  | 0, _, _, sound, dst => some (dst, sound)
  | n + 1, i, p, sound, dst =>
    match source.safe_get p with
    | none => none
    | some v =>
      if 2 ^ 128 ≤ |fill_value v level| then none
      else
        match writeAt dst i (fill_value v level) with
        | none => none
        | some dst' =>
          let sound := if fill_value v level ≠ 0 then true else sound
          fill_loop source rate level n (i + 1) (to_double (p + rate)) sound dst'

/-- Embedding of `Playback::fill(dst, channel, count, level)`, a `const` member: the voice is
only read. `dst` is the memory from the destination pointer on; the result is that memory
after the call and the returned flag. An empty `source` fails the assertion (`none`). -/
def Playback.fill (pb : Playback) (dst : List ℚ) (_channel : Nat) (count : Nat) (level : ℚ) :
    Option (List ℚ × Bool) :=
  match pb.source with
  | none => none
  | some source => fill_loop source pb.rate level count 0 pb.position false dst

/-- The call `playback.fill(dst, channel, count, level)` as a step on the voice: the voice
after the call, the destination after the call and the returned flag. `fill` is a `const`
member of a class without `mutable` members, so it has no way to assign to `source`, `rate` or
`position`: the voice after the call is the voice before. -/
def Playback.fill_step (pb : Playback) (dst : List ℚ) (channel : Nat) (count : Nat)
    (level : ℚ) : Option (Playback × List ℚ × Bool) :=
  match pb.fill dst channel count level with
  | none => none
  | some r => some (pb, r.1, r.2)

/-- The read position of `fill` in iteration `i`: the voice position with `rate` added `i`
times, each sum rounded to `double`. -/
def fill_position (position rate : ℚ) : Nat → ℚ
  | 0 => position
  | i + 1 => to_double (fill_position position rate i + rate)

/-- Embedding of `Playback::advance(time)`; reading `source->length` through an empty
pointer is `none`. -/
def Playback.advance (pb : Playback) (time : ℚ) : Option Playback :=
  match pb.source with
  | none => none
  | some source =>
    let position := pb.position + time
    if position > source.length then some { pb with position := 0, rate := 0 }
    else some { pb with position := position }

/-! ## Tracks and the engine state -/

/-- One track: its trigger rows, its voice, its level and its armed flag. -/
structure Track where
  midi_trigs : Fin PATTERN_LENGTH → MidiTrig
  sample_trigs : Fin PATTERN_LENGTH → SampleTrig
  playback : Playback
  level : ℚ
  armed : Bool

/-- Embedding of the constructor `Track()`. -/
def Track.init : Track :=
  { midi_trigs := fun _ => MidiTrig.init
    sample_trigs := fun _ => SampleTrig.init
    playback := Playback.init
    level := 1
    armed := false }

/-- The data members of `VTrackEffect`. -/
structure VTrackEffect where
  tracks : Fin NUM_TRACKS → Track
  input_channels : Fin NUM_INPUTS → InputChannel
  tempo : ℚ
  positionInPattern : ℚ
  last_vu : ℚ

/-- Embedding of `VTrackEffect::samples_per_qn()`: the integer `60 * SAMPLE_RATE` divided by
the tempo. -/
def VTrackEffect.samples_per_qn (s : VTrackEffect) : ℚ := ((60 * SAMPLE_RATE : Nat) : ℚ) / s.tempo

/-- Embedding of `VTrackEffect::samples_per_trig()`. -/
def VTrackEffect.samples_per_trig (s : VTrackEffect) : ℚ :=
  s.samples_per_qn / (TRIGS_PER_QN : ℚ)

/-- Embedding of `VTrackEffect::get_next_trig(qn, samples)`; the `double` result is converted
to the `int32` return type. -/
def VTrackEffect.get_next_trig (s : VTrackEffect) (qn : ℚ) (samples : Int) : Int :=
  let next_trig_qn : ℚ := ((⌈qn * (TRIGS_PER_QN : ℚ)⌉ : Int) : ℚ) / (TRIGS_PER_QN : ℚ)
  trunc ((samples : ℚ) + (next_trig_qn - qn) * s.samples_per_qn)

/-! ## Host data -/

/-- The payload of the events the engine emits; members the code leaves unset are omitted. -/
inductive EventData where
  | noteOn (channel pitch length noteId : Int)
  | noteOff (channel pitch noteId : Int)
deriving DecidableEq

/-- An `Event` of the host interface. -/
structure Event where
  busIndex : Int
  sampleOffset : Int
  ppqPosition : ℚ
  data : EventData
deriving DecidableEq

/-- An `AudioBusBuffers` of the host interface. -/
structure AudioBusBuffers where
  numChannels : Nat
  silenceFlags : Nat
  channelBuffers32 : List (List ℚ)
deriving DecidableEq

/-- The members of `ProcessData` the engine uses; the host is taken to supply every list. -/
structure ProcessData where
  numSamples : Nat
  numInputs : Nat
  numOutputs : Nat
  inputs : List AudioBusBuffers
  outputs : List AudioBusBuffers
  inputEvents : List Event
  outputEvents : List Event
deriving DecidableEq

/-! ## Trigger evaluation -/

/-- The note-trigger part of the track loop body of `process_trigs`: the events appended for
track `i`, a note-on followed by a note-off when the trigger is an enabled note. The argument
`samples_per_qn` is the exact quotient `60 * SAMPLE_RATE / tempo`; `samples_per_qn()` returns
it rounded to `double`. The statement `e.noteOn.length = midi.length * samples_per_qn()`
rounds the product to `double` and converts it to `int32`; `e.sampleOffset += e.noteOn.length`
is an `int32` addition and `e.ppqPosition += midi.length` a `double` addition. -/
def midi_trig_events (samples_per_qn : ℚ) (time : ℚ) (sampleOffset : Int) (i : Nat)
    (midi : MidiTrig) : List Event :=
  if midi.enabled && midi.is_note then
    let length : Int := int32_of_double (to_double (midi.length * to_double samples_per_qn))
    let noteOn : Event :=
      { busIndex := 0, sampleOffset := sampleOffset, ppqPosition := time,
        data := EventData.noteOn i midi.note length (-1) }
    let noteOff : Event :=
      { busIndex := 0, sampleOffset := add_int32 sampleOffset length,
        ppqPosition := to_double (time + midi.length),
        data := EventData.noteOff i midi.note (-1) }
    [noteOn, noteOff]
  else []

/-- The sample-trigger part of the track loop body of `process_trigs`: the voice of the track
afterwards. The two `continue` statements (invalid input, invalid stack index) and a disabled
trigger leave the voice as it is. -/
def sample_trig_apply (input_channels : Fin NUM_INPUTS → InputChannel) (sample : SampleTrig)
    (playback : Playback) : Playback :=
  if sample.enabled then
    if sample.flags &&& kSampleStack ≠ 0 then
      let input := sample.stack / MAX_STACK_SIZE
      let stack := sample.stack % MAX_STACK_SIZE
      if h : input ≥ NUM_INPUTS then playback
      else
        let sample_stack := (input_channels ⟨input, Nat.lt_of_not_le h⟩).sample_stack
        if h2 : stack ≥ sample_stack.length then playback
        else
          { source := some (sample_stack.get ⟨stack, Nat.lt_of_not_le h2⟩)
            rate := sample.rate
            position := 0 }
    else { playback with rate := sample.rate, position := 0 }
  else playback

/-- Body of the track loop of `process_trigs` for track `i` at step `trig`. -/
def process_trigs_track (trig : Fin PATTERN_LENGTH) (time : ℚ) (sampleOffset : Int)
    (acc : VTrackEffect × ProcessData) (i : Fin NUM_TRACKS) : VTrackEffect × ProcessData :=
  let s := acc.1
  let data := acc.2
  let track := s.tracks i
  let events := midi_trig_events s.samples_per_qn time sampleOffset i.val (track.midi_trigs trig)
  let playback := sample_trig_apply s.input_channels (track.sample_trigs trig) track.playback
  ({ s with tracks := Function.update s.tracks i { track with playback := playback } },
    { data with outputEvents := data.outputEvents ++ events })

/-- Body of the input-channel loop of `process_trigs` for channel `i` at step `trig`. -/
def process_trigs_latch (trig : Fin PATTERN_LENGTH) (s : VTrackEffect) (i : Fin NUM_INPUTS) :
    Option VTrackEffect :=
  let chan := s.input_channels i
  if !chan.latch_trigs trig then some s
  else
    let fire (chan : InputChannel) : Option VTrackEffect :=
      match chan.latch with
      | none => none
      | some chan => some { s with input_channels := Function.update s.input_channels i chan }
    if chan.latch_trig_oneshots trig then
      if !chan.armed then some s
      else fire { chan with armed := false }
    else fire chan

/-- What the body of the input-channel loop of `process_trigs` does to the channel it visits:
nothing when the latch trigger of the step is off or is an unarmed one-shot; otherwise the
channel is latched, after `armed` is cleared when the trigger is a one-shot. -/
def latch_trig_apply (trig : Fin PATTERN_LENGTH) (chan : InputChannel) : Option InputChannel :=
  if !chan.latch_trigs trig then some chan
  else if chan.latch_trig_oneshots trig then
    if !chan.armed then some chan else ({ chan with armed := false } : InputChannel).latch
  else chan.latch

/-- The step index of `process_trigs`:
`int trig = fmod(time, PATTERN_LENGTH_QN) * TRIGS_PER_QN`. -/
def trig_index (time : ℚ) : Int :=
  trunc (fmod time (PATTERN_LENGTH_QN : ℚ) * (TRIGS_PER_QN : ℚ))

/-- Embedding of `VTrackEffect::process_trigs(data, time, sampleOffset)`. A step index outside
the trigger rows is an access outside them (`none`). -/
def VTrackEffect.process_trigs (s : VTrackEffect) (data : ProcessData) (time : ℚ)
    (sampleOffset : Int) : Option (VTrackEffect × ProcessData) :=
  let trig : Int := trig_index time
  if h : 0 ≤ trig ∧ trig < (PATTERN_LENGTH : Int) then
    let trig : Fin PATTERN_LENGTH := ⟨trig.toNat, by omega⟩
    let acc := (List.finRange NUM_TRACKS).foldl (process_trigs_track trig time sampleOffset)
      (s, data)
    match (List.finRange NUM_INPUTS).foldlM (process_trigs_latch trig) acc.1 with
    | none => none
    | some s => some (s, acc.2)
  else none

/-! ## Segment processing -/

/-- Model of `flags &= ~(1ull << c)` on the 64-bit `silenceFlags`. -/
def clear_silence (flags : Nat) (c : Nat) : Nat := flags &&& (2 ^ 64 - 1 - (1 <<< c) % 2 ^ 64)

/-- Body of the channel loop of `process_samples` for main-bus channel `c`: `fill` writes from
`channelBuffers32[c] + offset` on, and a `true` result clears the silence flag of `c`. -/
def process_samples_channel (playback : Playback) (level : ℚ) (offset count : Nat)
    (outp : AudioBusBuffers) (c : Nat) : Option AudioBusBuffers :=
  match outp.channelBuffers32[c]? with
  | none => none
  | some buf =>
    match playback.fill (buf.drop offset) c count level with
    | none => none
    | some (dst, sound) =>
      let outp := { outp with
        channelBuffers32 := outp.channelBuffers32.set c (buf.take offset ++ dst) }
      some (if sound then { outp with silenceFlags := clear_silence outp.silenceFlags c }
        else outp)

/-- Body of the track loop of `process_samples` for track `i`: an idle voice (`rate == 0`) is
skipped; otherwise both main-bus channels are filled and the voice is advanced by `count`. -/
def process_samples_track (offset count : Nat) (acc : VTrackEffect × AudioBusBuffers)
    (i : Fin NUM_TRACKS) : Option (VTrackEffect × AudioBusBuffers) :=
  let s := acc.1
  let track := s.tracks i
  let playback := track.playback
  if playback.rate = 0 then some acc
  else
    match [0, 1].foldlM (process_samples_channel playback track.level offset count) acc.2 with
    | none => none
    | some outp =>
      match playback.advance (count : ℚ) with
      | none => none
      | some playback =>
        some ({ s with tracks := Function.update s.tracks i { track with playback := playback } },
          outp)

/-- Embedding of `VTrackEffect::process_samples(data, offset, count)`; `outp` is
`data.outputs[0]`. -/
def VTrackEffect.process_samples (s : VTrackEffect) (data : ProcessData) (offset count : Nat) :
    Option (VTrackEffect × ProcessData) :=
  match data.outputs[0]? with
  | none => none
  | some outp =>
    match (List.finRange NUM_TRACKS).foldlM (process_samples_track offset count) (s, outp) with
    | none => none
    | some (s, outp) => some (s, { data with outputs := data.outputs.set 0 outp })

/-! ## Capture and input mixing -/

/-- The `while (n--)` loop of `SampleBuffer::add_samples`: `input` is the memory from the input
pointer on (`*input++` takes its head), `buffer[position++]` is written and the cursor wraps
at `length`. -/
def add_samples_loop (length : Nat) : Nat → List ℚ → List ℚ → Nat → Option (List ℚ × Nat)
  | 0, _, buffer, position => some (buffer, position)
  | n + 1, input, buffer, position =>
    match input with
    | [] => none
    | v :: input =>
      match writeAt buffer position v with
      | none => none
      | some buffer =>
        let position := position + 1
        let position := if position = length then 0 else position
        add_samples_loop length n input buffer position

/-- Embedding of `SampleBuffer::add_samples(input, n)`. -/
def SampleBuffer.add_samples (sb : SampleBuffer) (input : List ℚ) (n : Nat) :
    Option SampleBuffer :=
  match add_samples_loop sb.length n input sb.buffer sb.position with
  | none => none
  | some (buffer, position) => some { sb with buffer := buffer, position := position }

/-- The mixing loop `for (int32 s = count; s--;)` of `process_inputs`:
`if (*dst++ = *src++ * f) silent = false`. The arguments are the iterations left, the index
`src` into the input channel buffer, the index `dst` into the output channel buffer, that
buffer and the flag; the result is the final `src`, the output buffer and the flag. -/
def mix_loop (f : ℚ) (inbuf : List ℚ) : Nat → Nat → Nat → List ℚ → Bool →
    Option (Nat × List ℚ × Bool)
  | 0, src, _, out, silent => some (src, out, silent)
  | n + 1, src, dst, out, silent =>
    match readAt inbuf src with
    | none => none
    | some v =>
      match writeAt out dst (v * f) with
      | none => none
      | some out =>
        let silent := if v * f ≠ 0 then false else silent
        mix_loop f inbuf n (src + 1) (dst + 1) out silent

/-- Body of the `outc` loop of `process_inputs` for input channel `c` of bus `inp` with buffer
`inbuf`. The accumulator holds the current value of the pointer `src` (as an index into
`inbuf`; it is declared outside this loop and not reset) and the main output bus. -/
def process_inputs_out (inp : AudioBusBuffers) (c : Nat) (inbuf : List ℚ) (chan : InputChannel)
    (offset count : Nat) (acc : Nat × AudioBusBuffers) (outc : Fin NUM_OUTPUTS) :
    Option (Nat × AudioBusBuffers) :=
  let src := acc.1
  let outp := acc.2
  match outp.channelBuffers32[outc.val]? with
  | none => none
  | some outbuf =>
    let silent : Bool := inp.silenceFlags &&& (1 <<< c) != 0
    if silent then
      match memset_zero outbuf offset count with
      | none => none
      | some out =>
        some (src, { outp with channelBuffers32 := outp.channelBuffers32.set outc.val out })
    else
      let f := chan.direct outc
      match mix_loop f inbuf count src offset outbuf true with
      | none => none
      | some (src, out, silent) =>
        let outp := { outp with channelBuffers32 := outp.channelBuffers32.set outc.val out }
        some (src,
          if !silent then { outp with silenceFlags := clear_silence outp.silenceFlags outc.val }
          else outp)

/-- Body of the channel loop of `process_inputs` for channel `c` of input bus `inp`. The
accumulator holds the engine, the main output bus and `input_channel_index`. -/
def process_inputs_channel (inp : AudioBusBuffers) (offset count : Nat)
    (acc : VTrackEffect × AudioBusBuffers × Nat) (c : Nat) :
    Option (VTrackEffect × AudioBusBuffers × Nat) :=
  let s := acc.1
  let outp := acc.2.1
  let input_channel_index := acc.2.2
  if h : input_channel_index < NUM_INPUTS then
    let chan := s.input_channels ⟨input_channel_index, h⟩
    match inp.channelBuffers32[c]? with
    | none => none
    | some inbuf =>
      match chan.sampler.add_samples (inbuf.drop offset) count with
      | none => none
      | some sampler =>
        let chan := { chan with sampler := sampler }
        let s := { s with
          input_channels := Function.update s.input_channels ⟨input_channel_index, h⟩ chan }
        match [(⟨0, by decide⟩ : Fin NUM_OUTPUTS), ⟨1, by decide⟩].foldlM
            (process_inputs_out inp c inbuf chan offset count) (offset, outp) with
        | none => none
        | some r => some (s, r.2, input_channel_index + 1)
  else none

/-- Body of the bus loop of `process_inputs` for input bus number `bus`; the assertion
`outp.numChannels == 2` is checked on entry. -/
def process_inputs_bus (data : ProcessData) (offset count : Nat)
    (acc : VTrackEffect × AudioBusBuffers × Nat) (bus : Nat) :
    Option (VTrackEffect × AudioBusBuffers × Nat) :=
  match data.inputs[bus]? with
  | none => none
  | some inp =>
    if acc.2.1.numChannels = 2 then
      (List.range inp.numChannels).foldlM (process_inputs_channel inp offset count) acc
    else none

/-- Embedding of `VTrackEffect::process_inputs(data, offset, count)`; a failed assertion is
`none`. -/
def VTrackEffect.process_inputs (s : VTrackEffect) (data : ProcessData) (offset count : Nat) :
    Option (VTrackEffect × ProcessData) :=
  if data.numOutputs ≥ 1 ∧ count > 0 ∧ offset < data.numSamples ∧
      offset + count ≤ data.numSamples then
    match data.outputs[0]? with
    | none => none
    | some outp =>
      match (List.range data.numInputs).foldlM (process_inputs_bus data offset count)
          (s, outp, 0) with
      | none => none
      | some r => some (r.1, { data with outputs := data.outputs.set 0 r.2.1 })
  else none

/-- Embedding of the overload `VTrackEffect::process(data, offset, count)`. -/
def VTrackEffect.process (s : VTrackEffect) (data : ProcessData) (offset count : Nat) :
    Option (VTrackEffect × ProcessData) :=
  match s.process_inputs data offset count with
  | none => none
  | some r => r.1.process_samples r.2 offset count

/-! ## Tempo, position and construction -/

/-- Embedding of `VTrackEffect::set_position(barPosition, projectTime)`. -/
def VTrackEffect.set_position (s : VTrackEffect) (_barPosition projectTime : ℚ) : VTrackEffect :=
  { s with positionInPattern := fmod projectTime (PATTERN_LENGTH_QN : ℚ) }

/-- Body of the loop of `update_sample_buffers`: `input_channels[i].set_length(samplesPerBar)`;
`fresh i` is the content of the memory allocated for channel `i`. -/
def update_sample_buffers_channel (fresh : Fin NUM_INPUTS → Nat → ℚ) (samplesPerBar : Nat)
    (s : VTrackEffect) (i : Fin NUM_INPUTS) : Option VTrackEffect :=
  match (s.input_channels i).sampler.set_length (fresh i) samplesPerBar with
  | none => none
  | some sampler =>
    some { s with input_channels :=
      Function.update s.input_channels i { s.input_channels i with sampler := sampler } }

/-- Embedding of `VTrackEffect::update_sample_buffers()`. The conversion of the `double`
`ceil(samples_per_qn() * PATTERN_LENGTH_QN)` to `size_t` is undefined for a negative value. -/
def VTrackEffect.update_sample_buffers (fresh : Fin NUM_INPUTS → Nat → ℚ) (s : VTrackEffect) :
    Option VTrackEffect :=
  let c : Int := ⌈s.samples_per_qn * (PATTERN_LENGTH_QN : ℚ)⌉
  if c < 0 then none
  else
    (List.finRange NUM_INPUTS).foldlM (update_sample_buffers_channel fresh c.toNat) s

/-- Embedding of `VTrackEffect::set_tempo(new_tempo)`. -/
def VTrackEffect.set_tempo (fresh : Fin NUM_INPUTS → Nat → ℚ) (s : VTrackEffect)
    (new_tempo : ℚ) : Option VTrackEffect :=
  if s.tempo ≠ new_tempo then
    VTrackEffect.update_sample_buffers fresh { s with tempo := new_tempo }
  else some s

/-- The statements of the constructor body after `set_tempo(120)`: the direct gains of every
input channel (1 to the two main outputs, 0 to the others), the one-shot latch trigger of
channel 0 at step 0, and the stack-mode sample trigger with index 0 of track 0 at step 0. -/
def VTrackEffect.init_settings (s : VTrackEffect) : VTrackEffect :=
  { s with
    tracks := Function.update s.tracks ⟨0, by decide⟩
      { s.tracks ⟨0, by decide⟩ with
        sample_trigs := Function.update (s.tracks ⟨0, by decide⟩).sample_trigs ⟨0, by decide⟩
          { (s.tracks ⟨0, by decide⟩).sample_trigs ⟨0, by decide⟩ with
            flags := kSampleStack ||| kSampleEnable
            stack := 0 } }
    input_channels := Function.update
      (fun i => { s.input_channels i with direct := fun o => if o.val < 2 then 1 else 0 })
      ⟨0, by decide⟩
      { s.input_channels ⟨0, by decide⟩ with
        direct := fun o => if o.val < 2 then 1 else 0
        latch_trigs :=
          Function.update (s.input_channels ⟨0, by decide⟩).latch_trigs ⟨0, by decide⟩ true
        latch_trig_oneshots :=
          Function.update (s.input_channels ⟨0, by decide⟩).latch_trig_oneshots
            ⟨0, by decide⟩ true } }

/-- The body of the constructor, run on the object `s` left by the member initialisers:
`set_tempo(tempo)` followed by the settings. -/
def VTrackEffect.init_body (fresh : Fin NUM_INPUTS → Nat → ℚ) (s : VTrackEffect) (tempo : ℚ) :
    Option VTrackEffect :=
  match VTrackEffect.set_tempo fresh s tempo with
  | none => none
  | some s => some s.init_settings

/-- Embedding of the constructor `VTrackEffect()`: the member initialisers (`tempo(0)`,
`positionInPattern(0)`, default tracks and channels), then the body with `set_tempo(120)`.
`last_vu` is not initialised by it and is whatever `vu` the memory holds. -/
def VTrackEffect.init (fresh : Fin NUM_INPUTS → Nat → ℚ) (vu : ℚ) : Option VTrackEffect :=
  VTrackEffect.init_body fresh
    { tracks := fun _ => Track.init
      input_channels := fun _ => InputChannel.init
      tempo := 0
      positionInPattern := 0
      last_vu := vu } 120

/-- The call `input_channels[c].latch()` on the engine state. -/
def VTrackEffect.latch_channel (s : VTrackEffect) (c : Fin NUM_INPUTS) : Option VTrackEffect :=
  match (s.input_channels c).latch with
  | none => none
  | some chan => some { s with input_channels := Function.update s.input_channels c chan }

/-! ## The block loop -/

/-- The loop of `process_events`: the offset of the first event in list order that lies after
`sample_position`, or `-1`. -/
def process_events_loop : List Event → Int → Int
  | [], _ => -1
  | e :: es, sample_position =>
    if e.sampleOffset < sample_position then process_events_loop es sample_position
    else if e.sampleOffset > sample_position then e.sampleOffset
    else process_events_loop es sample_position

/-- Embedding of `VTrackEffect::process_events(data, sample_position)`. -/
def process_events (data : ProcessData) (sample_position : Int) : Int :=
  process_events_loop data.inputEvents sample_position

/-- Result of a loop run with a bound on the number of iterations: it finished, it stopped at
a failed assertion or an access outside an allocation, or the bound was reached. -/
inductive Outcome (α : Type) where
  | done (a : α)
  | fault
  | timeout
deriving DecidableEq

/-- Image of an outcome under a function of the final value. -/
def Outcome.map {α β : Type} (f : α → β) : Outcome α → Outcome β
  | Outcome.done a => Outcome.done (f a)
  | Outcome.fault => Outcome.fault
  | Outcome.timeout => Outcome.timeout

/-- The variables of the block loop of `process(data)`, with two records that the code does
not keep: the arguments `(time, sampleOffset)` of every call of `process_trigs` and the pair
`(sample_position, num_samples)` of every iteration, both in order. -/
structure BlockState where
  s : VTrackEffect
  data : ProcessData
  sample_position : Int
  musicTime : ℚ
  trig_calls : List (ℚ × Int)
  segments : List (Int × Int)

/-- First part of an iteration of the `while` loop of `process(data)`, up to the computation
of `next_sample_pos`: the engine and host data after the call of `process_trigs` (if one is
made), the record of such calls, and `next_sample_pos`. -/
def block_next (b : BlockState) : Option (VTrackEffect × ProcessData × List (ℚ × Int) × Int) :=
  let next_event := process_events b.data b.sample_position
  let next_trig := b.s.get_next_trig b.musicTime b.sample_position
  let fired : Option (VTrackEffect × ProcessData × Int × List (ℚ × Int)) :=
    if next_trig = b.sample_position then
      match b.s.process_trigs b.data b.musicTime b.sample_position with
      | none => none
      | some r =>
        some (r.1, r.2, trunc ((next_trig : ℚ) + r.1.samples_per_trig),
          b.trig_calls ++ [(b.musicTime, b.sample_position)])
    else some (b.s, b.data, next_trig, b.trig_calls)
  match fired with
  | none => none
  | some (s, data, next_trig, trig_calls) =>
    let next_sample_pos : Int := min (data.numSamples : Int) next_trig
    let next_sample_pos : Int :=
      if next_event ≥ 0 then min next_sample_pos next_event else next_sample_pos
    some (s, data, trig_calls, next_sample_pos)

/-- One iteration of the `while` loop of `process(data)`: `block_next`, then the assertion on
`next_sample_pos`, the processing of the segment when `num_samples` is not zero, and the
update of `musicTime` and `sample_position`. -/
def block_iteration (b : BlockState) : Option BlockState :=
  match block_next b with
  | none => none
  | some (s, data, trig_calls, next_sample_pos) =>
    let num_samples : Int := next_sample_pos - b.sample_position
    if next_sample_pos ≤ (data.numSamples : Int) then
      let processed : Option (VTrackEffect × ProcessData) :=
        if num_samples ≠ 0 then
          if 0 ≤ b.sample_position ∧ 0 ≤ num_samples then
            s.process data b.sample_position.toNat num_samples.toNat
          else none
        else some (s, data)
      match processed with
      | none => none
      | some r =>
        let musicTime := b.musicTime + (num_samples : ℚ) / r.1.samples_per_qn
        let musicTime :=
          if musicTime > (PATTERN_LENGTH_QN : ℚ) then musicTime - (PATTERN_LENGTH_QN : ℚ)
          else musicTime
        some { s := r.1, data := r.2, sample_position := next_sample_pos,
               musicTime := musicTime, trig_calls := trig_calls,
               segments := b.segments ++ [(b.sample_position, num_samples)] }
    else none

/-- The `while (sample_position < data.numSamples)` loop of `process(data)`, run for at most
`fuel` iterations. -/
def block_loop : Nat → BlockState → Outcome BlockState
  | 0, b =>
    if b.sample_position < (b.data.numSamples : Int) then Outcome.timeout else Outcome.done b
  | fuel + 1, b =>
    if b.sample_position < (b.data.numSamples : Int) then
      match block_iteration b with
      | none => Outcome.fault
      | some b => block_loop fuel b
    else Outcome.done b

/-- The block loop of `VTrackEffect::process(data)` with its initialisation and the final
`positionInPattern = musicTime`. -/
def VTrackEffect.process_block (fuel : Nat) (s : VTrackEffect) (data : ProcessData) :
    Outcome BlockState :=
  match block_loop fuel
      { s := s, data := data, sample_position := 0, musicTime := s.positionInPattern,
        trig_calls := [], segments := [] } with
  | Outcome.done b =>
    Outcome.done { b with s := { b.s with positionInPattern := b.musicTime } }
  | Outcome.fault => Outcome.fault
  | Outcome.timeout => Outcome.timeout

/-- The segments `(offset, count)` of the list follow one another from `a` to `b`, each with
a positive count: together they cover `[a, b)` without gap or overlap. -/
def SegmentsCover : List (Int × Int) → Int → Int → Prop
  | [], a, b => a = b
  | seg :: rest, a, b => seg.1 = a ∧ 0 < seg.2 ∧ SegmentsCover rest (a + seg.2) b

/-! ## Shared ownership of snapshots -/

/-- A cell of the heap of snapshots: an object created by `make_shared<DumbBuffer>` together
with the use count of its control block, or `none` once the count has reached 0 and the
object has been destroyed (`~DumbBuffer` deletes the sample array). -/
abbrev Cell : Type := Option (DumbBuffer × Nat)

/-- The engine at the level of its `shared_ptr<DumbBuffer>` members: the heap of snapshots and,
as addresses into it, the entries of the history stack of every input channel (front first)
and the `source` of the voice of every track (`none` is the empty pointer). -/
structure SharedState where
  heap : List Cell
  slots : Fin NUM_INPUTS → List Nat
  sources : Fin NUM_TRACKS → Option Nat

/-- The snapshot a pointer to address `a` refers to, if it has not been destroyed. -/
def SharedState.object (e : SharedState) (a : Nat) : Option DumbBuffer :=
  (e.heap.getD a none).map Prod.fst

/-- Copy of a `shared_ptr` to address `a`: the use count goes up by one. -/
def retain (heap : List Cell) (a : Nat) : List Cell :=
  match heap[a]? with
  | some (some (obj, n)) => heap.set a (some (obj, n + 1))
  | _ => heap

/-- Destruction of a `shared_ptr` to address `a`: the use count goes down by one, and the
object is destroyed when no owner is left. -/
def release (heap : List Cell) (a : Nat) : List Cell :=
  match heap[a]? with
  | some (some (obj, n)) => heap.set a (if n ≤ 1 then none else some (obj, n - 1))
  | _ => heap

/-- The statements of `InputChannel::latch()` on channel `c`, where `snap` is the snapshot
built by `sampler.latch()`: `make_shared` puts it at a new address with use count 1, the
pointer is moved to the front of the stack, and when the stack then has more than
`MAX_STACK_SIZE` entries, `pop_back` destroys the last pointer. -/
def SharedState.latch (e : SharedState) (c : Fin NUM_INPUTS) (snap : DumbBuffer) : SharedState :=
  let a := e.heap.length
  let heap := e.heap ++ [some (snap, 1)]
  let stack := a :: e.slots c
  if stack.length > MAX_STACK_SIZE then
    { e with
      heap := release heap (stack.getLast (List.cons_ne_nil _ _))
      slots := Function.update e.slots c stack.dropLast }
  else { e with heap := heap, slots := Function.update e.slots c stack }

/-- The assignment `playback.source = sample_stack[k]` of `process_trigs` for track `i` and
channel `c` (with `k` inside the stack): the pointer is copied, then the pointer the voice
held before is destroyed. -/
def SharedState.assign_source (e : SharedState) (i : Fin NUM_TRACKS) (c : Fin NUM_INPUTS)
    (k : Nat) : SharedState :=
  match (e.slots c)[k]? with
  | none => e
  | some a =>
    let heap := retain e.heap a
    let heap :=
      match e.sources i with
      | none => heap
      | some old => release heap old
    { e with heap := heap, sources := Function.update e.sources i (some a) }

/-- The state after the constructor: no snapshot, empty stacks, empty voices. -/
def SharedState.init : SharedState := ⟨[], fun _ => [], fun _ => none⟩

/-- The number of `shared_ptr`s to address `a` that the engine holds: the stack entries and the
voice sources equal to `a`. -/
def SharedState.owners (e : SharedState) (a : Nat) : Nat :=
  ((List.finRange NUM_INPUTS).map fun c => (e.slots c).count a).sum
    + ((List.finRange NUM_TRACKS).map fun i => if e.sources i = some a then 1 else 0).sum

/-- The use count of a cell; 0 for a destroyed object. -/
def use_count : Cell → Nat
  | some (_, n) => n
  | none => 0

/-- The invariant of reference counting: every pointer held refers to a cell of the heap, the
use count of every cell is the number of pointers to it, and a live object has an owner (so
that no pointer refers to a destroyed object). -/
def SharedState.Counted (e : SharedState) : Prop :=
  (∀ c, ∀ a ∈ e.slots c, a < e.heap.length) ∧
  (∀ i, ∀ a ∈ e.sources i, a < e.heap.length) ∧
  ∀ a, a < e.heap.length →
    use_count (e.heap.getD a none) = e.owners a ∧
      ((e.heap.getD a none).isSome = true → 0 < e.owners a)

instance (e : SharedState) : Decidable e.Counted := by
  unfold SharedState.Counted; infer_instance

/-- The engine state `s` is what the pointer-level state `e` denotes: the stack of every
channel holds the snapshots its pointers refer to, and the source of every voice is the
snapshot its pointer refers to. -/
def SharedState.Denotes (e : SharedState) (s : VTrackEffect) : Prop :=
  (∀ c, (e.slots c).map e.object = ((s.input_channels c).sample_stack.map some)) ∧
  (∀ i, (e.sources i).bind e.object = (s.tracks i).playback.source)

instance (e : SharedState) (s : VTrackEffect) : Decidable (e.Denotes s) := by
  unfold SharedState.Denotes; infer_instance

/-! ## Reads outside an allocation -/

/-- A reading of the expression `buf[i]`. `readAt` is the checked reading, under which the
functions above are stated. A build without bounds checks does not stop at a read outside the
allocation: the read yields whatever the memory at that address holds. The functions with
suffix `_with` are the same code as their namesakes, with the reading of the source buffer
as a parameter. -/
abbrev Read : Type := List ℚ → Nat → Option ℚ

/-- The unchecked reading of `buf[i]` when the memory after the allocation holds `beyond i`
at index `i`. -/
def readPast (beyond : Nat → ℚ) : Read := fun buf i => some (buf.getD i (beyond i))

/-- The growing loop of `set_length` (`set_length_grow_loop`) under the reading `read`. -/
def set_length_grow_loop_with (read : Read) (buffer : List ℚ) (length : Nat) :
    Nat → Nat → Nat → List ℚ → Option (List ℚ × Nat)
  | 0, _, new_position, new_buffer => some (new_buffer, new_position)
  | n + 1, p, new_position, new_buffer =>
    match read buffer p with
    | none => none
    | some v =>
      match writeAt new_buffer new_position v with
      | none => none
      | some nb =>
        let p := p + 1
        let p := if p = length then 0 else p
        set_length_grow_loop_with read buffer length n p (new_position + 1) nb

/-- The shrinking loop of `set_length` (`set_length_shrink_loop`) under the reading `read`. -/
def set_length_shrink_loop_with (read : Read) (buffer : List ℚ) (length : Nat) :
    Nat → Nat → List ℚ → Option (List ℚ)
  | 0, _, new_buffer => some new_buffer
  | n + 1, p, new_buffer =>
    match read buffer p with
    | none => none
    | some v =>
      match writeAt new_buffer n v with
      | none => none
      | some nb =>
        let p := if p > 0 then p - 1 else length
        set_length_shrink_loop_with read buffer length n p nb

/-- Embedding of `SampleBuffer::set_length(new_length)` under the reading `read`. -/
def SampleBuffer.set_length_with (read : Read) (fresh : Nat → ℚ) (sb : SampleBuffer)
    (new_length : Nat) : Option SampleBuffer :=
  if new_length = sb.length then some sb
  else
    let new_buffer := alloc fresh new_length
    if new_length ≥ sb.length then
      match set_length_grow_loop_with read sb.buffer sb.length sb.length sb.position 0
          new_buffer with
      | none => none
      | some (nb, new_position) =>
        match memset_zero nb new_position (new_length - sb.length) with
        | none => none
        | some nb => some ⟨nb, new_position, new_length⟩
    else
      match set_length_shrink_loop_with read sb.buffer sb.length new_length sb.position
          new_buffer with
      | none => none
      | some nb => some ⟨nb, 0, new_length⟩

/-- Body of the loop of `update_sample_buffers` under the reading `read`. -/
def update_sample_buffers_channel_with (read : Read) (fresh : Fin NUM_INPUTS → Nat → ℚ)
    (samplesPerBar : Nat) (s : VTrackEffect) (i : Fin NUM_INPUTS) : Option VTrackEffect :=
  match (s.input_channels i).sampler.set_length_with read (fresh i) samplesPerBar with
  | none => none
  | some sampler =>
    some { s with input_channels :=
      Function.update s.input_channels i { s.input_channels i with sampler := sampler } }

/-- Embedding of `VTrackEffect::update_sample_buffers()` under the reading `read`. -/
def VTrackEffect.update_sample_buffers_with (read : Read) (fresh : Fin NUM_INPUTS → Nat → ℚ)
    (s : VTrackEffect) : Option VTrackEffect :=
  let c : Int := ⌈s.samples_per_qn * (PATTERN_LENGTH_QN : ℚ)⌉
  if c < 0 then none
  else
    (List.finRange NUM_INPUTS).foldlM (update_sample_buffers_channel_with read fresh c.toNat) s

/-- Embedding of `VTrackEffect::set_tempo(new_tempo)` under the reading `read`. -/
def VTrackEffect.set_tempo_with (read : Read) (fresh : Fin NUM_INPUTS → Nat → ℚ)
    (s : VTrackEffect) (new_tempo : ℚ) : Option VTrackEffect :=
  if s.tempo ≠ new_tempo then
    VTrackEffect.update_sample_buffers_with read fresh { s with tempo := new_tempo }
  else some s

/-- The mixing loop of `process_inputs` (`mix_loop`) under the reading `read` of the input
channel buffer. -/
def mix_loop_with (read : Read) (f : ℚ) (inbuf : List ℚ) : Nat → Nat → Nat → List ℚ → Bool →
    Option (Nat × List ℚ × Bool)
  | 0, src, _, out, silent => some (src, out, silent)
  | n + 1, src, dst, out, silent =>
    match read inbuf src with
    | none => none
    | some v =>
      match writeAt out dst (v * f) with
      | none => none
      | some out =>
        let silent := if v * f ≠ 0 then false else silent
        mix_loop_with read f inbuf n (src + 1) (dst + 1) out silent

/-- Body of the `outc` loop of `process_inputs` under the reading `read`. -/
def process_inputs_out_with (read : Read) (inp : AudioBusBuffers) (c : Nat) (inbuf : List ℚ)
    (chan : InputChannel) (offset count : Nat) (acc : Nat × AudioBusBuffers)
    (outc : Fin NUM_OUTPUTS) : Option (Nat × AudioBusBuffers) :=
  let src := acc.1
  let outp := acc.2
  match outp.channelBuffers32[outc.val]? with
  | none => none
  | some outbuf =>
    let silent : Bool := inp.silenceFlags &&& (1 <<< c) != 0
    if silent then
      match memset_zero outbuf offset count with
      | none => none
      | some out =>
        some (src, { outp with channelBuffers32 := outp.channelBuffers32.set outc.val out })
    else
      let f := chan.direct outc
      match mix_loop_with read f inbuf count src offset outbuf true with
      | none => none
      | some (src, out, silent) =>
        let outp := { outp with channelBuffers32 := outp.channelBuffers32.set outc.val out }
        some (src,
          if !silent then { outp with silenceFlags := clear_silence outp.silenceFlags outc.val }
          else outp)

/-- Body of the channel loop of `process_inputs` under the reading `read`. -/
def process_inputs_channel_with (read : Read) (inp : AudioBusBuffers) (offset count : Nat)
    (acc : VTrackEffect × AudioBusBuffers × Nat) (c : Nat) :
    Option (VTrackEffect × AudioBusBuffers × Nat) :=
  let s := acc.1
  let outp := acc.2.1
  let input_channel_index := acc.2.2
  if h : input_channel_index < NUM_INPUTS then
    let chan := s.input_channels ⟨input_channel_index, h⟩
    match inp.channelBuffers32[c]? with
    | none => none
    | some inbuf =>
      match chan.sampler.add_samples (inbuf.drop offset) count with
      | none => none
      | some sampler =>
        let chan := { chan with sampler := sampler }
        let s := { s with
          input_channels := Function.update s.input_channels ⟨input_channel_index, h⟩ chan }
        match [(⟨0, by decide⟩ : Fin NUM_OUTPUTS), ⟨1, by decide⟩].foldlM
            (process_inputs_out_with read inp c inbuf chan offset count) (offset, outp) with
        | none => none
        | some r => some (s, r.2, input_channel_index + 1)
  else none

/-- Body of the bus loop of `process_inputs` under the reading `read`. -/
def process_inputs_bus_with (read : Read) (data : ProcessData) (offset count : Nat)
    (acc : VTrackEffect × AudioBusBuffers × Nat) (bus : Nat) :
    Option (VTrackEffect × AudioBusBuffers × Nat) :=
  match data.inputs[bus]? with
  | none => none
  | some inp =>
    if acc.2.1.numChannels = 2 then
      (List.range inp.numChannels).foldlM (process_inputs_channel_with read inp offset count) acc
    else none

/-- Embedding of `VTrackEffect::process_inputs(data, offset, count)` under the reading `read`. -/
def VTrackEffect.process_inputs_with (read : Read) (s : VTrackEffect) (data : ProcessData)
    (offset count : Nat) : Option (VTrackEffect × ProcessData) :=
  if data.numOutputs ≥ 1 ∧ count > 0 ∧ offset < data.numSamples ∧
      offset + count ≤ data.numSamples then
    match data.outputs[0]? with
    | none => none
    | some outp =>
      match (List.range data.numInputs).foldlM (process_inputs_bus_with read data offset count)
          (s, outp, 0) with
      | none => none
      | some r => some (r.1, { data with outputs := data.outputs.set 0 r.2.1 })
  else none

/-- Embedding of the overload `VTrackEffect::process(data, offset, count)` under the reading
`read`. -/
def VTrackEffect.process_with (read : Read) (s : VTrackEffect) (data : ProcessData)
    (offset count : Nat) : Option (VTrackEffect × ProcessData) :=
  match s.process_inputs_with read data offset count with
  | none => none
  | some r => r.1.process_samples r.2 offset count

/-- One iteration of the `while` loop of `process(data)` (`block_iteration`) under the reading
`read`. -/
def block_iteration_with (read : Read) (b : BlockState) : Option BlockState :=
  match block_next b with
  | none => none
  | some (s, data, trig_calls, next_sample_pos) =>
    let num_samples : Int := next_sample_pos - b.sample_position
    if next_sample_pos ≤ (data.numSamples : Int) then
      let processed : Option (VTrackEffect × ProcessData) :=
        if num_samples ≠ 0 then
          if 0 ≤ b.sample_position ∧ 0 ≤ num_samples then
            s.process_with read data b.sample_position.toNat num_samples.toNat
          else none
        else some (s, data)
      match processed with
      | none => none
      | some r =>
        let musicTime := b.musicTime + (num_samples : ℚ) / r.1.samples_per_qn
        let musicTime :=
          if musicTime > (PATTERN_LENGTH_QN : ℚ) then musicTime - (PATTERN_LENGTH_QN : ℚ)
          else musicTime
        some { s := r.1, data := r.2, sample_position := next_sample_pos,
               musicTime := musicTime, trig_calls := trig_calls,
               segments := b.segments ++ [(b.sample_position, num_samples)] }
    else none

/-- The `while (sample_position < data.numSamples)` loop of `process(data)`, run for at most
`fuel` iterations, under the reading `read`. -/
def block_loop_with (read : Read) : Nat → BlockState → Outcome BlockState
  | 0, b =>
    if b.sample_position < (b.data.numSamples : Int) then Outcome.timeout else Outcome.done b
  | fuel + 1, b =>
    if b.sample_position < (b.data.numSamples : Int) then
      match block_iteration_with read b with
      | none => Outcome.fault
      | some b => block_loop_with read fuel b
    else Outcome.done b

/-- The block loop of `VTrackEffect::process(data)` with its initialisation and the final
`positionInPattern = musicTime`, under the reading `read`. -/
def VTrackEffect.process_block_with (read : Read) (fuel : Nat) (s : VTrackEffect)
    (data : ProcessData) : Outcome BlockState :=
  match block_loop_with read fuel
      { s := s, data := data, sample_position := 0, musicTime := s.positionInPattern,
        trig_calls := [], segments := [] } with
  | Outcome.done b =>
    Outcome.done { b with s := { b.s with positionInPattern := b.musicTime } }
  | Outcome.fault => Outcome.fault
  | Outcome.timeout => Outcome.timeout

/-! ## Blocks without faults -/

/-- The main output bus as `process_inputs` and `process_samples` need it for a block of `n`
samples: two channels, each with a buffer of at least `n` samples. -/
def OutputReady (n : Nat) (outp : AudioBusBuffers) : Prop :=
  outp.numChannels = 2 ∧ 2 ≤ outp.channelBuffers32.length ∧
    ∀ j, j < 2 → n ≤ (outp.channelBuffers32.getD j []).length

/-- An input bus as `process_inputs` needs it for a block of `n` samples: at most two channels
(the plug-in declares stereo inputs), each with a buffer of at least `n` samples. -/
def InputReady (n : Nat) (inp : AudioBusBuffers) : Prop :=
  inp.numChannels ≤ 2 ∧ inp.numChannels ≤ inp.channelBuffers32.length ∧
    ∀ c, c < inp.numChannels → n ≤ (inp.channelBuffers32.getD c []).length

/-- Host data as the plug-in's bus arrangement promises it: a main output bus ready for the
block and at most two input buses, each ready for the block (so that no more than
`NUM_INPUTS` input channels arrive). -/
def DataReady (data : ProcessData) : Prop :=
  1 ≤ data.numOutputs ∧ OutputReady data.numSamples (data.outputs.getD 0 ⟨0, 0, []⟩) ∧
    data.numInputs ≤ 2 ∧ data.numInputs ≤ data.inputs.length ∧
    ∀ b, b < data.numInputs → InputReady data.numSamples (data.inputs.getD b ⟨0, 0, []⟩)

/-- An engine that captures and mixes its inputs but plays nothing: every capture buffer is
allocated with its length and has its cursor inside, every voice is idle, and no sample
trigger is enabled. -/
def CaptureOnly (s : VTrackEffect) : Prop :=
  (∀ c, (s.input_channels c).sampler.buffer.length = (s.input_channels c).sampler.length ∧
    (s.input_channels c).sampler.position < (s.input_channels c).sampler.length) ∧
  (∀ i, (s.tracks i).playback.rate = 0) ∧
  ∀ i t, ((s.tracks i).sample_trigs t).enabled = false

instance (n : Nat) (outp : AudioBusBuffers) : Decidable (OutputReady n outp) := by
  unfold OutputReady; infer_instance

instance (n : Nat) (inp : AudioBusBuffers) : Decidable (InputReady n inp) := by
  unfold InputReady; infer_instance

instance (data : ProcessData) : Decidable (DataReady data) := by
  unfold DataReady; infer_instance

instance (s : VTrackEffect) : Decidable (CaptureOnly s) := by
  unfold CaptureOnly; infer_instance

/-- The accumulator of the loops of `process_inputs`, started on engine `s`: tracks and tempo
are those of `s`, every capture buffer is consistent with its cursor inside, and the main
output bus is ready for `n` samples. -/
def InputsAcc (s : VTrackEffect) (n : Nat) (acc : VTrackEffect × AudioBusBuffers × Nat) : Prop :=
  acc.1.tracks = s.tracks ∧ acc.1.tempo = s.tempo ∧
  (∀ k, (acc.1.input_channels k).sampler.buffer.length
      = (acc.1.input_channels k).sampler.length ∧
    (acc.1.input_channels k).sampler.position < (acc.1.input_channels k).sampler.length) ∧
  OutputReady n acc.2.1

/-! ## Example states -/

/-- A channel with an empty stack whose capture buffer is the one-slot ring holding `7`. -/
def channel_example : InputChannel :=
  { InputChannel.init with sampler := ⟨[7], 0, 1⟩ }

/-- Seventeen one-slot capture states holding `0, 1, ..., 16`. -/
def capture_states_example : List SampleBuffer :=
  (List.range 17).map fun k => ⟨[(k : ℚ)], 0, 1⟩

/-- One-slot snapshot holding `v`. -/
def snapshot_example (v : ℚ) : DumbBuffer := ⟨[v], 1⟩

/-- An engine state at 120 BPM: every input channel has a one-slot capture buffer and three
stacked snapshots; track 0 has a running voice and, at every step, an enabled stack-mode sample
trigger with composite index `k` and rate 2. -/
def engine_example (k : Nat) : VTrackEffect :=
  { tracks := fun i =>
      if i.val = 0 then
        { Track.init with
          sample_trigs := fun _ => ⟨kSampleStack ||| kSampleEnable, k, 2⟩
          playback := ⟨some (snapshot_example 9), 1, 1 / 2⟩ }
      else Track.init
    input_channels := fun _ =>
      { InputChannel.init with
        sampler := ⟨[7], 0, 1⟩
        sample_stack := [snapshot_example 1, snapshot_example 2, snapshot_example 3] }
    tempo := 120
    positionInPattern := 0
    last_vu := 0 }

/-- Host data with one stereo output bus of four samples and no events. -/
def data_example : ProcessData :=
  { numSamples := 4, numInputs := 0, numOutputs := 1, inputs := []
    outputs := [⟨2, 3, [[0, 0, 0, 0], [0, 0, 0, 0]]⟩]
    inputEvents := [], outputEvents := [] }

/-- An engine state at 120 BPM whose track 0 plays an eight-sample snapshot at rate 2 from
position 0; all other voices are idle. -/
def engine_pitched_example : VTrackEffect :=
  { tracks := fun i =>
      if i.val = 0 then
        { Track.init with playback := ⟨some ⟨[1, 2, 3, 4, 5, 6, 7, 8], 8⟩, 2, 0⟩ }
      else Track.init
    input_channels := fun _ => InputChannel.init
    tempo := 120
    positionInPattern := 0
    last_vu := 0 }

/-- An engine state at 120 BPM in which input channel 0 is armed, has a one-slot capture
buffer holding `7` and, at every step, an enabled one-shot latch trigger; track 2 has, at every
step, an enabled note trigger with note 60 and a duration of half a quarter note. -/
def engine_latch_example : VTrackEffect :=
  { tracks := fun i =>
      if i.val = 2 then { Track.init with midi_trigs := fun _ => ⟨kMidiEnable, 60, 0, 1 / 2⟩ }
      else Track.init
    input_channels := fun c =>
      if c.val = 0 then
        { InputChannel.init with
          sampler := ⟨[7], 0, 1⟩
          latch_trigs := fun _ => true
          latch_trig_oneshots := fun _ => true
          armed := true }
      else InputChannel.init
    tempo := 120
    positionInPattern := 0
    last_vu := 0 }

/-- An engine state in which the stack of every input channel is full (sixteen one-slot
snapshots holding `0, ..., 15`, newest first) and the voice of track 0 plays the oldest one. -/
def engine_full_example : VTrackEffect :=
  { tracks := fun i =>
      if i.val = 0 then { Track.init with playback := ⟨some (snapshot_example 15), 1, 0⟩ }
      else Track.init
    input_channels := fun _ =>
      { InputChannel.init with
        sampler := ⟨[7], 0, 1⟩
        sample_stack := (List.range 16).map fun k => snapshot_example (k : ℚ) }
    tempo := 120
    positionInPattern := 0
    last_vu := 0 }

/-- An engine state at `tempo` BPM and pattern position `position` with idle voices, all
triggers off and empty capture buffers. -/
def engine_idle_example (tempo position : ℚ) : VTrackEffect :=
  { tracks := fun _ => Track.init
    input_channels := fun _ => InputChannel.init
    tempo := tempo
    positionInPattern := position
    last_vu := 0 }

/-- Host data for a block of `n` samples: no input bus, one silent stereo output bus, no
events. -/
def data_block_example (n : Nat) : ProcessData :=
  { numSamples := n, numInputs := 0, numOutputs := 1, inputs := []
    outputs := [⟨2, 3, [List.replicate n 0, List.replicate n 0]⟩]
    inputEvents := [], outputEvents := [] }

/-- An engine state at 120 BPM whose input channels have the direct gains set by the
constructor (1 to the two main outputs) and three-slot capture buffers. -/
def engine_mix_example : VTrackEffect :=
  { tracks := fun _ => Track.init
    input_channels := fun _ =>
      { InputChannel.init with
        sampler := ⟨[0, 0, 0], 0, 3⟩
        direct := fun o => if o.val < 2 then 1 else 0 }
    tempo := 120
    positionInPattern := 0
    last_vu := 0 }

/-- Host data for a block of four samples with one stereo input bus, channel A holding
`1, 2, 3, 4` and channel B holding `10, 20, 30, 40`, neither flagged silent. -/
def data_mix_example : ProcessData :=
  { numSamples := 4, numInputs := 1, numOutputs := 1
    inputs := [⟨2, 0, [[1, 2, 3, 4], [10, 20, 30, 40]]⟩]
    outputs := [⟨2, 3, [[0, 0, 0, 0], [0, 0, 0, 0]]⟩]
    inputEvents := [], outputEvents := [] }

/-- An engine state at 120 BPM with the triggers set by the constructor (track 0, step 0: an
enabled stack-mode sample trigger with index 0; channel 0, step 0: a one-shot latch trigger),
idle voices without source, and in addition on track 1, step 0, a sample trigger with only the
enable flag set (direct-sample mode). -/
def engine_direct_example : VTrackEffect :=
  { tracks := fun i =>
      if i.val = 0 then
        { Track.init with sample_trigs := fun t =>
            if t.val = 0 then ⟨kSampleStack ||| kSampleEnable, 0, 1⟩ else SampleTrig.init }
      else if i.val = 1 then
        { Track.init with sample_trigs := fun t =>
            if t.val = 0 then ⟨kSampleEnable, 0, 1⟩ else SampleTrig.init }
      else Track.init
    input_channels := fun c =>
      { InputChannel.init with
        sampler := ⟨[0, 0, 0], 0, 3⟩
        direct := fun o => if o.val < 2 then 1 else 0
        latch_trigs := fun t => decide (c.val = 0 ∧ t.val = 0)
        latch_trig_oneshots := fun t => decide (c.val = 0 ∧ t.val = 0) }
    tempo := 120
    positionInPattern := 0
    last_vu := 0 }

/-- A capture-only engine at 120 BPM: direct gains 1 to the two main outputs, eight-slot
capture buffers, idle voices, no sample trigger; channel 0 is armed and has a one-shot latch
trigger at step 0, and track 1 has an enabled note trigger at step 0. -/
def engine_live_example : VTrackEffect :=
  { tracks := fun i =>
      if i.val = 1 then
        { Track.init with
          midi_trigs := fun t => if t.val = 0 then ⟨kMidiEnable, 60, 0, 1⟩ else MidiTrig.init }
      else Track.init
    input_channels := fun c =>
      { InputChannel.init with
        sampler := ⟨[0, 0, 0, 0, 0, 0, 0, 0], 0, 8⟩
        direct := fun o => if o.val < 2 then 1 else 0
        latch_trigs := fun t => decide (c.val = 0 ∧ t.val = 0)
        latch_trig_oneshots := fun t => decide (c.val = 0 ∧ t.val = 0)
        armed := decide (c.val = 0) }
    tempo := 120
    positionInPattern := 0
    last_vu := 0 }

/-- Host data for a block of six samples with one stereo input bus, channel A holding
`1, ..., 6` and channel B holding `10, ..., 60`, neither flagged silent, and two queued
events at offsets 2 and 4. -/
def data_live_example : ProcessData :=
  { numSamples := 6, numInputs := 1, numOutputs := 1
    inputs := [⟨2, 0, [[1, 2, 3, 4, 5, 6], [10, 20, 30, 40, 50, 60]]⟩]
    outputs := [⟨2, 3, [[0, 0, 0, 0, 0, 0], [0, 0, 0, 0, 0, 0]]⟩]
    inputEvents :=
      [⟨0, 2, 0, EventData.noteOn 0 60 0 (-1)⟩, ⟨0, 4, 0, EventData.noteOff 0 60 (-1)⟩]
    outputEvents := [] }

/-- An engine state at 120 BPM with empty capture buffers in which track 2 has, at every step,
an enabled note trigger with note 60 and a duration of 4.3 quarter notes (the `double` nearest
to 4.3). -/
def engine_note_example : VTrackEffect :=
  { tracks := fun i =>
      if i.val = 2 then
        { Track.init with
          midi_trigs := fun _ => ⟨kMidiEnable, 60, 0, 4841369599423283 / 1125899906842624⟩ }
      else Track.init
    input_channels := fun _ => InputChannel.init
    tempo := 120
    positionInPattern := 0
    last_vu := 0 }

/-- The pointer-level state of `engine_full_example`: 64 snapshots, the stack of channel `c`
holding the addresses `16 c, ..., 16 c + 15`, and the voice of track 0 holding a second pointer
to the last (oldest) snapshot of channel 0, at address 15. -/
def shared_full_example : SharedState :=
  { heap := (List.range 64).map fun a =>
      some (snapshot_example ((a % 16 : Nat) : ℚ), if a = 15 then 2 else 1)
    slots := fun c => (List.range 16).map fun k => 16 * c.val + k
    sources := fun i => if i.val = 0 then some 15 else none }

/-! ## Theorems -/

theorem writeAt_eq_some {buf : List ℚ} {i : Nat} (v : ℚ) (h : i < buf.length) :
    writeAt buf i v = some (buf.set i v) := by
  simp [writeAt, h]

theorem length_alloc (fresh : Nat → ℚ) (n : Nat) : (alloc fresh n).length = n := by
  simp [alloc]

/-- The growing loop copies `n` slots, starting at read cursor `p` and write cursor `np`,
wrapping the read cursor, and leaves all other slots of the target alone. -/
theorem set_length_grow_loop_spec (buffer : List ℚ) (length : Nat) (hlen : buffer.length = length) :
    ∀ (n p np : Nat) (nb : List ℚ), p < length → np + n ≤ nb.length →
      ∃ nb', set_length_grow_loop buffer length n p np nb = some (nb', np + n) ∧
        nb'.length = nb.length ∧
        (∀ j, j < np ∨ np + n ≤ j → nb'[j]? = nb[j]?) ∧
        (∀ i, i < n → nb'[np + i]? = buffer[(p + i) % length]?) := by
  intro n
  induction n with
  | zero =>
    intro p np nb _ _
    exact ⟨nb, by simp [set_length_grow_loop], rfl, fun _ _ => rfl, fun i hi => by omega⟩
  | succ n ih =>
    intro p np nb hp hnp
    have hread : readAt buffer p = some (buffer.get ⟨p, by omega⟩) := by
      simp [readAt, List.getElem?_eq_getElem (show p < buffer.length by omega)]
    have hwrite := writeAt_eq_some (buffer.get ⟨p, by omega⟩) (show np < nb.length by omega)
    have hp' : (if p + 1 = length then 0 else p + 1) < length := by
      split <;> omega
    obtain ⟨nb', hrun, hl, hout, hin⟩ :=
      ih (if p + 1 = length then 0 else p + 1) (np + 1)
        (nb.set np (buffer.get ⟨p, by omega⟩)) hp' (by simp; omega)
    refine ⟨nb', ?_, ?_, ?_, ?_⟩
    · simp only [set_length_grow_loop, hread, hwrite]
      rw [hrun]
      congr 2
      omega
    · simpa using hl
    · intro j hj
      rw [hout j (by omega), List.getElem?_set]
      have : np ≠ j := by omega
      simp [this]
    · intro i hi
      rcases Nat.eq_zero_or_pos i with h0 | hpos
      · subst h0
        simp only [Nat.add_zero]
        rw [hout np (by omega), List.getElem?_set]
        simp only [if_true]
        rw [if_pos (by omega), Nat.mod_eq_of_lt hp,
          List.getElem?_eq_getElem (show p < buffer.length by omega)]
        rfl
      · obtain ⟨k, rfl⟩ : ∃ k, i = k + 1 := ⟨i - 1, by omega⟩
        have h1 := hin k (by omega)
        have e1 : np + (k + 1) = np + 1 + k := by omega
        rw [e1, h1]
        congr 1
        by_cases hw : p + 1 = length
        · rw [if_pos hw]
          have : p + (k + 1) = length + k := by omega
          rw [this, Nat.add_mod_left, Nat.zero_add]
        · rw [if_neg hw]
          congr 1
          omega

/-- The model of `memset` zeroes exactly the requested range. -/
theorem memset_zero_spec (start : Nat) :
    ∀ (count : Nat) (buf : List ℚ), start + count ≤ buf.length →
      ∃ b, memset_zero buf start count = some b ∧ b.length = buf.length ∧
        (∀ j, j < start ∨ start + count ≤ j → b[j]? = buf[j]?) ∧
        (∀ j, start ≤ j → j < start + count → b[j]? = some 0) := by
  intro count
  induction count with
  | zero =>
    intro buf _
    exact ⟨buf, rfl, rfl, fun _ _ => rfl, fun j h1 h2 => by omega⟩
  | succ c ih =>
    intro buf h
    obtain ⟨b, hrun, hl, hout, hin⟩ := ih buf (by omega)
    refine ⟨b.set (start + c) 0, ?_, by simpa using hl, ?_, ?_⟩
    · simp only [memset_zero, hrun]
      exact writeAt_eq_some 0 (by omega)
    · intro j hj
      rw [List.getElem?_set]
      have : start + c ≠ j := by omega
      simp only [this, if_false]
      exact hout j (by omega)
    · intro j h1 h2
      rw [List.getElem?_set]
      by_cases e : start + c = j
      · simp only [e, if_true]
        rw [if_pos (by omega)]
      · simp only [e, if_false]
        exact hin j h1 (by omega)

/-- **C1.** Growing a capture buffer preserves its history: for a buffer of length `L1` with
write cursor `p` (`p < L1`, or `L1 = 0`) and any `L2 > L1`, `set_length L2` succeeds whatever the
fresh memory holds; the result has length `L2`, its write cursor is `L1`, slot `i < L1` holds
`old[(p + i) mod L1]` (oldest first) and every slot in `[L1, L2)` holds `0`. -/
theorem set_length_grow_preserves_history (fresh : Nat → ℚ) (sb : SampleBuffer)
    (L2 : Nat) (hwf : sb.WF) (hgrow : sb.length < L2) :
    ∃ sb', sb.set_length fresh L2 = some sb' ∧
      sb'.length = L2 ∧ sb'.buffer.length = L2 ∧ sb'.position = sb.length ∧
      (∀ i, i < sb.length →
        sb'.buffer[i]? = sb.buffer[(sb.position + i) % sb.length]? ∧
        (sb'.buffer[i]?).isSome = true) ∧
      (∀ i, sb.length ≤ i → i < L2 → sb'.buffer[i]? = some 0) := by
  obtain ⟨hlen, hpos⟩ := hwf
  have hne : ¬ L2 = sb.length := by omega
  have hge : L2 ≥ sb.length := by omega
  have key : ∃ nb', set_length_grow_loop sb.buffer sb.length sb.length sb.position 0
        (alloc fresh L2) = some (nb', 0 + sb.length) ∧
        nb'.length = (alloc fresh L2).length ∧
        (∀ j, j < 0 ∨ 0 + sb.length ≤ j → nb'[j]? = (alloc fresh L2)[j]?) ∧
        (∀ i, i < sb.length → nb'[0 + i]? = sb.buffer[(sb.position + i) % sb.length]?) := by
    rcases hpos with hp | h0
    · exact set_length_grow_loop_spec sb.buffer sb.length hlen sb.length sb.position 0
        (alloc fresh L2) hp (by rw [length_alloc]; omega)
    · rw [h0]
      exact ⟨alloc fresh L2, by simp [set_length_grow_loop], rfl, fun _ _ => rfl,
        fun i hi => by omega⟩
  obtain ⟨nb', hrun, hl, -, hin⟩ := key
  rw [length_alloc] at hl
  obtain ⟨b, hms, hbl, hbout, hbin⟩ :=
    memset_zero_spec (0 + sb.length) (L2 - sb.length) nb' (by omega)
  refine ⟨⟨b, 0 + sb.length, L2⟩, ?_, rfl, by simp [hbl, hl], by simp, ?_, ?_⟩
  · simp only [SampleBuffer.set_length, hne, hge, if_false, if_true, hrun, hms]
  · intro i hi
    have e : b[i]? = sb.buffer[(sb.position + i) % sb.length]? := by
      rw [hbout i (by omega)]
      simpa using hin i hi
    refine ⟨e, ?_⟩
    show (b[i]?).isSome = true
    rw [e, List.getElem?_eq_getElem (by rw [hlen]; exact Nat.mod_lt _ (by omega))]
    rfl
  · intro i h1 h2
    exact hbin i (by omega) (by omega)

/-- Witness for C1: a wrapped four-slot ring grown to six slots. -/
theorem set_length_grow_preserves_history_witness :
    (⟨[10, 11, 12, 13], 2, 4⟩ : SampleBuffer).WF ∧ (4 : Nat) < 6 ∧
    ∃ sb', (⟨[10, 11, 12, 13], 2, 4⟩ : SampleBuffer).set_length (fun _ => 7) 6 = some sb' ∧
      sb'.length = 6 ∧ sb'.buffer.length = 6 ∧ sb'.position = 4 ∧
      (∀ i, i < 4 →
        sb'.buffer[i]? = ([10, 11, 12, 13] : List ℚ)[(2 + i) % 4]? ∧
        (sb'.buffer[i]?).isSome = true) ∧
      (∀ i, 4 ≤ i → i < 6 → sb'.buffer[i]? = some 0) :=
  ⟨by decide, by decide,
    set_length_grow_preserves_history (fun _ => 7) ⟨[10, 11, 12, 13], 2, 4⟩ 6
      (by decide) (by decide)⟩

/-- **C2.** Shrinking does not keep exactly the newest samples. On the ring `[10, 11, 12, 13]`
with write cursor 2 (chronological content 12, 13, 10, 11) `set_length 2` returns `[11, 12]`:
the copy starts at the cursor slot, which holds the oldest sample, instead of the slot before
it, so the result is not `old[(p - L2 + i) mod L1]`, which would be `[10, 11]`. -/
theorem set_length_shrink_starts_at_cursor :
    (⟨[10, 11, 12, 13], 2, 4⟩ : SampleBuffer).set_length (fun _ => 0) 2
        = some ⟨[11, 12], 0, 2⟩ ∧
      ¬ (∀ i, i < 2 →
          ([11, 12] : List ℚ)[i]? = ([10, 11, 12, 13] : List ℚ)[(2 + 4 - 2 + i) % 4]?) := by
  refine ⟨by decide, ?_⟩
  intro h
  exact absurd (h 0 (by decide)) (by decide)

/-- The copy loop of `copy_circular` succeeds on a consistent ring and appends the `n` slots
that follow the cursor: the first slot copied is `source[(position + 1) mod length]`. -/
theorem copy_circular_loop_spec (source : List ℚ) (length : Nat)
    (hlen : source.length = length) :
    ∀ (n position : Nat) (output : List ℚ), position < length →
      ∃ out', copy_circular_loop source length n position output = some out' ∧
        out'.length = output.length + n ∧
        (∀ j, j < output.length → out'[j]? = output[j]?) ∧
        (∀ i, i < n → out'[output.length + i]? = source[(position + 1 + i) % length]?) := by
  intro n
  induction n with
  | zero =>
    intro position output _
    exact ⟨output, rfl, rfl, fun _ _ => rfl, fun i hi => by omega⟩
  | succ n ih =>
    intro position output hp
    have hp' : (if position + 1 = length then 0 else position + 1) < length := by
      split <;> omega
    have hmod : (if position + 1 = length then 0 else position + 1) = (position + 1) % length := by
      split
      · next h => rw [h, Nat.mod_self]
      · next h => rw [Nat.mod_eq_of_lt (by omega)]
    have hread : readAt source (if position + 1 = length then 0 else position + 1)
        = some (source.get ⟨if position + 1 = length then 0 else position + 1, by omega⟩) := by
      simp only [readAt]
      exact List.getElem?_eq_getElem (by omega)
    obtain ⟨out', hrun, hl, hpre, hin⟩ :=
      ih (if position + 1 = length then 0 else position + 1)
        (output ++ [source.get ⟨if position + 1 = length then 0 else position + 1, by omega⟩]) hp'
    refine ⟨out', ?_, ?_, ?_, ?_⟩
    · simp only [copy_circular_loop, hread]
      exact hrun
    · rw [hl]; simp; omega
    · intro j hj
      rw [hpre j (by simp; omega), List.getElem?_append_left hj]
    · intro i hi
      rcases Nat.eq_zero_or_pos i with h0 | hpos
      · subst h0
        simp only [Nat.add_zero]
        rw [hpre output.length (by simp), List.getElem?_append_right (Nat.le_refl _)]
        simp only [Nat.sub_self, List.getElem?_cons_zero]
        have e : source[(position + 1) % length]?
            = source[if position + 1 = length then 0 else position + 1]? :=
          congrArg (fun j => source[j]?) hmod.symm
        rw [e]
        exact (List.getElem?_eq_getElem _).symm
      · obtain ⟨k, rfl⟩ : ∃ k, i = k + 1 := ⟨i - 1, by omega⟩
        have h1 := hin k (by omega)
        simp only [List.length_append, List.length_singleton] at h1
        have e1 : output.length + (k + 1) = output.length + 1 + k := by omega
        rw [e1, h1, hmod]
        congr 1
        rw [Nat.add_assoc, Nat.mod_add_mod]
        congr 1
        omega

/-- On a consistent capture buffer `latch()` returns a snapshot of the buffer's length; its slot
`i` holds `buffer[(position + 1 + i) mod length]`. -/
theorem latch_spec (sb : SampleBuffer) (hwf : sb.WF) :
    ∃ snap, sb.latch = some snap ∧ snap.length = sb.length ∧
      snap.buffer.length = sb.length ∧
      (∀ i, i < sb.length →
        snap.buffer[i]? = sb.buffer[(sb.position + 1 + i) % sb.length]?) := by
  obtain ⟨hlen, hpos⟩ := hwf
  rcases hpos with hp | h0
  · obtain ⟨out', hrun, hl, -, hin⟩ :=
      copy_circular_loop_spec sb.buffer sb.length hlen sb.length sb.position [] hp
    refine ⟨⟨out', sb.length⟩, ?_, rfl, by simpa using hl, ?_⟩
    · simp only [SampleBuffer.latch, DumbBuffer.copy_circular, hrun]
    · intro i hi
      simpa using hin i hi
  · refine ⟨⟨[], sb.length⟩, ?_, rfl, by simp [h0], fun i hi => by omega⟩
    simp only [SampleBuffer.latch, DumbBuffer.copy_circular, h0, copy_circular_loop]

/-- **C3.** `latch()` does not return the contents oldest first. On the ring `[10, 11, 12]` with
write cursor 1 the chronological content is `buffer[(1 + i) mod 3]`, that is `[11, 12, 10]`, but
the snapshot is `[12, 10, 11]`: the cursor is incremented before the first read, so the snapshot
starts one slot late and ends with the oldest sample. -/
theorem latch_starts_after_cursor :
    (⟨[10, 11, 12], 1, 3⟩ : SampleBuffer).latch = some ⟨[12, 10, 11], 3⟩ ∧
      ¬ (∀ i, i < 3 →
          ([12, 10, 11] : List ℚ)[i]? = ([10, 11, 12] : List ℚ)[(1 + i) % 3]?) := by
  refine ⟨by decide, ?_⟩
  intro h
  exact absurd (h 0 (by decide)) (by decide)

theorem take_append_take (n : Nat) (A B : List DumbBuffer) :
    (A ++ B.take n).take n = (A ++ B).take n := by
  rw [List.take_append_eq_append_take, List.take_append_eq_append_take, List.take_take]
  congr 2
  omega

/-- One `latch()` on a consistent channel whose stack is within bounds. -/
theorem channel_latch_spec (ch : InputChannel) (hwf : ch.sampler.WF)
    (hsize : ch.sample_stack.length ≤ MAX_STACK_SIZE) :
    ∃ snap, ch.sampler.latch = some snap ∧
      ch.latch = some { ch with sample_stack := (snap :: ch.sample_stack).take MAX_STACK_SIZE } := by
  obtain ⟨snap, hsnap, -⟩ := latch_spec ch.sampler hwf
  refine ⟨snap, hsnap, ?_⟩
  simp only [InputChannel.latch, hsnap]
  congr 2
  by_cases h : (snap :: ch.sample_stack).length > MAX_STACK_SIZE
  · rw [if_pos h, List.dropLast_eq_take]
    congr 1
    simp only [List.length_cons] at h ⊢
    omega
  · rw [if_neg h, List.take_of_length_le (by omega)]

/-- A run of latches from a stack within bounds: the stack is the newest snapshots first,
followed by the old stack, cut at `MAX_STACK_SIZE`. -/
theorem latch_run_spec :
    ∀ (ss : List SampleBuffer) (ch : InputChannel), (∀ s ∈ ss, s.WF) →
      ch.sample_stack.length ≤ MAX_STACK_SIZE →
      ∃ (snaps : List DumbBuffer) (ch' : InputChannel),
        ss.map SampleBuffer.latch = snaps.map some ∧
        latch_run ch ss = some ch' ∧
        ch'.sample_stack = (snaps.reverse ++ ch.sample_stack).take MAX_STACK_SIZE := by
  intro ss
  induction ss with
  | nil =>
    intro ch _ hsize
    exact ⟨[], ch, rfl, rfl, by simp [List.take_of_length_le hsize]⟩
  | cons s ss ih =>
    intro ch hss hsize
    obtain ⟨snap, hsnap, hlatch⟩ :=
      channel_latch_spec { ch with sampler := s } (hss s (by simp)) hsize
    obtain ⟨snaps, ch', hmap, hrun, hstack⟩ :=
      ih { ch with sampler := s, sample_stack := (snap :: ch.sample_stack).take MAX_STACK_SIZE }
        (fun t ht => hss t (by simp [ht]))
        (by rw [List.length_take]; exact Nat.min_le_left _ _)
    refine ⟨snap :: snaps, ch', ?_, ?_, ?_⟩
    · simp only [List.map_cons, hmap]
      exact congrArg (· :: List.map some snaps) hsnap
    · simp only [latch_run, hlatch]
      exact hrun
    · rw [hstack]
      simp only [List.reverse_cons, List.append_assoc, List.singleton_append]
      exact take_append_take MAX_STACK_SIZE snaps.reverse (snap :: ch.sample_stack)

/-- **C4.** The history stack is a bounded most-recent-first stack. For a consistent channel
whose stack holds at most 16 snapshots, `latch()` leaves the first 16 elements of (new snapshot
followed by the old stack); after any run of latches the stack still holds at most 16; and a run
of 17 latches from an empty stack leaves exactly 16 snapshots, slot `k` holding the snapshot of
latch number `17 - k` (that is latches 17, 16, ..., 2), the first one being gone. -/
theorem history_stack_bounded (ch : InputChannel) (ss : List SampleBuffer)
    (hwf : ch.sampler.WF) (hss : ∀ s ∈ ss, s.WF)
    (hsize : ch.sample_stack.length ≤ MAX_STACK_SIZE) :
    (∃ snap, ch.sampler.latch = some snap ∧
      ch.latch = some { ch with sample_stack := (snap :: ch.sample_stack).take 16 }) ∧
    (∃ ch', latch_run ch ss = some ch' ∧ ch'.sample_stack.length ≤ 16 ∧
      (ch.sample_stack = [] → ss.length = 17 →
        ch'.sample_stack.length = 16 ∧
        ∀ k, k < 16 → ch'.sample_stack[k]? = (ss[16 - k]?).bind SampleBuffer.latch ∧
          (ch'.sample_stack[k]?).isSome = true)) := by
  refine ⟨channel_latch_spec ch hwf hsize, ?_⟩
  obtain ⟨snaps, ch', hmap, hrun, hstack⟩ := latch_run_spec ss ch hss hsize
  refine ⟨ch', hrun, ?_, ?_⟩
  · rw [hstack, List.length_take]
    exact Nat.min_le_left _ _
  · intro hempty h17
    have hlen : snaps.length = 17 := by
      have := congrArg List.length hmap
      simpa [h17] using this.symm
    have hst : ch'.sample_stack = snaps.reverse.take 16 := by
      rw [hstack, hempty, List.append_nil]
    refine ⟨by rw [hst, List.length_take, List.length_reverse, hlen]; rfl, ?_⟩
    intro k hk
    have h1 : ch'.sample_stack[k]? = snaps[16 - k]? := by
      rw [hst, List.getElem?_take_of_lt hk,
        List.getElem?_reverse (by rw [hlen]; omega), hlen]
    have h2 : (ss[16 - k]?).map SampleBuffer.latch = (snaps[16 - k]?).map some := by
      rw [← List.getElem?_map, ← List.getElem?_map, hmap]
    have h3 : snaps[16 - k]? = some (snaps.get ⟨16 - k, by rw [hlen]; omega⟩) :=
      List.getElem?_eq_getElem _
    have h4 : ss[16 - k]? = some (ss.get ⟨16 - k, by rw [h17]; omega⟩) :=
      List.getElem?_eq_getElem _
    rw [h3, h4] at h2
    simp only [Option.map_some', Option.some.injEq] at h2
    rw [h1, h4, h3]
    exact ⟨by simp only [Option.some_bind, h2], rfl⟩

/-- Witness for C4: seventeen latches from an empty stack leave sixteen snapshots. -/
theorem history_stack_bounded_witness :
    channel_example.sampler.WF ∧ (∀ s ∈ capture_states_example, s.WF) ∧
    channel_example.sample_stack.length ≤ MAX_STACK_SIZE ∧
    ∃ ch', latch_run channel_example capture_states_example = some ch' ∧
      ch'.sample_stack.length = 16 := by
  have hwf : channel_example.sampler.WF := by decide
  have hss : ∀ s ∈ capture_states_example, s.WF := by
    intro s hs
    simp only [capture_states_example, List.mem_map] at hs
    obtain ⟨k, -, rfl⟩ := hs
    exact ⟨rfl, Or.inl Nat.zero_lt_one⟩
  have hsize : channel_example.sample_stack.length ≤ MAX_STACK_SIZE := by decide
  obtain ⟨ch', hrun, -, h⟩ :=
    (history_stack_bounded channel_example capture_states_example hwf hss hsize).2
  exact ⟨hwf, hss, hsize, ch', hrun, (h rfl rfl).1⟩

/-! ### Trigger evaluation -/

theorem process_trigs_track_fold (trig : Fin PATTERN_LENGTH) (time : ℚ) (sampleOffset : Int) :
    ∀ (l : List (Fin NUM_TRACKS)) (acc : VTrackEffect × ProcessData), l.Nodup →
      (l.foldl (process_trigs_track trig time sampleOffset) acc).1.input_channels
          = acc.1.input_channels ∧
      ∀ j, ((l.foldl (process_trigs_track trig time sampleOffset) acc).1.tracks j).playback =
        if j ∈ l then
          sample_trig_apply acc.1.input_channels ((acc.1.tracks j).sample_trigs trig)
            (acc.1.tracks j).playback
        else (acc.1.tracks j).playback := by
  intro l
  induction l with
  | nil => intro acc _; exact ⟨rfl, fun j => by simp⟩
  | cons i l ih =>
    intro acc hnd
    have hi : i ∉ l := (List.nodup_cons.mp hnd).1
    obtain ⟨hch, htr⟩ := ih (process_trigs_track trig time sampleOffset acc i)
      (List.nodup_cons.mp hnd).2
    refine ⟨by rw [List.foldl_cons, hch]; rfl, ?_⟩
    intro j
    rw [List.foldl_cons, htr j]
    by_cases hj : j = i
    · subst hj
      simp [hi, process_trigs_track]
    · have hne : j ≠ i := hj
      by_cases hjl : j ∈ l
      · simp [hjl, process_trigs_track, Function.update_noteq hne]
      · simp [hjl, hj, process_trigs_track, Function.update_noteq hne]

theorem channel_latch_some (ch : InputChannel) (hwf : ch.sampler.WF) :
    ∃ ch', ch.latch = some ch' ∧ ch'.sampler = ch.sampler := by
  obtain ⟨snap, hsnap, -⟩ := latch_spec ch.sampler hwf
  refine ⟨{ ch with sample_stack :=
      if (snap :: ch.sample_stack).length > MAX_STACK_SIZE then (snap :: ch.sample_stack).dropLast
      else snap :: ch.sample_stack }, ?_, rfl⟩
  simp only [InputChannel.latch, hsnap]

theorem process_trigs_latch_some (trig : Fin PATTERN_LENGTH) (s : VTrackEffect)
    (i : Fin NUM_INPUTS) (hwf : ∀ c, (s.input_channels c).sampler.WF) :
    ∃ s', process_trigs_latch trig s i = some s' ∧ s'.tracks = s.tracks ∧
      ∀ c, (s'.input_channels c).sampler = (s.input_channels c).sampler := by
  unfold process_trigs_latch
  have fire : ∀ chan : InputChannel, chan.sampler = (s.input_channels i).sampler →
      ∃ s', (match chan.latch with
          | none => none
          | some chan =>
            some { s with input_channels := Function.update s.input_channels i chan })
          = some s' ∧ s'.tracks = s.tracks ∧
        ∀ c, (s'.input_channels c).sampler = (s.input_channels c).sampler := by
    intro chan hs
    obtain ⟨ch', hl, hsame⟩ := channel_latch_some chan (by rw [hs]; exact hwf i)
    refine ⟨{ s with input_channels := Function.update s.input_channels i ch' },
      by rw [hl], rfl, ?_⟩
    intro c
    by_cases hc : c = i
    · subst hc; simp [hsame, hs]
    · simp [Function.update_noteq hc]
  by_cases h1 : (s.input_channels i).latch_trigs trig = true
  · by_cases h2 : (s.input_channels i).latch_trig_oneshots trig = true
    · by_cases h3 : (s.input_channels i).armed = true
      · simp only [h1, h2, h3, Bool.not_true, if_true, Bool.false_eq_true, if_false]
        exact fire _ rfl
      · refine ⟨s, ?_, rfl, fun _ => rfl⟩
        simp [h1, h2, h3]
    · simp only [h1, h2, Bool.not_true, Bool.false_eq_true, if_false]
      exact fire _ rfl
  · exact ⟨s, by simp [h1], rfl, fun _ => rfl⟩

theorem process_trigs_latch_fold (trig : Fin PATTERN_LENGTH) :
    ∀ (l : List (Fin NUM_INPUTS)) (s : VTrackEffect),
      (∀ c, (s.input_channels c).sampler.WF) →
      ∃ s', l.foldlM (process_trigs_latch trig) s = some s' ∧ s'.tracks = s.tracks := by
  intro l
  induction l with
  | nil => intro s _; exact ⟨s, rfl, rfl⟩
  | cons i l ih =>
    intro s hwf
    obtain ⟨s1, h1, ht1, hs1⟩ := process_trigs_latch_some trig s i hwf
    obtain ⟨s2, h2, ht2⟩ := ih s1 (fun c => by rw [hs1 c]; exact hwf c)
    refine ⟨s2, ?_, by rw [ht2, ht1]⟩
    rw [List.foldlM_cons, h1]
    exact h2

/-- What `process_trigs` does to the voices: on consistent capture buffers and at a time whose
step index is `trig`, it returns, and the voice of every track is the result of that track's
sample trigger at step `trig`, looked up in the stacks as they were before the call. -/
theorem process_trigs_playback (s : VTrackEffect) (data : ProcessData) (time : ℚ)
    (sampleOffset : Int) (trig : Fin PATTERN_LENGTH)
    (hwf : ∀ c, (s.input_channels c).sampler.WF)
    (htrig : trig_index time = (trig.val : Int)) :
    ∃ s' data', s.process_trigs data time sampleOffset = some (s', data') ∧
      ∀ i, (s'.tracks i).playback =
        sample_trig_apply s.input_channels ((s.tracks i).sample_trigs trig)
          (s.tracks i).playback := by
  have hrange : 0 ≤ trig_index time ∧ trig_index time < (PATTERN_LENGTH : Int) := by
    rw [htrig]
    have := trig.isLt
    constructor <;> omega
  have hfin : (⟨(trig_index time).toNat, by omega⟩ : Fin PATTERN_LENGTH) = trig := by
    apply Fin.ext
    show (trig_index time).toNat = trig.val
    rw [htrig]; rfl
  obtain ⟨hch, htr⟩ := process_trigs_track_fold trig time sampleOffset
    (List.finRange NUM_TRACKS) (s, data) (List.nodup_finRange _)
  obtain ⟨s', hrun, hts⟩ := process_trigs_latch_fold trig (List.finRange NUM_INPUTS)
    ((List.finRange NUM_TRACKS).foldl (process_trigs_track trig time sampleOffset) (s, data)).1
    (fun c => by rw [hch]; exact hwf c)
  refine ⟨s', ((List.finRange NUM_TRACKS).foldl
    (process_trigs_track trig time sampleOffset) (s, data)).2, ?_, ?_⟩
  · simp only [VTrackEffect.process_trigs, dif_pos hrange, hfin, hrun]
  · intro i
    rw [hts, htr i]
    simp

theorem trig_index_zero : trig_index 0 = 0 := by
  simp [trig_index, fmod, trunc]

/-- **C5.** An invalid stack address skips the sample trigger without touching the voice: when
the sample trigger of track `i` at the current step is enabled in stack mode with composite index
`k`, and `k / 16 >= 4` or `k mod 16` is not below the size of the stack of input channel
`k / 16`, then `process_trigs` returns and the voice of track `i` (source, rate and position) is
as it was. -/
theorem invalid_stack_address_skips_trigger (s : VTrackEffect) (data : ProcessData) (time : ℚ)
    (sampleOffset : Int) (trig : Fin PATTERN_LENGTH) (i : Fin NUM_TRACKS) (k : Nat)
    (hwf : ∀ c, (s.input_channels c).sampler.WF)
    (htrig : trig_index time = (trig.val : Int))
    (hen : ((s.tracks i).sample_trigs trig).enabled = true)
    (hmode : ((s.tracks i).sample_trigs trig).flags &&& kSampleStack ≠ 0)
    (hk : ((s.tracks i).sample_trigs trig).stack = k)
    (hbad : k / 16 ≥ 4 ∨
      ∃ h : k / 16 < 4, k % 16 ≥ (s.input_channels ⟨k / 16, h⟩).sample_stack.length) :
    ∃ s' data', s.process_trigs data time sampleOffset = some (s', data') ∧
      (s'.tracks i).playback = (s.tracks i).playback := by
  obtain ⟨s', data', hrun, hpb⟩ := process_trigs_playback s data time sampleOffset trig hwf htrig
  refine ⟨s', data', hrun, ?_⟩
  rw [hpb i]
  unfold sample_trig_apply
  rw [if_pos hen, if_pos hmode]
  subst hk
  rcases hbad with h | ⟨h, hd⟩
  · exact dif_pos h
  · have hn : ¬ ((s.tracks i).sample_trigs trig).stack / MAX_STACK_SIZE ≥ NUM_INPUTS := by
      show ¬ _ / 16 ≥ 4
      omega
    simp only [dif_neg hn]
    exact dif_pos hd

/-- Witness for C5: composite index 5 (input 0, depth 5) with three snapshots stacked on
channel 0; the running voice of track 0 is untouched. -/
theorem invalid_stack_address_skips_trigger_witness :
    (∃ h : 5 / 16 < 4,
      5 % 16 ≥ ((engine_example 5).input_channels ⟨5 / 16, h⟩).sample_stack.length) ∧
    ∃ s' data', (engine_example 5).process_trigs data_example 0 0 = some (s', data') ∧
      (s'.tracks ⟨0, by decide⟩).playback = ⟨some (snapshot_example 9), 1, 1 / 2⟩ :=
  ⟨⟨by decide, by decide⟩,
    invalid_stack_address_skips_trigger (engine_example 5) data_example 0 0 ⟨0, by decide⟩
      ⟨0, by decide⟩ 5 (fun _ => ⟨rfl, Or.inl Nat.zero_lt_one⟩) trig_index_zero
      (by decide) (by decide) rfl (Or.inr ⟨by decide, by decide⟩)⟩

/-- **C6.** A valid stack-mode sample trigger arms the voice with the addressed snapshot: when
the sample trigger of track `i` at the current step is enabled in stack mode with composite index
`k`, `k / 16 < 4` and `k mod 16` is below the size of the stack of channel `k / 16`, then
`process_trigs` returns and the voice of track `i` has as source the snapshot at depth `k mod 16`
of that stack as it stood before the call (hence before this step's latches), as rate the
trigger's stored rate, and position 0. -/
theorem valid_stack_trigger_arms_voice (s : VTrackEffect) (data : ProcessData) (time : ℚ)
    (sampleOffset : Int) (trig : Fin PATTERN_LENGTH) (i : Fin NUM_TRACKS) (k : Nat)
    (hwf : ∀ c, (s.input_channels c).sampler.WF)
    (htrig : trig_index time = (trig.val : Int))
    (hen : ((s.tracks i).sample_trigs trig).enabled = true)
    (hmode : ((s.tracks i).sample_trigs trig).flags &&& kSampleStack ≠ 0)
    (hk : ((s.tracks i).sample_trigs trig).stack = k)
    (hinput : k / 16 < 4)
    (hdepth : k % 16 < (s.input_channels ⟨k / 16, hinput⟩).sample_stack.length) :
    ∃ s' data', s.process_trigs data time sampleOffset = some (s', data') ∧
      (s'.tracks i).playback =
        { source := some ((s.input_channels ⟨k / 16, hinput⟩).sample_stack.get ⟨k % 16, hdepth⟩)
          rate := ((s.tracks i).sample_trigs trig).rate
          position := 0 } := by
  obtain ⟨s', data', hrun, hpb⟩ := process_trigs_playback s data time sampleOffset trig hwf htrig
  refine ⟨s', data', hrun, ?_⟩
  rw [hpb i]
  unfold sample_trig_apply
  rw [if_pos hen, if_pos hmode]
  subst hk
  have hn : ¬ ((s.tracks i).sample_trigs trig).stack / MAX_STACK_SIZE ≥ NUM_INPUTS := by
    show ¬ _ / 16 ≥ 4
    omega
  have hd : ¬ ((s.tracks i).sample_trigs trig).stack % MAX_STACK_SIZE ≥
      (s.input_channels ⟨((s.tracks i).sample_trigs trig).stack / MAX_STACK_SIZE,
        Nat.lt_of_not_le hn⟩).sample_stack.length :=
    Nat.not_le_of_lt hdepth
  simp only [dif_neg hn, dif_neg hd]

/-- Witness for C6: composite index 1 (input 0, depth 1) with three snapshots stacked on
channel 0; the voice of track 0 gets the second newest snapshot, rate 2 and position 0. -/
theorem valid_stack_trigger_arms_voice_witness :
    ∃ s' data', (engine_example 1).process_trigs data_example 0 0 = some (s', data') ∧
      (s'.tracks ⟨0, by decide⟩).playback = ⟨some (snapshot_example 2), 2, 0⟩ :=
  valid_stack_trigger_arms_voice (engine_example 1) data_example 0 0 ⟨0, by decide⟩
    ⟨0, by decide⟩ 1 (fun _ => ⟨rfl, Or.inl Nat.zero_lt_one⟩) trig_index_zero
    (by decide) (by decide) rfl (by decide) (by decide)

/-! ### Playback -/

/-- **C7.** A voice is not moved by `r * n`. With rate 2 and position 0 on an eight-sample source,
processing a segment of 2 samples writes the source samples at 0 and 2 (values 1 and 3) to both
main channels, so reading proceeds by the rate, but `advance(count)` then moves the position to
2 and not to `0 + 2 * 2 = 4` (which does not pass the end of the source). -/
theorem process_samples_advances_by_count :
    (engine_pitched_example.process_samples data_example 0 2).map
        (fun r => ((r.1.tracks ⟨0, by decide⟩).playback, r.2.outputs))
      = some (⟨some ⟨[1, 2, 3, 4, 5, 6, 7, 8], 8⟩, 2, 2⟩,
          [⟨2, 0, [[1, 3, 0, 0], [1, 3, 0, 0]]⟩]) ∧
    (2 : ℚ) ≠ 0 + 2 * 2 ∧ (0 + 2 * 2 : ℚ) ≤ 8 := by
  refine ⟨by decide!, by decide!, by decide!⟩

/-- **C8.** An active voice can leave `[0, L)`. On a four-sample source, a voice with rate 1 at
position 0 advanced by 4 ends at position 4 with rate 1: the end test is `position > length`, so
reaching `position = L` exactly neither idles the voice nor keeps its position below `L`. -/
theorem advance_keeps_voice_active_at_end :
    (⟨some ⟨[1, 2, 3, 4], 4⟩, 1, 0⟩ : Playback).advance 4
      = some ⟨some ⟨[1, 2, 3, 4], 4⟩, 1, 4⟩ ∧
    (1 : ℚ) ≠ 0 ∧ ¬ ((4 : ℚ) < ((4 : Nat) : ℚ)) := by
  refine ⟨by decide!, by decide!, by decide!⟩

theorem trunc_of_nonneg {x : ℚ} (h : 0 ≤ x) : trunc x = ⌊x⌋ := by
  simp [trunc, h]

/-! ### Rounding -/

theorem log2_loop_spec : ∀ (fuel n : Nat), n ≤ fuel → 1 ≤ n →
    2 ^ log2_loop fuel n ≤ n ∧ n < 2 ^ (log2_loop fuel n + 1) := by
  intro fuel
  induction fuel with
  | zero => intro n h1 h2; omega
  | succ fuel ih =>
    intro n hle h1
    unfold log2_loop
    by_cases h2 : 2 ≤ n
    · rw [if_pos h2]
      obtain ⟨ha, hb⟩ := ih (n / 2) (by omega) (by omega)
      constructor
      · rw [pow_succ]; omega
      · rw [pow_succ]; omega
    · rw [if_neg h2]
      constructor <;> simp <;> omega

/-- The binary exponent `e` of a non-zero rational satisfies `2 ^ e <= |x| < 2 ^ (e + 1)`. -/
theorem binary_exponent_spec (x : ℚ) (hx : x ≠ 0) :
    (2 : ℚ) ^ binary_exponent x ≤ |x| ∧ |x| < (2 : ℚ) ^ (binary_exponent x + 1) := by
  have hn : 1 ≤ x.num.natAbs := by
    have : x.num ≠ 0 := Rat.num_ne_zero.mpr hx
    omega
  have hd : 1 ≤ x.den := x.den_pos
  obtain ⟨ha1, ha2⟩ := log2_loop_spec x.num.natAbs x.num.natAbs (le_refl _) hn
  obtain ⟨hb1, hb2⟩ := log2_loop_spec x.den x.den (le_refl _) hd
  have habs : |x| = (x.num.natAbs : ℚ) / (x.den : ℚ) := by
    conv_lhs => rw [← Rat.num_div_den x]
    rw [abs_div, Nat.abs_cast]
    congr 1
    rw [Nat.cast_natAbs, Int.cast_abs]
  have hdq : (0 : ℚ) < (x.den : ℚ) := by exact_mod_cast x.den_pos
  have ha1q : (2 : ℚ) ^ (log2_loop x.num.natAbs x.num.natAbs) ≤ (x.num.natAbs : ℚ) := by
    exact_mod_cast ha1
  have ha2q : (x.num.natAbs : ℚ) < (2 : ℚ) ^ (log2_loop x.num.natAbs x.num.natAbs + 1) := by
    exact_mod_cast ha2
  have hb1q : (2 : ℚ) ^ (log2_loop x.den x.den) ≤ (x.den : ℚ) := by exact_mod_cast hb1
  have hb2q : (x.den : ℚ) < (2 : ℚ) ^ (log2_loop x.den x.den + 1) := by exact_mod_cast hb2
  have h2 : (2 : ℚ) ≠ 0 := by norm_num
  unfold binary_exponent
  simp only
  split
  · rename_i hle
    refine ⟨hle, ?_⟩
    rw [habs, div_lt_iff₀ hdq]
    have e1 : (2 : ℚ) ^ ((log2_loop x.num.natAbs x.num.natAbs : Int)
        - (log2_loop x.den x.den : Int) + 1)
        = (2 : ℚ) ^ (log2_loop x.num.natAbs x.num.natAbs + 1)
          / (2 : ℚ) ^ (log2_loop x.den x.den) := by
      rw [show ((log2_loop x.num.natAbs x.num.natAbs : Int) - (log2_loop x.den x.den : Int) + 1)
        = ((log2_loop x.num.natAbs x.num.natAbs + 1 : Nat) : Int)
          - ((log2_loop x.den x.den : Nat) : Int) by push_cast; ring]
      rw [zpow_sub₀ h2, zpow_natCast, zpow_natCast]
    rw [e1]
    have hpos : (0 : ℚ) < (2 : ℚ) ^ (log2_loop x.den x.den) := by positivity
    calc (x.num.natAbs : ℚ) < (2 : ℚ) ^ (log2_loop x.num.natAbs x.num.natAbs + 1) := ha2q
      _ = (2 : ℚ) ^ (log2_loop x.num.natAbs x.num.natAbs + 1)
            / (2 : ℚ) ^ (log2_loop x.den x.den) * (2 : ℚ) ^ (log2_loop x.den x.den) := by
          field_simp
      _ ≤ (2 : ℚ) ^ (log2_loop x.num.natAbs x.num.natAbs + 1)
            / (2 : ℚ) ^ (log2_loop x.den x.den) * (x.den : ℚ) := by
          apply mul_le_mul_of_nonneg_left hb1q
          positivity
  · rename_i hnle
    have hlt := not_le.mp hnle
    have e0 : ((log2_loop x.num.natAbs x.num.natAbs : Int) - (log2_loop x.den x.den : Int) - 1 + 1)
        = (log2_loop x.num.natAbs x.num.natAbs : Int) - (log2_loop x.den x.den : Int) := by ring
    refine ⟨?_, by rw [e0]; exact hlt⟩
    rw [habs, le_div_iff₀ hdq]
    have e1 : (2 : ℚ) ^ ((log2_loop x.num.natAbs x.num.natAbs : Int)
        - (log2_loop x.den x.den : Int) - 1)
        = (2 : ℚ) ^ (log2_loop x.num.natAbs x.num.natAbs)
          / (2 : ℚ) ^ (log2_loop x.den x.den + 1) := by
      rw [show ((log2_loop x.num.natAbs x.num.natAbs : Int) - (log2_loop x.den x.den : Int) - 1)
        = ((log2_loop x.num.natAbs x.num.natAbs : Nat) : Int)
          - ((log2_loop x.den x.den + 1 : Nat) : Int) by push_cast; ring]
      rw [zpow_sub₀ h2, zpow_natCast, zpow_natCast]
    rw [e1]
    have hpos : (0 : ℚ) < (2 : ℚ) ^ (log2_loop x.den x.den + 1) := by positivity
    calc (2 : ℚ) ^ (log2_loop x.num.natAbs x.num.natAbs)
            / (2 : ℚ) ^ (log2_loop x.den x.den + 1) * (x.den : ℚ)
          ≤ (2 : ℚ) ^ (log2_loop x.num.natAbs x.num.natAbs)
            / (2 : ℚ) ^ (log2_loop x.den x.den + 1) * (2 : ℚ) ^ (log2_loop x.den x.den + 1) := by
          apply mul_le_mul_of_nonneg_left hb2q.le
          positivity
      _ = (2 : ℚ) ^ (log2_loop x.num.natAbs x.num.natAbs) := by field_simp
      _ ≤ (x.num.natAbs : ℚ) := ha1q

/-- Rounding to an integer moves a value by at most one half. -/
theorem round_half_even_error (x : ℚ) : |(round_half_even x : ℚ) - x| ≤ 1 / 2 := by
  have h1 : ((⌊x⌋ : Int) : ℚ) ≤ x := Int.floor_le x
  have h2 : x < ((⌊x⌋ : Int) : ℚ) + 1 := Int.lt_floor_add_one x
  unfold round_half_even
  simp only
  split
  · rename_i h
    rw [abs_le]; constructor <;> linarith
  · rename_i h
    split
    · push_cast
      rw [abs_le]; constructor <;> linarith
    · rename_i h'
      have he : x - ((⌊x⌋ : Int) : ℚ) = 1 / 2 := le_antisymm (not_lt.mp h') (not_lt.mp h)
      split
      · rw [abs_le]; constructor <;> linarith
      · push_cast
        rw [abs_le]; constructor <;> linarith

/-- The rounded value is an integer multiple of the unit in the last place of the binade of `x`
(or of the subnormal range), and differs from `x` by at most half that unit. -/
theorem round_binary_error (prec : Nat) (emin : Int) (x : ℚ) :
    |round_binary prec emin x - x|
      ≤ (2 : ℚ) ^ (max (binary_exponent x) emin - (prec : Int) + 1) / 2 := by
  have hulp : (0 : ℚ) < (2 : ℚ) ^ (max (binary_exponent x) emin - (prec : Int) + 1) :=
    zpow_pos (by norm_num) _
  unfold round_binary
  split
  · rename_i h
    rw [h]
    simp only [sub_zero, abs_zero]
    positivity
  · simp only
    have h := round_half_even_error
      (x / (2 : ℚ) ^ (max (binary_exponent x) emin - (prec : Int) + 1))
    have e : (round_half_even (x / (2 : ℚ) ^ (max (binary_exponent x) emin - (prec : Int) + 1))
          : ℚ) * (2 : ℚ) ^ (max (binary_exponent x) emin - (prec : Int) + 1) - x
        = ((round_half_even (x / (2 : ℚ) ^ (max (binary_exponent x) emin - (prec : Int) + 1))
          : ℚ) - x / (2 : ℚ) ^ (max (binary_exponent x) emin - (prec : Int) + 1))
          * (2 : ℚ) ^ (max (binary_exponent x) emin - (prec : Int) + 1) := by
      field_simp
    rw [e, abs_mul, abs_of_pos hulp]
    calc _ ≤ 1 / 2 * (2 : ℚ) ^ (max (binary_exponent x) emin - (prec : Int) + 1) :=
          mul_le_mul_of_nonneg_right h hulp.le
      _ = _ := by ring

theorem round_half_even_bounds (x : ℚ) :
    ⌊x⌋ ≤ round_half_even x ∧ round_half_even x ≤ ⌊x⌋ + 1 := by
  unfold round_half_even
  simp only
  split
  · omega
  · split
    · omega
    · split <;> omega

/-- The rounded value is `m * 2 ^ (e - prec + 1)` for an integer `m` of at most `prec` bits
(`|m| <= 2 ^ prec`, the bound being reached when rounding carries into the next binade), where
`e` is the binary exponent of `x`, or `emin` in the subnormal range. -/
theorem round_binary_mantissa (prec : Nat) (emin : Int) (x : ℚ) (hx : x ≠ 0) :
    round_binary prec emin x
      = (round_half_even (x / (2 : ℚ) ^ (max (binary_exponent x) emin - (prec : Int) + 1)) : ℚ)
        * (2 : ℚ) ^ (max (binary_exponent x) emin - (prec : Int) + 1) ∧
    |round_half_even (x / (2 : ℚ) ^ (max (binary_exponent x) emin - (prec : Int) + 1))|
      ≤ 2 ^ prec := by
  have h2 : (2 : ℚ) ≠ 0 := by norm_num
  have hulp : (0 : ℚ) < (2 : ℚ) ^ (max (binary_exponent x) emin - (prec : Int) + 1) :=
    zpow_pos (by norm_num) _
  refine ⟨by simp only [round_binary, hx, if_false], ?_⟩
  obtain ⟨-, hlt⟩ := binary_exponent_spec x hx
  have hle : (2 : ℚ) ^ (binary_exponent x + 1)
      ≤ (2 : ℚ) ^ (max (binary_exponent x) emin + 1) :=
    zpow_le_zpow_right₀ (by norm_num) (by omega)
  have hq : |x / (2 : ℚ) ^ (max (binary_exponent x) emin - (prec : Int) + 1)|
      < (2 : ℚ) ^ prec := by
    rw [abs_div, abs_of_pos hulp, div_lt_iff₀ hulp]
    have e : (2 : ℚ) ^ prec * (2 : ℚ) ^ (max (binary_exponent x) emin - (prec : Int) + 1)
        = (2 : ℚ) ^ (max (binary_exponent x) emin + 1) := by
      rw [← zpow_natCast, ← zpow_add₀ h2]
      congr 1
      ring
    rw [e]
    exact lt_of_lt_of_le hlt hle
  obtain ⟨hb1, hb2⟩ := round_half_even_bounds
    (x / (2 : ℚ) ^ (max (binary_exponent x) emin - (prec : Int) + 1))
  have habs := abs_lt.mp hq
  have hf1 : ⌊x / (2 : ℚ) ^ (max (binary_exponent x) emin - (prec : Int) + 1)⌋
      < (2 : Int) ^ prec := by
    apply Int.floor_lt.mpr
    push_cast
    exact habs.2
  have hf2 : -((2 : Int) ^ prec)
      ≤ ⌊x / (2 : ℚ) ^ (max (binary_exponent x) emin - (prec : Int) + 1)⌋ := by
    apply Int.le_floor.mpr
    push_cast
    exact habs.1.le
  rw [abs_le]
  constructor <;> omega

theorem round_half_even_nonneg {x : ℚ} (h : 0 ≤ x) : 0 ≤ round_half_even x := by
  have hf : (0 : Int) ≤ ⌊x⌋ := Int.floor_nonneg.mpr h
  unfold round_half_even
  simp only
  split
  · exact hf
  · split
    · omega
    · split <;> omega

theorem round_binary_nonneg (prec : Nat) (emin : Int) {x : ℚ} (h : 0 ≤ x) :
    0 ≤ round_binary prec emin x := by
  unfold round_binary
  split
  · exact le_refl _
  · simp only
    have hulp : (0 : ℚ) < (2 : ℚ) ^ (max (binary_exponent x) emin - (prec : Int) + 1) :=
      zpow_pos (by norm_num) _
    have hq : 0 ≤ x / (2 : ℚ) ^ (max (binary_exponent x) emin - (prec : Int) + 1) :=
      div_nonneg h hulp.le
    have h2 : (0 : ℚ) ≤ (round_half_even
        (x / (2 : ℚ) ^ (max (binary_exponent x) emin - (prec : Int) + 1)) : ℚ) := by
      exact_mod_cast round_half_even_nonneg hq
    exact mul_nonneg h2 hulp.le

theorem to_double_nonneg {x : ℚ} (h : 0 ≤ x) : 0 ≤ to_double x :=
  round_binary_nonneg 53 (-1022) h

theorem to_double_zero : to_double 0 = 0 := by
  simp [to_double, round_binary]

theorem to_float_zero : to_float 0 = 0 := by
  simp [to_float, round_binary]

/-! ### Reading a voice -/

/-- On a position in `[0, 2 ^ 64)` `safe_get` returns the sample at the truncated position, or
`0` when that index is not below the length. -/
theorem safe_get_spec (src : DumbBuffer) (hlen : src.buffer.length = src.length)
    (p : ℚ) (hp : 0 ≤ p) (hp64 : p < 2 ^ 64) :
    src.safe_get p =
      some (if ⌊p⌋.toNat < src.length then src.buffer.getD ⌊p⌋.toNat 0 else 0) := by
  have hfl : (0 : Int) ≤ ⌊p⌋ := Int.floor_nonneg.mpr hp
  have hfl64 : ⌊p⌋ < 2 ^ 64 := by
    apply Int.floor_lt.mpr
    exact_mod_cast hp64
  unfold DumbBuffer.safe_get
  simp only [trunc_of_nonneg hp]
  rw [if_neg (by omega)]
  by_cases h : ⌊p⌋.toNat < src.length
  · rw [if_neg (by omega), if_pos h, readAt, List.getD_eq_getElem?_getD,
      List.getElem?_eq_getElem (by omega)]
    rfl
  · rw [if_pos (by omega), if_neg h]

theorem fill_value_zero (level : ℚ) : fill_value 0 level = 0 := by
  simp [fill_value, to_double_zero, to_float_zero]

theorem fill_position_nonneg (position rate : ℚ) (hpos : 0 ≤ position) (hrate : 0 ≤ rate) :
    ∀ i, 0 ≤ fill_position position rate i := by
  intro i
  induction i with
  | zero => exact hpos
  | succ i ih => exact to_double_nonneg (add_nonneg ih hrate)

theorem fill_position_shift (position rate : ℚ) :
    ∀ i, fill_position (to_double (position + rate)) rate i
      = fill_position position rate (i + 1) := by
  intro i
  induction i with
  | zero => rfl
  | succ i ih =>
    show to_double (fill_position (to_double (position + rate)) rate i + rate) = _
    rw [ih]
    rfl

/-- The loop of `fill` from index `i` and read position `p`, when the read positions stay
below `2 ^ 64` and the products are finite `float` values: it succeeds when the destination has
room, writes the `n` slots from `i` on and leaves the others alone, and the flag records
whether a non-zero value was written. -/
theorem fill_loop_spec (src : DumbBuffer) (rate level : ℚ)
    (hlen : src.buffer.length = src.length) (hrate : 0 ≤ rate)
    (hval : ∀ j, j < src.length → |fill_value (src.buffer.getD j 0) level| < 2 ^ 128) :
    ∀ (n i : Nat) (p : ℚ) (sound : Bool) (dst : List ℚ), 0 ≤ p → i + n ≤ dst.length →
      (∀ m, m < n → fill_position p rate m < 2 ^ 64) →
      ∃ dst' sound', fill_loop src rate level n i p sound dst = some (dst', sound') ∧
        dst'.length = dst.length ∧
        (∀ j, j < i ∨ i + n ≤ j → dst'[j]? = dst[j]?) ∧
        (∀ m, m < n → dst'[i + m]? =
          some (if ⌊fill_position p rate m⌋.toNat < src.length
            then fill_value (src.buffer.getD ⌊fill_position p rate m⌋.toNat 0) level else 0)) ∧
        (sound' = true ↔ sound = true ∨ ∃ m, m < n ∧
          (if ⌊fill_position p rate m⌋.toNat < src.length
            then fill_value (src.buffer.getD ⌊fill_position p rate m⌋.toNat 0) level
            else 0) ≠ 0) := by
  intro n
  induction n with
  | zero =>
    intro i p sound dst _ _ _
    exact ⟨dst, sound, rfl, rfl, fun _ _ => rfl, fun m hm => by omega,
      ⟨fun h => Or.inl h, fun h => h.elim id (fun ⟨m, hm, _⟩ => by omega)⟩⟩
  | succ n ih =>
    intro i p sound dst hp hroom h64
    have hval0 : fill_value (if ⌊p⌋.toNat < src.length then src.buffer.getD ⌊p⌋.toNat 0 else 0)
        level
        = if ⌊p⌋.toNat < src.length then fill_value (src.buffer.getD ⌊p⌋.toNat 0) level
          else 0 := by
      split
      · rfl
      · exact fill_value_zero level
    have hfin : ¬ (2 : ℚ) ^ 128 ≤ |if ⌊p⌋.toNat < src.length
        then fill_value (src.buffer.getD ⌊p⌋.toNat 0) level else 0| := by
      split
      · rename_i h
        exact not_le.mpr (hval _ h)
      · simp
    obtain ⟨dst', sound', hrun, hl, hout, hin, hsound⟩ :=
      ih (i + 1) (to_double (p + rate))
        (if (if ⌊p⌋.toNat < src.length then fill_value (src.buffer.getD ⌊p⌋.toNat 0) level
          else 0) ≠ 0 then true else sound)
        (dst.set i (if ⌊p⌋.toNat < src.length
          then fill_value (src.buffer.getD ⌊p⌋.toNat 0) level else 0))
        (to_double_nonneg (add_nonneg hp hrate)) (by simp; omega)
        (fun m hm => by rw [fill_position_shift]; exact h64 (m + 1) (by omega))
    refine ⟨dst', sound', ?_, by simpa using hl, ?_, ?_, ?_⟩
    · simp only [fill_loop, safe_get_spec src hlen p hp (h64 0 (by omega)), hval0, hfin,
        if_false, writeAt_eq_some _ (show i < dst.length by omega)]
      exact hrun
    · intro j hj
      rw [hout j (by omega), List.getElem?_set]
      have : i ≠ j := by omega
      simp [this]
    · intro m hm
      rcases Nat.eq_zero_or_pos m with h0 | hpos
      · subst h0
        simp only [Nat.add_zero, fill_position]
        rw [hout i (by omega), List.getElem?_set]
        simp only [if_true]
        rw [if_pos (by omega)]
      · obtain ⟨k, rfl⟩ : ∃ k, m = k + 1 := ⟨m - 1, by omega⟩
        have h1 := hin k (by omega)
        rw [fill_position_shift] at h1
        rw [← h1]
        congr 1
        omega
    · rw [hsound]
      constructor
      · rintro (h | ⟨m, hm, hne⟩)
        · by_cases hz : (if ⌊p⌋.toNat < src.length
              then fill_value (src.buffer.getD ⌊p⌋.toNat 0) level else 0) ≠ 0
          · exact Or.inr ⟨0, by omega, hz⟩
          · rw [if_neg hz] at h
            exact Or.inl h
        · rw [fill_position_shift] at hne
          exact Or.inr ⟨m + 1, by omega, hne⟩
      · rintro (h | ⟨m, hm, hne⟩)
        · left
          by_cases hz : (if ⌊p⌋.toNat < src.length
              then fill_value (src.buffer.getD ⌊p⌋.toNat 0) level else 0) ≠ 0
          · rw [if_pos hz]
          · rw [if_neg hz]
            exact h
        · rcases Nat.eq_zero_or_pos m with h0 | hpos
          · subst h0
            left
            rw [if_pos (show (if ⌊p⌋.toNat < src.length
              then fill_value (src.buffer.getD ⌊p⌋.toNat 0) level else 0) ≠ 0 from hne)]
          · obtain ⟨k, rfl⟩ : ∃ k, m = k + 1 := ⟨m - 1, by omega⟩
            right
            refine ⟨k, by omega, ?_⟩
            rw [fill_position_shift]
            exact hne

/-- Counterexample to C9 as stated: a voice at position 0 with rate 0.1 (the nearest `double`)
on the two-sample source `5, 7`, gain 0.1 (the nearest `double`), eleven samples. Slot 0
holds 1/2, the rounded product, which is not `g * source[0]`. Ten additions of the rate give
`1 - 2 ^ (-53)`, so slot 10 is read at index 0 and holds 1/2 as well, while the index
`floor(position + 10 * rate)` of the claim is 1, where the source holds 7. -/
theorem fill_accumulates_rounded_position :
    ((⟨some ⟨[5, 7], 2⟩, 3602879701896397 / 36028797018963968, 0⟩ : Playback).fill
        (List.replicate 11 0) 0 11 (3602879701896397 / 36028797018963968)).map
      (fun r => (r.1[0]?, r.1[10]?)) = some (some (1 / 2), some (1 / 2)) ∧
    (3602879701896397 / 36028797018963968 : ℚ) * [(5 : ℚ), 7].getD 0 0 ≠ 1 / 2 ∧
    fill_position 0 (3602879701896397 / 36028797018963968) 10
      = 9007199254740991 / 9007199254740992 ∧
    ⌊(0 : ℚ) + 10 * (3602879701896397 / 36028797018963968)⌋.toNat = 1 ∧
    (3602879701896397 / 36028797018963968 : ℚ) * [(5 : ℚ), 7].getD 1 0 ≠ 1 / 2 := by
  refine ⟨by decide!, by decide!, by decide!, by decide!, by decide!⟩

/-- **C9.** `fill` reads the source by truncation of the accumulated read position and never
out of bounds. For a voice with a source of length `L`, position `>= 0` and rate `>= 0`, any
count `n` that fits the destination and any gain `g`, as long as the read positions used stay
below `2 ^ 64` and the products are finite `float` values: `fill` returns; slot `i < n` of the
destination holds the `float` nearest to the `double` product `source[floor(p_i)] * g` when
that index is below `L` and `0` otherwise, where `p_0 = position` and `p_(i+1)` is the
`double` sum `p_i + rate`; the slots from `n` on are untouched; the returned flag is `true`
exactly when one of the written values is non-zero; and the voice after the call is the voice
before (`fill` is a `const` member). -/
theorem fill_reads_accumulated_position (pb : Playback) (src : DumbBuffer) (dst : List ℚ)
    (channel count : Nat) (level : ℚ)
    (hsrc : pb.source = some src) (hlen : src.buffer.length = src.length)
    (hpos : 0 ≤ pb.position) (hrate : 0 ≤ pb.rate) (hroom : count ≤ dst.length)
    (hidx : ∀ i, i < count → fill_position pb.position pb.rate i < 2 ^ 64)
    (hval : ∀ j, j < src.length → |fill_value (src.buffer.getD j 0) level| < 2 ^ 128) :
    ∃ dst' sound, pb.fill dst channel count level = some (dst', sound) ∧
      pb.fill_step dst channel count level = some (pb, dst', sound) ∧
      dst'.length = dst.length ∧
      (∀ i, i < count → dst'[i]? =
        some (if ⌊fill_position pb.position pb.rate i⌋.toNat < src.length
          then fill_value (src.buffer.getD ⌊fill_position pb.position pb.rate i⌋.toNat 0) level
          else 0)) ∧
      (∀ j, count ≤ j → dst'[j]? = dst[j]?) ∧
      (sound = true ↔ ∃ i, i < count ∧ ∃ v, dst'[i]? = some v ∧ v ≠ 0) := by
  obtain ⟨dst', sound, hrun, hl, hout, hin, hsound⟩ :=
    fill_loop_spec src pb.rate level hlen hrate hval count 0 pb.position false dst hpos
      (by omega) hidx
  have hfill : pb.fill dst channel count level = some (dst', sound) := by
    simp only [Playback.fill, hsrc]
    exact hrun
  refine ⟨dst', sound, hfill, ?_, hl, ?_, ?_, ?_⟩
  · simp only [Playback.fill_step, hfill]
  · intro i hi
    simpa using hin i hi
  · intro j hj
    exact hout j (Or.inr (by omega))
  · rw [hsound]
    constructor
    · rintro (h | ⟨m, hm, hne⟩)
      · exact absurd h (by decide)
      · refine ⟨m, hm, _, ?_, hne⟩
        simpa using hin m hm
    · rintro ⟨m, hm, v, hv, hne⟩
      refine Or.inr ⟨m, hm, ?_⟩
      have h1 := hin m hm
      simp only [Nat.zero_add] at h1
      rw [h1] at hv
      rw [Option.some.inj hv]
      exact hne

/-- Witness for C9: rate 0.1 (the nearest `double`) from position 0 on the source `5, 7` with
gain 1: the eleven read positions stay below 1, so all eleven slots hold 5. -/
theorem fill_reads_accumulated_position_witness :
    (⟨some ⟨[5, 7], 2⟩, 3602879701896397 / 36028797018963968, 0⟩ : Playback).fill
        (List.replicate 12 9) 0 11 1
      = some (List.replicate 11 5 ++ [9], true) ∧
    ∃ dst' sound,
      (⟨some ⟨[5, 7], 2⟩, 3602879701896397 / 36028797018963968, 0⟩ : Playback).fill_step
          (List.replicate 12 9) 0 11 1
        = some (⟨some ⟨[5, 7], 2⟩, 3602879701896397 / 36028797018963968, 0⟩, dst', sound) ∧
      dst'.length = 12 ∧
      (sound = true ↔ ∃ i, i < 11 ∧ ∃ v, dst'[i]? = some v ∧ v ≠ 0) := by
  obtain ⟨dst', sound, -, hstep, hl, -, -, hsound⟩ :=
    fill_reads_accumulated_position
      ⟨some ⟨[5, 7], 2⟩, 3602879701896397 / 36028797018963968, 0⟩ ⟨[5, 7], 2⟩
      (List.replicate 12 9) 0 11 1 rfl rfl (by decide!) (by decide!) (by decide) (by decide!)
      (by decide!)
  exact ⟨by decide!, dst', sound, hstep, hl, hsound⟩

/-! ### Time base -/

/-- **C10.** The next trigger boundary lies within one step of the cursor: for tempo `> 0`,
every pattern position `qn` (in particular every `qn >= 0`) and sample offset `s >= 0`,
`get_next_trig qn s` (exact arithmetic, final conversion to an integer by truncation) returns
`r` with `s <= r < s + samples_per_trig`, and `r = s` when `qn * TRIGS_PER_QN` is an integer. -/
theorem get_next_trig_within_step (s : VTrackEffect) (qn : ℚ) (samples : Int)
    (htempo : 0 < s.tempo) (hs : 0 ≤ samples) :
    samples ≤ s.get_next_trig qn samples ∧
    ((s.get_next_trig qn samples : Int) : ℚ) < (samples : ℚ) + s.samples_per_trig ∧
    ((∃ m : Int, qn * (TRIGS_PER_QN : ℚ) = (m : ℚ)) → s.get_next_trig qn samples = samples) := by
  have h4 : ((TRIGS_PER_QN : Nat) : ℚ) = 4 := by norm_num
  have hspq : 0 < s.samples_per_qn := by
    unfold VTrackEffect.samples_per_qn
    exact div_pos (by norm_num) htempo
  have hc1 : qn * 4 ≤ ((⌈qn * 4⌉ : Int) : ℚ) := Int.le_ceil _
  have hc2 : ((⌈qn * 4⌉ : Int) : ℚ) < qn * 4 + 1 := Int.ceil_lt_add_one _
  have hd0 : 0 ≤ ((⌈qn * 4⌉ : Int) : ℚ) / 4 - qn := by linarith
  have hd1 : ((⌈qn * 4⌉ : Int) : ℚ) / 4 - qn < 1 / 4 := by linarith
  have hv0 : (samples : ℚ) ≤
      (samples : ℚ) + (((⌈qn * 4⌉ : Int) : ℚ) / 4 - qn) * s.samples_per_qn := by
    have := mul_nonneg hd0 hspq.le
    linarith
  have hsq : (0 : ℚ) ≤ (samples : ℚ) := by exact_mod_cast hs
  have hval : s.get_next_trig qn samples =
      ⌊(samples : ℚ) + (((⌈qn * 4⌉ : Int) : ℚ) / 4 - qn) * s.samples_per_qn⌋ := by
    unfold VTrackEffect.get_next_trig
    simp only [h4]
    exact trunc_of_nonneg (le_trans hsq hv0)
  refine ⟨?_, ?_, ?_⟩
  · rw [hval]
    exact Int.le_floor.mpr hv0
  · rw [hval]
    have hfl := Int.floor_le
      ((samples : ℚ) + (((⌈qn * 4⌉ : Int) : ℚ) / 4 - qn) * s.samples_per_qn)
    have hlt : (((⌈qn * 4⌉ : Int) : ℚ) / 4 - qn) * s.samples_per_qn
        < 1 / 4 * s.samples_per_qn := mul_lt_mul_of_pos_right hd1 hspq
    have hspt : s.samples_per_trig = 1 / 4 * s.samples_per_qn := by
      unfold VTrackEffect.samples_per_trig
      rw [h4]; ring
    rw [hspt]
    linarith
  · rintro ⟨m, hm⟩
    rw [hval]
    rw [h4] at hm
    have hceil : ⌈qn * 4⌉ = m := by rw [hm]; exact Int.ceil_intCast m
    have hzero : ((⌈qn * 4⌉ : Int) : ℚ) / 4 - qn = 0 := by
      rw [hceil, ← hm]; ring
    rw [hzero, zero_mul, add_zero]
    exact Int.floor_intCast samples

/-- Witness for C10 at 120 BPM from pattern position 1/8 and sample offset 100: the boundary is
half a step, 2756 samples, ahead. -/
theorem get_next_trig_within_step_witness :
    (engine_pitched_example.get_next_trig (1 / 8) 100 = 2856) ∧
    (0 : ℚ) < engine_pitched_example.tempo ∧
    (100 : Int) ≤ engine_pitched_example.get_next_trig (1 / 8) 100 ∧
    ((engine_pitched_example.get_next_trig (1 / 8) 100 : Int) : ℚ)
      < ((100 : Int) : ℚ) + engine_pitched_example.samples_per_trig :=
  ⟨by decide!, by decide!,
    (get_next_trig_within_step engine_pitched_example (1 / 8) 100
      (by decide!) (by decide)).1,
    (get_next_trig_within_step engine_pitched_example (1 / 8) 100
      (by decide!) (by decide)).2.1⟩

/-! ### Capture -/

theorem mod_add_ne (x d L : Nat) (hd : 0 < d) (hdL : d < L) : (x + d) % L ≠ x % L := by
  intro h
  have h1 := Nat.sub_mod_eq_zero_of_mod_eq h
  rw [Nat.add_sub_cancel_left, Nat.mod_eq_of_lt hdL] at h1
  omega

theorem wrap_eq_mod (p L : Nat) (hp : p < L) :
    (if p + 1 = L then 0 else p + 1) = (p + 1) % L := by
  split
  · next h => rw [h, Nat.mod_self]
  · next h => rw [Nat.mod_eq_of_lt (by omega)]

/-- The loop of `add_samples` succeeds on a consistent ring when the input holds `n` samples;
the cursor ends at `(p + n) mod L`, the slot of the last write to it holds that input sample,
and a slot that is never written keeps its content. -/
theorem add_samples_loop_spec (L : Nat) :
    ∀ (n : Nat) (input buffer : List ℚ) (p : Nat), buffer.length = L → p < L →
      n ≤ input.length →
      ∃ buf', add_samples_loop L n input buffer p = some (buf', (p + n) % L) ∧
        buf'.length = L ∧
        (∀ i, i < n → (∀ i', i < i' → i' < n → (p + i') % L ≠ (p + i) % L) →
          buf'[(p + i) % L]? = input[i]?) ∧
        (∀ j, (∀ i, i < n → (p + i) % L ≠ j) → buf'[j]? = buffer[j]?) := by
  intro n
  induction n with
  | zero =>
    intro input buffer p hlen hp _
    exact ⟨buffer, by simp [add_samples_loop, Nat.mod_eq_of_lt hp], hlen,
      fun i hi => by omega, fun _ _ => rfl⟩
  | succ n ih =>
    intro input buffer p hlen hp hn
    cases input with
    | nil => simp at hn
    | cons v input =>
      have hp' : (p + 1) % L < L := Nat.mod_lt _ (by omega)
      have hshift : ∀ i, ((p + 1) % L + i) % L = (p + (i + 1)) % L := by
        intro i
        rw [Nat.mod_add_mod]
        congr 1
        omega
      obtain ⟨buf', hrun, hl, hA, hB⟩ :=
        ih input (buffer.set p v) ((p + 1) % L) (by simpa using hlen) hp'
          (by simpa using hn)
      refine ⟨buf', ?_, hl, ?_, ?_⟩
      · simp only [add_samples_loop, writeAt_eq_some v (show p < buffer.length by omega),
          wrap_eq_mod p L hp]
        rw [hrun]
        congr 2
        rw [Nat.mod_add_mod]
        congr 1
        omega
      · intro i hi hmax
        rcases Nat.eq_zero_or_pos i with h0 | hpos
        · subst h0
          have hnone : ∀ i, i < n → ((p + 1) % L + i) % L ≠ p := by
            intro i hi' h
            rw [hshift i] at h
            have := hmax (i + 1) (by omega) (by omega)
            simp only [Nat.add_zero, Nat.mod_eq_of_lt hp] at this
            exact this h
          rw [Nat.add_zero, Nat.mod_eq_of_lt hp, hB p hnone, List.getElem?_set]
          simp only [if_true]
          rw [if_pos (by omega)]
          simp
        · obtain ⟨k, rfl⟩ : ∃ k, i = k + 1 := ⟨i - 1, by omega⟩
          have := hA k (by omega) (by
            intro i' h1 h2
            rw [hshift i', hshift k]
            exact hmax (i' + 1) (by omega) (by omega))
          rw [hshift k] at this
          rw [this]
          simp
      · intro j hj
        have hnone : ∀ i, i < n → ((p + 1) % L + i) % L ≠ j := by
          intro i hi h
          rw [hshift i] at h
          exact hj (i + 1) (by omega) h
        have hjp : p ≠ j := by
          have := hj 0 (by omega)
          rwa [Nat.add_zero, Nat.mod_eq_of_lt hp] at this
        rw [hB j hnone, List.getElem?_set]
        simp [hjp]

/-- **C13.** `add_samples` appends and wraps: on a ring of length `L > 0` with write cursor
`p < L` and an input of at least `n` samples, `add_samples input n` returns; the length is still
`L`; the write cursor is `(p + n) mod L`; for every `k < min n L` the slot
`(p + n - 1 - k) mod L` holds `input[n - 1 - k]`; every other slot is unchanged; and reading `L`
slots from the new cursor gives the last `L` samples of the old chronological content followed
by the `n` input samples. -/
theorem add_samples_appends_and_wraps (sb : SampleBuffer) (input : List ℚ) (n : Nat)
    (hlen : sb.buffer.length = sb.length) (hL : 0 < sb.length)
    (hp : sb.position < sb.length) (hn : n ≤ input.length) :
    ∃ sb', sb.add_samples input n = some sb' ∧
      sb'.length = sb.length ∧ sb'.buffer.length = sb.length ∧
      sb'.position = (sb.position + n) % sb.length ∧ sb'.position < sb.length ∧
      (∀ k, k < min n sb.length →
        sb'.buffer[(sb.position + n - 1 - k) % sb.length]? = input[n - 1 - k]? ∧
        (input[n - 1 - k]?).isSome = true) ∧
      (∀ j, j < sb.length →
        (∀ k, k < min n sb.length → j ≠ (sb.position + n - 1 - k) % sb.length) →
        sb'.buffer[j]? = sb.buffer[j]?) ∧
      (∀ i, i < sb.length →
        sb'.buffer[(sb'.position + i) % sb.length]? =
          ((List.range sb.length).map
              (fun t => sb.buffer.getD ((sb.position + t) % sb.length) 0)
            ++ input.take n)[n + i]?) := by
  obtain ⟨buf', hrun, hl, hA, hB⟩ :=
    add_samples_loop_spec sb.length n input sb.buffer sb.position hlen hp hn
  have hslots : ∀ k, k < min n sb.length →
      buf'[(sb.position + n - 1 - k) % sb.length]? = input[n - 1 - k]? := by
    intro k hk
    have hkn : k < n := lt_of_lt_of_le hk (Nat.min_le_left _ _)
    have hkL : k < sb.length := lt_of_lt_of_le hk (Nat.min_le_right _ _)
    have e : sb.position + n - 1 - k = sb.position + (n - 1 - k) := by omega
    rw [e]
    apply hA (n - 1 - k) (by omega)
    intro i' h1 h2
    have e' : sb.position + i' = sb.position + (n - 1 - k) + (i' - (n - 1 - k)) := by omega
    rw [e']
    exact mod_add_ne _ _ _ (by omega) (by omega)
  have hother : ∀ j, j < sb.length →
      (∀ k, k < min n sb.length → j ≠ (sb.position + n - 1 - k) % sb.length) →
      buf'[j]? = sb.buffer[j]? := by
    intro j _ hj
    apply hB
    intro i hi hij
    have hr : (n - 1 - i) % sb.length < sb.length := Nat.mod_lt _ hL
    have hle : (n - 1 - i) % sb.length ≤ n - 1 - i := Nat.mod_le _ _
    have hdm := Nat.div_add_mod (n - 1 - i) sb.length
    refine hj ((n - 1 - i) % sb.length) (lt_min (by omega) hr) ?_
    have e : sb.position + n - 1 - (n - 1 - i) % sb.length
        = sb.position + i + sb.length * ((n - 1 - i) / sb.length) := by
      generalize (n - 1 - i) / sb.length = q at hdm
      generalize (n - 1 - i) % sb.length = r at hdm hr hle
      generalize sb.length * q = m at hdm
      omega
    rw [e, Nat.add_mul_mod_self_left]
    exact hij.symm
  refine ⟨{ sb with buffer := buf', position := (sb.position + n) % sb.length }, ?_, rfl, hl,
    rfl, Nat.mod_lt _ hL, ?_, hother, ?_⟩
  · simp only [SampleBuffer.add_samples, hrun]
  · intro k hk
    refine ⟨hslots k hk, ?_⟩
    have hkn : k < n := lt_of_lt_of_le hk (Nat.min_le_left _ _)
    rw [List.getElem?_eq_getElem (show n - 1 - k < input.length by omega)]
    rfl
  · intro i hi
    show buf'[((sb.position + n) % sb.length + i) % sb.length]? = _
    rw [Nat.mod_add_mod]
    by_cases hcase : sb.length ≤ n + i
    · have hk : sb.length - 1 - i < min n sb.length := lt_min (by omega) (by omega)
      have h1 := hslots (sb.length - 1 - i) hk
      have e1 : sb.position + n - 1 - (sb.length - 1 - i) + sb.length
          = sb.position + n + i := by omega
      rw [← e1, Nat.add_mod_right, h1,
        List.getElem?_append_right (by simp; omega)]
      simp only [List.length_map, List.length_range]
      rw [List.getElem?_take_of_lt (by omega)]
      congr 1
      omega
    · have hnL : n < sb.length := by omega
      have h2 := hother ((sb.position + n + i) % sb.length) (Nat.mod_lt _ hL) (by
        intro k hk
        have hkn : k < n := lt_of_lt_of_le hk (Nat.min_le_left _ _)
        have e : sb.position + n + i = sb.position + n - 1 - k + (i + 1 + k) := by omega
        rw [e]
        exact mod_add_ne _ _ _ (by omega) (by omega))
      have hj : (sb.position + n + i) % sb.length < sb.buffer.length := by
        rw [hlen]; exact Nat.mod_lt _ hL
      rw [h2, List.getElem?_append_left (by simp; omega), List.getElem?_map,
        List.getElem?_range (by omega)]
      simp only [Option.map_some']
      rw [← Nat.add_assoc, List.getD_eq_getElem?_getD, List.getElem?_eq_getElem hj]
      rfl

/-- Witness for C13: five samples written into a wrapped three-slot ring. -/
theorem add_samples_appends_and_wraps_witness :
    (⟨[7, 8, 9], 1, 3⟩ : SampleBuffer).add_samples [1, 2, 3, 4, 5] 5
        = some ⟨[3, 4, 5], 0, 3⟩ ∧
    ∃ sb', (⟨[7, 8, 9], 1, 3⟩ : SampleBuffer).add_samples [1, 2, 3, 4, 5] 5 = some sb' ∧
      sb'.length = 3 ∧ sb'.position = (1 + 5) % 3 := by
  obtain ⟨sb', hrun, hl, -, hpos, -⟩ :=
    add_samples_appends_and_wraps ⟨[7, 8, 9], 1, 3⟩ [1, 2, 3, 4, 5] 5 rfl (by decide)
      (by decide) (by decide)
  exact ⟨by decide, sb', hrun, hl, hpos⟩

/-! ### Latch and note triggers -/

theorem process_trigs_latch_eq (trig : Fin PATTERN_LENGTH) (s : VTrackEffect)
    (i : Fin NUM_INPUTS) :
    process_trigs_latch trig s i =
      match latch_trig_apply trig (s.input_channels i) with
      | none => none
      | some chan => some { s with input_channels := Function.update s.input_channels i chan } := by
  unfold process_trigs_latch latch_trig_apply
  by_cases h1 : (s.input_channels i).latch_trigs trig = true
  · by_cases h2 : (s.input_channels i).latch_trig_oneshots trig = true
    · by_cases h3 : (s.input_channels i).armed = true
      · simp [h1, h2, h3]
      · simp [h1, h2, h3]
    · simp [h1, h2]
  · simp [h1]

theorem latch_trig_apply_some (trig : Fin PATTERN_LENGTH) (chan : InputChannel)
    (hwf : chan.sampler.WF) :
    ∃ chan', latch_trig_apply trig chan = some chan' ∧ chan'.sampler = chan.sampler := by
  unfold latch_trig_apply
  split
  · exact ⟨chan, rfl, rfl⟩
  · split
    · split
      · exact ⟨chan, rfl, rfl⟩
      · exact channel_latch_some { chan with armed := false } hwf
    · exact channel_latch_some chan hwf

/-- The input-channel loop of `process_trigs` over distinct channels: it returns on consistent
capture buffers, leaves the tracks and the tempo alone, and every visited channel is the result
of its own latch trigger. -/
theorem process_trigs_latch_fold_channels (trig : Fin PATTERN_LENGTH) :
    ∀ (l : List (Fin NUM_INPUTS)) (s : VTrackEffect), l.Nodup →
      (∀ c, (s.input_channels c).sampler.WF) →
      ∃ s', l.foldlM (process_trigs_latch trig) s = some s' ∧ s'.tracks = s.tracks ∧
        s'.tempo = s.tempo ∧
        ∀ c, some (s'.input_channels c) =
          if c ∈ l then latch_trig_apply trig (s.input_channels c)
          else some (s.input_channels c) := by
  intro l
  induction l with
  | nil => intro s _ _; exact ⟨s, rfl, rfl, rfl, fun c => by simp⟩
  | cons i l ih =>
    intro s hnd hwf
    have hi : i ∉ l := (List.nodup_cons.mp hnd).1
    obtain ⟨chan, hchan, hsame⟩ := latch_trig_apply_some trig (s.input_channels i) (hwf i)
    have hstep : process_trigs_latch trig s i =
        some { s with input_channels := Function.update s.input_channels i chan } := by
      rw [process_trigs_latch_eq, hchan]
    obtain ⟨s', hrun, htr, hte, hch⟩ :=
      ih { s with input_channels := Function.update s.input_channels i chan }
        (List.nodup_cons.mp hnd).2 (by
          intro c
          by_cases hc : c = i
          · subst hc; simp [hsame]; exact hwf c
          · simp [Function.update_noteq hc]; exact hwf c)
    refine ⟨s', ?_, htr, hte, ?_⟩
    · rw [List.foldlM_cons, hstep]
      exact hrun
    · intro c
      rw [hch c]
      by_cases hc : c = i
      · subst hc
        simp [hi, hchan]
      · have hne : c ≠ i := hc
        by_cases hcl : c ∈ l
        · simp [hcl, Function.update_noteq hne]
        · simp [hcl, hc, Function.update_noteq hne]

/-- **C14.** Latch triggers fire under the one-shot/armed rule: at a time whose step index is
`trig`, `process_trigs` returns, and for every input channel `c`: if `latch_trigs[trig]` is set
and (`latch_trig_oneshots[trig]` is clear or the channel is armed), the channel is latched
once, the snapshot of its capture buffer being pushed on the front of its stack (the last entry
dropped when the size exceeds `MAX_STACK_SIZE`), and `armed` is `false` afterwards when the
trigger is a one-shot and unchanged otherwise; in every other case the channel, in
particular its stack and `armed`, is unchanged. -/
theorem latch_trigger_rule (s : VTrackEffect) (data : ProcessData) (time : ℚ)
    (sampleOffset : Int) (trig : Fin PATTERN_LENGTH) (c : Fin NUM_INPUTS)
    (hwf : ∀ c, (s.input_channels c).sampler.WF)
    (htrig : trig_index time = (trig.val : Int)) :
    ∃ s' data', s.process_trigs data time sampleOffset = some (s', data') ∧
      (((s.input_channels c).latch_trigs trig = true ∧
          ((s.input_channels c).latch_trig_oneshots trig = false ∨
            (s.input_channels c).armed = true)) →
        ∃ snap, (s.input_channels c).sampler.latch = some snap ∧
          (s'.input_channels c).sample_stack =
            (if (snap :: (s.input_channels c).sample_stack).length > MAX_STACK_SIZE
              then (snap :: (s.input_channels c).sample_stack).dropLast
              else snap :: (s.input_channels c).sample_stack) ∧
          (s'.input_channels c).armed =
            (if (s.input_channels c).latch_trig_oneshots trig = true then false
              else (s.input_channels c).armed) ∧
          (s'.input_channels c).sampler = (s.input_channels c).sampler) ∧
      (¬ ((s.input_channels c).latch_trigs trig = true ∧
          ((s.input_channels c).latch_trig_oneshots trig = false ∨
            (s.input_channels c).armed = true)) →
        s'.input_channels c = s.input_channels c) := by
  have hrange : 0 ≤ trig_index time ∧ trig_index time < (PATTERN_LENGTH : Int) := by
    rw [htrig]
    have := trig.isLt
    constructor <;> omega
  have hfin : (⟨(trig_index time).toNat, by omega⟩ : Fin PATTERN_LENGTH) = trig := by
    apply Fin.ext
    show (trig_index time).toNat = trig.val
    rw [htrig]; rfl
  obtain ⟨hch, -⟩ := process_trigs_track_fold trig time sampleOffset
    (List.finRange NUM_TRACKS) (s, data) (List.nodup_finRange _)
  obtain ⟨s', hrun, -, -, hchan⟩ := process_trigs_latch_fold_channels trig
    (List.finRange NUM_INPUTS)
    ((List.finRange NUM_TRACKS).foldl (process_trigs_track trig time sampleOffset) (s, data)).1
    (List.nodup_finRange _) (fun c => by rw [hch]; exact hwf c)
  have hc := hchan c
  rw [hch] at hc
  simp only [List.mem_finRange, if_true] at hc
  obtain ⟨snap, hsnap, -⟩ := latch_spec (s.input_channels c).sampler (hwf c)
  refine ⟨s', ((List.finRange NUM_TRACKS).foldl
    (process_trigs_track trig time sampleOffset) (s, data)).2, ?_, ?_, ?_⟩
  · simp only [VTrackEffect.process_trigs, dif_pos hrange, hfin, hrun]
  · rintro ⟨h1, h2⟩
    refine ⟨snap, hsnap, ?_⟩
    by_cases ho : (s.input_channels c).latch_trig_oneshots trig = true
    · have ha : (s.input_channels c).armed = true := by
        rcases h2 with h | h
        · rw [ho] at h; exact absurd h (by decide)
        · exact h
      simp only [latch_trig_apply, h1, ho, ha, Bool.not_true, Bool.false_eq_true, if_false,
        if_true, InputChannel.latch, hsnap, Option.some.injEq] at hc
      rw [hc]
      exact ⟨rfl, (if_pos ho).symm, rfl⟩
    · simp only [latch_trig_apply, h1, ho, Bool.not_true, Bool.false_eq_true, if_false,
        InputChannel.latch, hsnap, Option.some.injEq] at hc
      rw [hc]
      exact ⟨rfl, (if_neg ho).symm, rfl⟩
  · intro hno
    by_cases h1 : (s.input_channels c).latch_trigs trig = true
    · have ho : (s.input_channels c).latch_trig_oneshots trig = true := by
        by_contra h
        exact hno ⟨h1, Or.inl (by simpa using h)⟩
      have ha : ¬ (s.input_channels c).armed = true := fun h => hno ⟨h1, Or.inr h⟩
      simp only [latch_trig_apply, h1, ho, ha, Bool.not_true, Bool.false_eq_true, if_false,
        if_true, Bool.not_eq_true', Option.some.injEq] at hc
      simpa [ha] using hc
    · simp only [latch_trig_apply, h1, Bool.not_eq_true', Option.some.injEq] at hc
      simpa [h1] using hc

theorem engine_latch_example_wf : ∀ c, (engine_latch_example.input_channels c).sampler.WF := by
  intro c
  by_cases h : c.val = 0
  · simp only [engine_latch_example, h, if_true]
    exact ⟨rfl, Or.inl Nat.zero_lt_one⟩
  · simp only [engine_latch_example, h, if_false]
    exact ⟨rfl, Or.inr rfl⟩

/-- Witness for C14: the armed one-shot latch trigger of channel 0 fires at step 0, pushes the
snapshot `[7]` and clears `armed`. -/
theorem latch_trigger_rule_witness :
    ∃ s' data', engine_latch_example.process_trigs data_example 0 0 = some (s', data') ∧
      (s'.input_channels ⟨0, by decide⟩).sample_stack = [⟨[7], 1⟩] ∧
      (s'.input_channels ⟨0, by decide⟩).armed = false := by
  obtain ⟨s', data', hrun, hfire, -⟩ :=
    latch_trigger_rule engine_latch_example data_example 0 0 ⟨0, by decide⟩ ⟨0, by decide⟩
      engine_latch_example_wf trig_index_zero
  obtain ⟨snap, hsnap, hstack, harmed, -⟩ := hfire ⟨rfl, Or.inr rfl⟩
  have hs : snap = ⟨[7], 1⟩ := by
    have h : (engine_latch_example.input_channels ⟨0, by decide⟩).sampler.latch
        = some ⟨[7], 1⟩ := by decide
    rw [h] at hsnap
    exact (Option.some.inj hsnap).symm
  subst hs
  exact ⟨s', data', hrun, hstack, harmed⟩

/-- The track loop of `process_trigs` appends, in list order, the events of the note triggers
as computed from the state before the loop, and changes nothing else of the host data. -/
theorem process_trigs_track_fold_events (trig : Fin PATTERN_LENGTH) (time : ℚ)
    (sampleOffset : Int) :
    ∀ (l : List (Fin NUM_TRACKS)) (acc : VTrackEffect × ProcessData),
      (l.foldl (process_trigs_track trig time sampleOffset) acc).2 =
        { acc.2 with outputEvents := acc.2.outputEvents ++ l.flatMap (fun i =>
            midi_trig_events acc.1.samples_per_qn time sampleOffset i.val
              ((acc.1.tracks i).midi_trigs trig)) } ∧
      (l.foldl (process_trigs_track trig time sampleOffset) acc).1.tempo = acc.1.tempo ∧
      ∀ j, ((l.foldl (process_trigs_track trig time sampleOffset) acc).1.tracks j).midi_trigs
        = (acc.1.tracks j).midi_trigs := by
  intro l
  induction l with
  | nil => intro acc; exact ⟨by simp, rfl, fun _ => rfl⟩
  | cons i l ih =>
    intro acc
    obtain ⟨hd, ht, hm⟩ := ih (process_trigs_track trig time sampleOffset acc i)
    have hm1 : ∀ j, (((process_trigs_track trig time sampleOffset acc i).1.tracks j).midi_trigs)
        = (acc.1.tracks j).midi_trigs := by
      intro j
      by_cases hj : j = i
      · subst hj; simp [process_trigs_track]
      · simp [process_trigs_track, Function.update_noteq hj]
    refine ⟨?_, by rw [List.foldl_cons, ht]; rfl, fun j => by rw [List.foldl_cons, hm j, hm1 j]⟩
    rw [List.foldl_cons, hd]
    have hsp : (process_trigs_track trig time sampleOffset acc i).1.samples_per_qn
        = acc.1.samples_per_qn := rfl
    simp only [hsp, hm1, List.flatMap_cons]
    simp [process_trigs_track, List.append_assoc]

/-- **C15.** Note triggers emit a note-on/note-off pair: at a time whose step index is `trig`,
with tempo `> 0`, non-negative durations and a sample offset `o >= 0` such that `o` plus every
note length fits `int32`, `process_trigs` appends to the output events, in ascending track
order, for each track `i` whose trigger at that step is an enabled note (`enabled()` and
`is_note()`) exactly two events: a note-on with channel `i`, the stored note as pitch, length
`floor(duration * samples_per_qn())`, note id `-1` and sample offset `o`, followed by a note-off
with channel `i`, the same pitch, note id `-1` and sample offset `o` plus that length; for any
other track, in particular one whose trigger is disabled, it appends nothing. The product
`duration * samples_per_qn()` is the `double` product the code computes: the quotient
`60 * 44100 / tempo` rounded to `double`, times the duration, rounded to `double`. -/
theorem note_triggers_emit_pairs (s : VTrackEffect) (data : ProcessData) (time : ℚ)
    (sampleOffset : Int) (trig : Fin PATTERN_LENGTH)
    (hwf : ∀ c, (s.input_channels c).sampler.WF)
    (htrig : trig_index time = (trig.val : Int))
    (htempo : 0 < s.tempo)
    (hdur : ∀ i, 0 ≤ ((s.tracks i).midi_trigs trig).length)
    (hoff : 0 ≤ sampleOffset)
    (hfit : ∀ i, sampleOffset
      + ⌊to_double (((s.tracks i).midi_trigs trig).length * to_double s.samples_per_qn)⌋
        < 2 ^ 31) :
    ∃ s' data', s.process_trigs data time sampleOffset = some (s', data') ∧
      data'.outputEvents = data.outputEvents ++ (List.finRange NUM_TRACKS).flatMap (fun i =>
        if ((s.tracks i).midi_trigs trig).enabled = true ∧
            ((s.tracks i).midi_trigs trig).is_note = true then
          [{ busIndex := 0, sampleOffset := sampleOffset, ppqPosition := time,
             data := EventData.noteOn i.val ((s.tracks i).midi_trigs trig).note
               ⌊to_double (((s.tracks i).midi_trigs trig).length * to_double s.samples_per_qn)⌋
               (-1) },
           { busIndex := 0,
             sampleOffset := sampleOffset
               + ⌊to_double (((s.tracks i).midi_trigs trig).length
                   * to_double s.samples_per_qn)⌋,
             ppqPosition := to_double (time + ((s.tracks i).midi_trigs trig).length),
             data := EventData.noteOff i.val ((s.tracks i).midi_trigs trig).note (-1) }]
        else []) := by
  have hrange : 0 ≤ trig_index time ∧ trig_index time < (PATTERN_LENGTH : Int) := by
    rw [htrig]
    have := trig.isLt
    constructor <;> omega
  have hfin : (⟨(trig_index time).toNat, by omega⟩ : Fin PATTERN_LENGTH) = trig := by
    apply Fin.ext
    show (trig_index time).toNat = trig.val
    rw [htrig]; rfl
  have hspq : 0 ≤ to_double s.samples_per_qn := by
    apply to_double_nonneg
    unfold VTrackEffect.samples_per_qn
    exact div_nonneg (by norm_num) htempo.le
  obtain ⟨hch, -⟩ := process_trigs_track_fold trig time sampleOffset
    (List.finRange NUM_TRACKS) (s, data) (List.nodup_finRange _)
  obtain ⟨hev, -, -⟩ := process_trigs_track_fold_events trig time sampleOffset
    (List.finRange NUM_TRACKS) (s, data)
  obtain ⟨s', hrun, -⟩ := process_trigs_latch_fold trig (List.finRange NUM_INPUTS)
    ((List.finRange NUM_TRACKS).foldl (process_trigs_track trig time sampleOffset) (s, data)).1
    (fun c => by rw [hch]; exact hwf c)
  refine ⟨s', ((List.finRange NUM_TRACKS).foldl
    (process_trigs_track trig time sampleOffset) (s, data)).2, ?_, ?_⟩
  · simp only [VTrackEffect.process_trigs, dif_pos hrange, hfin, hrun]
  · rw [hev]
    show data.outputEvents ++ _ = data.outputEvents ++ _
    congr 1
    congr 1
    funext i
    have hprod : 0 ≤ to_double (((s.tracks i).midi_trigs trig).length
        * to_double s.samples_per_qn) := to_double_nonneg (mul_nonneg (hdur i) hspq)
    have hfl : (0 : Int) ≤ ⌊to_double (((s.tracks i).midi_trigs trig).length
        * to_double s.samples_per_qn)⌋ := Int.floor_nonneg.mpr hprod
    have h31 := hfit i
    have hconv : int32_of_double (to_double (((s.tracks i).midi_trigs trig).length
        * to_double s.samples_per_qn))
        = ⌊to_double (((s.tracks i).midi_trigs trig).length * to_double s.samples_per_qn)⌋ := by
      unfold int32_of_double
      rw [trunc_of_nonneg hprod, if_pos (by constructor <;> omega)]
    have hadd : add_int32 sampleOffset ⌊to_double (((s.tracks i).midi_trigs trig).length
        * to_double s.samples_per_qn)⌋
        = sampleOffset + ⌊to_double (((s.tracks i).midi_trigs trig).length
          * to_double s.samples_per_qn)⌋ := by
      unfold add_int32
      omega
    unfold midi_trig_events
    simp only [hconv, hadd]
    by_cases h : ((s.tracks i).midi_trigs trig).enabled = true ∧
        ((s.tracks i).midi_trigs trig).is_note = true
    · rw [if_pos h, if_pos (by simpa using h)]
    · rw [if_neg h, if_neg (by simpa using h)]

/-- Witness for C15: a note trigger of 4.3 quarter notes (the nearest `double`) on track 2 fires
at 120 BPM at step 0 with sample offset 100: the `double` product with 22050 is 94815, where the
exact product is just below. -/
theorem note_triggers_emit_pairs_witness :
    ∃ s' data', engine_note_example.process_trigs data_example 0 100 = some (s', data') ∧
      data'.outputEvents =
        [{ busIndex := 0, sampleOffset := 100, ppqPosition := 0,
           data := EventData.noteOn 2 60 94815 (-1) },
         { busIndex := 0, sampleOffset := 94915,
           ppqPosition := 4841369599423283 / 1125899906842624,
           data := EventData.noteOff 2 60 (-1) }] ∧
      ⌊(4841369599423283 / 1125899906842624 : ℚ) * 22050⌋ = 94814 := by
  obtain ⟨s', data', hrun, hev⟩ :=
    note_triggers_emit_pairs engine_note_example data_example 0 100 ⟨0, by decide⟩
      (fun _ => ⟨rfl, Or.inr rfl⟩) trig_index_zero (by decide!) (by
        intro i
        by_cases h : i.val = 2
        · simp only [engine_note_example, h, if_true]
          norm_num
        · simp [engine_note_example, h, Track.init, MidiTrig.init])
      (by decide) (by decide!)
  refine ⟨s', data', hrun, ?_, by decide!⟩
  rw [hev]
  decide!

/-! ### Ownership of snapshots -/

/-- The call `input_channels[c].latch()` on the engine state (capture buffer consistent): it
returns and leaves every track and every other channel unchanged; the stack of `c` becomes the
new snapshot followed by the old stack, without its last entry when the old stack was full. -/
theorem latch_channel_spec (s : VTrackEffect) (c : Fin NUM_INPUTS)
    (hwf : (s.input_channels c).sampler.WF) :
    ∃ s' snap, s.latch_channel c = some s' ∧
      (s.input_channels c).sampler.latch = some snap ∧
      s'.tracks = s.tracks ∧
      (∀ c', c' ≠ c → s'.input_channels c' = s.input_channels c') ∧
      (s'.input_channels c).sample_stack =
        (if (s.input_channels c).sample_stack.length ≥ MAX_STACK_SIZE
          then snap :: (s.input_channels c).sample_stack.dropLast
          else snap :: (s.input_channels c).sample_stack) ∧
      (∀ k, k + 1 < (s'.input_channels c).sample_stack.length →
        (s'.input_channels c).sample_stack[k + 1]? = (s.input_channels c).sample_stack[k]?) := by
  obtain ⟨snap, hsnap, -⟩ := latch_spec (s.input_channels c).sampler hwf
  have hstack : (if (snap :: (s.input_channels c).sample_stack).length > MAX_STACK_SIZE
        then (snap :: (s.input_channels c).sample_stack).dropLast
        else snap :: (s.input_channels c).sample_stack)
      = (if (s.input_channels c).sample_stack.length ≥ MAX_STACK_SIZE
          then snap :: (s.input_channels c).sample_stack.dropLast
          else snap :: (s.input_channels c).sample_stack) := by
    by_cases h : (s.input_channels c).sample_stack.length ≥ MAX_STACK_SIZE
    · rw [if_pos (by simp only [List.length_cons]; omega), if_pos h]
      cases hst : (s.input_channels c).sample_stack with
      | nil => rw [hst] at h; simp at h
      | cons a t => rfl
    · rw [if_neg (by simp only [List.length_cons]; omega), if_neg h]
  refine ⟨{ s with
      input_channels := Function.update s.input_channels c
        ({ s.input_channels c with
            sample_stack :=
              (if (s.input_channels c).sample_stack.length ≥ MAX_STACK_SIZE
                then snap :: (s.input_channels c).sample_stack.dropLast
                else snap :: (s.input_channels c).sample_stack) } : InputChannel) },
    snap, ?_, hsnap, rfl, ?_, ?_, ?_⟩
  · simp only [VTrackEffect.latch_channel, InputChannel.latch, hsnap, hstack]
  · intro c' hc'
    simp [Function.update_noteq hc']
  · simp
  · intro k hk
    simp only [Function.update_same] at hk ⊢
    by_cases h : (s.input_channels c).sample_stack.length ≥ MAX_STACK_SIZE
    · rw [if_pos h] at hk ⊢
      simp only [List.length_cons, List.length_dropLast] at hk
      rw [List.getElem?_cons_succ, List.getElem?_dropLast, if_pos (by omega)]
    · rw [if_neg h]
      rw [List.getElem?_cons_succ]

theorem le_sum_of_mem_nat : ∀ (l : List Nat) (x : Nat), x ∈ l → x ≤ l.sum := by
  intro l
  induction l with
  | nil => intro x h; cases h
  | cons y l ih =>
    intro x h
    rw [List.sum_cons]
    rcases List.mem_cons.mp h with h1 | h1
    · omega
    · have := ih x h1
      omega

theorem sum_map_update_of_mem {n : Nat} (f : Fin n → Nat) (c : Fin n) (v : Nat) :
    ∀ l : List (Fin n), l.Nodup →
      (c ∈ l → (l.map (Function.update f c v)).sum + f c = (l.map f).sum + v) ∧
      (c ∉ l → (l.map (Function.update f c v)).sum = (l.map f).sum) := by
  intro l
  induction l with
  | nil => intro _; exact ⟨fun h => absurd h (List.not_mem_nil _), fun _ => rfl⟩
  | cons d l ih =>
    intro hnd
    obtain ⟨hd, hnd'⟩ := List.nodup_cons.mp hnd
    obtain ⟨ih1, ih2⟩ := ih hnd'
    simp only [List.map_cons, List.sum_cons]
    by_cases hdc : d = c
    · subst hdc
      rw [Function.update_same, ih2 hd]
      exact ⟨fun _ => by omega, fun h => absurd (List.mem_cons_self _ _) h⟩
    · rw [Function.update_noteq hdc]
      constructor
      · intro h
        have hc : c ∈ l := by
          rcases List.mem_cons.mp h with h1 | h1
          · exact absurd h1.symm hdc
          · exact h1
        have := ih1 hc
        omega
      · intro h
        have hc : c ∉ l := fun hc => h (List.mem_cons_of_mem _ hc)
        rw [ih2 hc]

/-- Replacing the stack of channel `c` changes the number of owners of `a` by the difference
of the occurrences of `a` in the two stacks. -/
theorem owners_update_slots (e e' : SharedState) (c : Fin NUM_INPUTS) (st : List Nat)
    (hs : e'.slots = Function.update e.slots c st) (hsrc : e'.sources = e.sources) (a : Nat) :
    e'.owners a + (e.slots c).count a = e.owners a + st.count a := by
  have hfun : (fun c' => ((Function.update e.slots c st) c').count a)
      = Function.update (fun c' => (e.slots c').count a) c (st.count a) := by
    funext c'
    by_cases h : c' = c
    · subst h; simp
    · simp [Function.update_noteq h]
  have h := (sum_map_update_of_mem (fun c' => (e.slots c').count a) c (st.count a)
    (List.finRange NUM_INPUTS) (List.nodup_finRange _)).1 (List.mem_finRange c)
  simp only [SharedState.owners, hs, hsrc, hfun]
  omega

theorem owners_ge (e : SharedState) (c : Fin NUM_INPUTS) (i : Fin NUM_TRACKS) (a : Nat) :
    (e.slots c).count a + (if e.sources i = some a then 1 else 0) ≤ e.owners a := by
  have h1 := le_sum_of_mem_nat ((List.finRange NUM_INPUTS).map fun c => (e.slots c).count a)
    ((e.slots c).count a) (List.mem_map.mpr ⟨c, List.mem_finRange c, rfl⟩)
  have h2 := le_sum_of_mem_nat
    ((List.finRange NUM_TRACKS).map fun i => if e.sources i = some a then 1 else 0)
    (if e.sources i = some a then 1 else 0) (List.mem_map.mpr ⟨i, List.mem_finRange i, rfl⟩)
  unfold SharedState.owners
  omega

theorem owners_eq_zero (e : SharedState) (a : Nat) (h1 : ∀ c, a ∉ e.slots c)
    (h2 : ∀ i, e.sources i ≠ some a) : e.owners a = 0 := by
  have hs : ((List.finRange NUM_INPUTS).map fun c => (e.slots c).count a).sum = 0 := by
    apply List.sum_eq_zero
    intro x hx
    obtain ⟨c, -, rfl⟩ := List.mem_map.mp hx
    exact List.count_eq_zero_of_not_mem (h1 c)
  have ht : ((List.finRange NUM_TRACKS).map
      fun i => if e.sources i = some a then 1 else 0).sum = 0 := by
    apply List.sum_eq_zero
    intro x hx
    obtain ⟨i, -, rfl⟩ := List.mem_map.mp hx
    rw [if_neg (h2 i)]
  unfold SharedState.owners
  omega

theorem release_length (heap : List Cell) (b : Nat) : (release heap b).length = heap.length := by
  unfold release
  split <;> simp

theorem release_getD_ne (heap : List Cell) (a b : Nat) (h : a ≠ b) :
    (release heap b).getD a none = heap.getD a none := by
  unfold release
  split
  · rw [List.getD_eq_getElem?_getD, List.getD_eq_getElem?_getD, List.getElem?_set_ne (Ne.symm h)]
  · rfl

theorem release_getD_eq (heap : List Cell) (b : Nat) (obj : DumbBuffer) (n : Nat)
    (h : heap.getD b none = some (obj, n)) :
    (release heap b).getD b none = if n ≤ 1 then none else some (obj, n - 1) := by
  have hb : b < heap.length := by
    by_contra hb
    rw [List.getD_eq_default _ _ (by omega)] at h
    cases h
  have hget : heap[b]? = some (some (obj, n)) := by
    rw [List.getD_eq_getElem?_getD, List.getElem?_eq_getElem hb] at h
    rw [List.getElem?_eq_getElem hb]
    simpa using h
  unfold release
  rw [hget]
  simp only
  rw [List.getD_eq_getElem?_getD, List.getElem?_set_self hb]
  rfl

theorem use_count_pos_isSome (cell : Cell) (h : 0 < use_count cell) :
    ∃ obj n, cell = some (obj, n) ∧ 0 < n := by
  cases cell with
  | none => simp [use_count] at h
  | some p => exact ⟨p.1, p.2, rfl, h⟩

/-- One step that puts a new snapshot at the front of the stack of channel `c` and either
leaves every old cell alone or takes one pointer to it away, decrementing its use count:
reference counting stays exact, and every old object that still has an owner is alive and
unchanged. -/
theorem shared_step (e e' : SharedState) (c : Fin NUM_INPUTS) (rest : List Nat)
    (snap : DumbBuffer) (hC : e.Counted)
    (hs : e'.slots = Function.update e.slots c (e.heap.length :: rest))
    (hsrc : e'.sources = e.sources)
    (hlen : e'.heap.length = e.heap.length + 1)
    (hnew : e'.heap.getD e.heap.length none = some (snap, 1))
    (hsub : ∀ a ∈ rest, a ∈ e.slots c)
    (hcell : ∀ a, a < e.heap.length →
      ((e.slots c).count a = rest.count a ∧ e'.heap.getD a none = e.heap.getD a none) ∨
      ((e.slots c).count a = rest.count a + 1 ∧ ∃ obj n, e.heap.getD a none = some (obj, n) ∧
        e'.heap.getD a none = if n ≤ 1 then none else some (obj, n - 1))) :
    e'.Counted ∧
    ∀ a, a < e.heap.length → 0 < e'.owners a →
      e'.object a = e.object a ∧ (e.object a).isSome = true := by
  obtain ⟨h1, h2, h3⟩ := hC
  have hown : ∀ a, e'.owners a + (e.slots c).count a
      = e.owners a + (rest.count a + if e.heap.length = a then 1 else 0) := by
    intro a
    rw [owners_update_slots e e' c (e.heap.length :: rest) hs hsrc a, List.count_cons]
    simp only [beq_iff_eq]
  have hnew_notin : ∀ c', e.heap.length ∉ e.slots c' := fun c' hm =>
    absurd (h1 c' _ hm) (lt_irrefl _)
  have hnew_src : ∀ i, e.sources i ≠ some e.heap.length := fun i hs =>
    absurd (h2 i _ (by rw [hs]; exact rfl)) (lt_irrefl _)
  have hown_new : e.owners e.heap.length = 0 := owners_eq_zero e _ hnew_notin hnew_src
  have hkey : ∀ a, a < e.heap.length →
      (use_count (e'.heap.getD a none) = e'.owners a ∧
        ((e'.heap.getD a none).isSome = true → 0 < e'.owners a)) ∧
      (0 < e'.owners a →
        (e'.heap.getD a none).map Prod.fst = (e.heap.getD a none).map Prod.fst ∧
          ((e.heap.getD a none).map Prod.fst).isSome = true) := by
    intro a ha
    have ho := hown a
    have hne : ¬ e.heap.length = a := by omega
    rw [if_neg hne] at ho
    obtain ⟨hc1, hc2⟩ := h3 a ha
    rcases hcell a ha with ⟨hcnt, hsame⟩ | ⟨hcnt, obj, n, hold, hnewc⟩
    · have heq : e'.owners a = e.owners a := by omega
      rw [hsame, heq]
      refine ⟨⟨hc1, hc2⟩, fun hpos => ⟨rfl, ?_⟩⟩
      obtain ⟨obj, n, hcellv, -⟩ := use_count_pos_isSome (e.heap.getD a none) (by omega)
      rw [hcellv]; rfl
    · rw [hold] at hc1
      have hn : n = e.owners a := hc1
      rw [hnewc, hold]
      by_cases hn1 : n ≤ 1
      · rw [if_pos hn1]
        refine ⟨⟨by show 0 = _; omega, fun h => by cases h⟩, fun hpos => by omega⟩
      · rw [if_neg hn1]
        refine ⟨⟨by show n - 1 = _; omega, fun _ => by omega⟩, fun _ => ⟨rfl, rfl⟩⟩
  refine ⟨⟨?_, ?_, ?_⟩, ?_⟩
  · intro c' a ha
    rw [hlen]
    rw [hs] at ha
    by_cases hc : c' = c
    · subst hc
      rw [Function.update_same] at ha
      rcases List.mem_cons.mp ha with h | h
      · omega
      · have := h1 c' a (hsub a h)
        omega
    · rw [Function.update_noteq hc] at ha
      have := h1 c' a ha
      omega
  · intro i a ha
    rw [hlen]
    rw [hsrc] at ha
    have := h2 i a ha
    omega
  · intro a ha
    rw [hlen] at ha
    by_cases hlt : a < e.heap.length
    · exact (hkey a hlt).1
    · have hae : a = e.heap.length := by omega
      subst hae
      have ho := hown e.heap.length
      rw [if_pos rfl, List.count_eq_zero_of_not_mem (hnew_notin c),
        List.count_eq_zero_of_not_mem (fun hm => hnew_notin c (hsub _ hm)), hown_new] at ho
      rw [hnew]
      exact ⟨by show 1 = _; omega, fun _ => by omega⟩
  · intro a ha hpos
    exact (hkey a ha).2 hpos

/-- What `latch()` does at the level of pointers, from a state with exact reference counts:
the counts stay exact; the voices keep their pointers; the new snapshot is at the front of the
stack of `c`, whose last entry is dropped when the stack was full; and every old object that
still has an owner afterwards is alive and unchanged. -/
theorem shared_latch_spec (e : SharedState) (c : Fin NUM_INPUTS) (snap : DumbBuffer)
    (hC : e.Counted) :
    (e.latch c snap).Counted ∧
    (e.latch c snap).sources = e.sources ∧
    (e.latch c snap).slots = Function.update e.slots c
      (e.heap.length :: (if MAX_STACK_SIZE ≤ (e.slots c).length then (e.slots c).dropLast
        else e.slots c)) ∧
    (e.latch c snap).object e.heap.length = some snap ∧
    ∀ a, a < e.heap.length → 0 < (e.latch c snap).owners a →
      (e.latch c snap).object a = e.object a ∧ (e.object a).isSome = true := by
  by_cases hfull : MAX_STACK_SIZE ≤ (e.slots c).length
  · have hne : e.slots c ≠ [] := by
      intro h
      rw [h] at hfull
      simp at hfull
    have hlatch : e.latch c snap =
        { e with
          heap := release (e.heap ++ [some (snap, 1)]) ((e.slots c).getLast hne)
          slots := Function.update e.slots c (e.heap.length :: (e.slots c).dropLast) } := by
      unfold SharedState.latch
      simp only [List.length_cons]
      rw [if_pos (by omega)]
      congr 2
      · rw [List.getLast_cons hne]
      · rw [List.dropLast_cons_of_ne_nil hne]
    have hb : (e.slots c).getLast hne < e.heap.length := hC.1 c _ (List.getLast_mem hne)
    have hsplit : e.slots c = (e.slots c).dropLast ++ [(e.slots c).getLast hne] :=
      (List.dropLast_append_getLast hne).symm
    have hcount : ∀ a, (e.slots c).count a
        = (e.slots c).dropLast.count a + if (e.slots c).getLast hne = a then 1 else 0 := by
      intro a
      conv_lhs => rw [hsplit]
      rw [List.count_append, List.count_singleton]
      simp only [beq_iff_eq]
    obtain ⟨hcnt, hlive⟩ := shared_step e (e.latch c snap) c (e.slots c).dropLast snap hC
      (by rw [hlatch]) (by rw [hlatch])
      (by rw [hlatch]; show (release _ _).length = _; rw [release_length]; simp)
      (by
        rw [hlatch]
        show (release _ _).getD _ none = _
        rw [release_getD_ne _ _ _ (by omega), List.getD_append_right _ _ _ _ (le_refl _)]
        simp)
      (fun a ha => List.mem_of_mem_dropLast ha)
      (by
        intro a ha
        rw [hlatch]
        show _ ∨ (_ ∧ ∃ obj n, _ ∧ (release _ _).getD a none = _)
        by_cases hab : a = (e.slots c).getLast hne
        · right
          have hc := hcount a
          rw [if_pos hab.symm] at hc
          have hge := owners_ge e c ⟨0, by decide⟩ a
          have hmem : 0 < (e.slots c).count a := by omega
          obtain ⟨huse, -⟩ := hC.2.2 a ha
          obtain ⟨obj, n, hcell, -⟩ := use_count_pos_isSome (e.heap.getD a none) (by omega)
          refine ⟨hc, obj, n, hcell, ?_⟩
          rw [← hab]
          exact release_getD_eq _ a obj n (by rw [List.getD_append _ _ _ _ ha]; exact hcell)
        · left
          have hc := hcount a
          rw [if_neg (fun h => hab h.symm)] at hc
          refine ⟨hc, ?_⟩
          show (release _ _).getD a none = _
          rw [release_getD_ne _ _ _ hab, List.getD_append _ _ _ _ ha])
    refine ⟨hcnt, by rw [hlatch], ?_, ?_, hlive⟩
    · rw [hlatch, if_pos hfull]
    · rw [hlatch]
      show ((release _ _).getD _ none).map Prod.fst = _
      rw [release_getD_ne _ _ _ (by omega), List.getD_append_right _ _ _ _ (le_refl _)]
      simp
  · have hlatch : e.latch c snap =
        { e with
          heap := e.heap ++ [some (snap, 1)]
          slots := Function.update e.slots c (e.heap.length :: e.slots c) } := by
      unfold SharedState.latch
      simp only [List.length_cons]
      rw [if_neg (by omega)]
    obtain ⟨hcnt, hlive⟩ := shared_step e (e.latch c snap) c (e.slots c) snap hC
      (by rw [hlatch]) (by rw [hlatch])
      (by rw [hlatch]; simp)
      (by
        rw [hlatch]
        show (e.heap ++ [some (snap, 1)]).getD _ none = _
        rw [List.getD_append_right _ _ _ _ (le_refl _)]
        simp)
      (fun a ha => ha)
      (by
        intro a ha
        rw [hlatch]
        left
        refine ⟨rfl, ?_⟩
        show (e.heap ++ [some (snap, 1)]).getD a none = _
        rw [List.getD_append _ _ _ _ ha])
    refine ⟨hcnt, by rw [hlatch], ?_, ?_, hlive⟩
    · rw [hlatch, if_neg hfull]
    · rw [hlatch]
      show ((e.heap ++ [some (snap, 1)]).getD _ none).map Prod.fst = _
      rw [List.getD_append_right _ _ _ _ (le_refl _)]
      simp

/-- **C16.** A snapshot held by a voice survives eviction. Take the engine at the level of its
`shared_ptr`s (`e`, with exact reference counts) and the engine state `s` it denotes. Then
`latch()` on input channel `c` (capture buffer consistent) returns, and afterwards: the
reference counts are exact again and the pointer-level state denotes the engine state after
the call; every voice has its pointer, rate and position as before, and the object its pointer
refers to is alive with the contents it had; every pointer that remains in any stack, other
than the new one, refers to an object that is alive with the contents it had; and an object is
destroyed only when no owner is left. This holds in particular when the stack of `c` was full
and its last pointer is destroyed by `pop_back`. -/
theorem latch_keeps_shared_snapshots (e : SharedState) (s : VTrackEffect) (c : Fin NUM_INPUTS)
    (hC : e.Counted) (hD : e.Denotes s) (hwf : (s.input_channels c).sampler.WF) :
    ∃ s' snap, s.latch_channel c = some s' ∧
      (s.input_channels c).sampler.latch = some snap ∧
      (e.latch c snap).Counted ∧ (e.latch c snap).Denotes s' ∧
      (∀ i, (e.latch c snap).sources i = e.sources i ∧
        (s'.tracks i).playback = (s.tracks i).playback) ∧
      (∀ i a, e.sources i = some a →
        ∃ obj, e.object a = some obj ∧ (e.latch c snap).object a = some obj) ∧
      (∀ c' a, a ∈ (e.latch c snap).slots c' → a ≠ e.heap.length →
        ∃ obj, e.object a = some obj ∧ (e.latch c snap).object a = some obj) ∧
      (∀ a, a < (e.latch c snap).heap.length → (e.latch c snap).object a = none →
        (e.latch c snap).owners a = 0) := by
  obtain ⟨s', snap, hrun, hsnap, htracks, hother, hstack, -⟩ := latch_channel_spec s c hwf
  obtain ⟨hcnt, hsrc, hslots, hnew, hlive⟩ := shared_latch_spec e c snap hC
  have hlen : (e.latch c snap).heap.length = e.heap.length + 1 := by
    unfold SharedState.latch
    simp only
    split
    · show (release _ _).length = _
      rw [release_length]; simp
    · simp
  have hslot_live : ∀ c' a, a ∈ (e.latch c snap).slots c' → a ≠ e.heap.length →
      (e.latch c snap).object a = e.object a ∧ (e.object a).isSome = true := by
    intro c' a ha hne
    have h1 := hcnt.1 c' a ha
    have h2 := owners_ge (e.latch c snap) c' ⟨0, by decide⟩ a
    have h3 : 0 < ((e.latch c snap).slots c').count a := List.count_pos_iff.mpr ha
    exact hlive a (by omega) (by omega)
  have hsrc_live : ∀ i a, e.sources i = some a →
      (e.latch c snap).object a = e.object a ∧ (e.object a).isSome = true := by
    intro i a ha
    have h1 := hC.2.1 i a (by rw [ha]; exact rfl)
    have h2 := owners_ge (e.latch c snap) c i a
    rw [hsrc, if_pos ha] at h2
    exact hlive a h1 (by omega)
  refine ⟨s', snap, hrun, hsnap, hcnt, ⟨?_, ?_⟩, ?_, ?_, ?_, ?_⟩
  · intro c'
    by_cases hc : c' = c
    · subst hc
      have hmap : (e.slots c').map e.object = (s.input_channels c').sample_stack.map some :=
        hD.1 c'
      have hlenst : (e.slots c').length = (s.input_channels c').sample_stack.length := by
        have := congrArg List.length hmap
        simpa using this
      have hcongr : ((e.latch c' snap).slots c').map (e.latch c' snap).object
          = some snap :: ((e.latch c' snap).slots c').tail.map e.object := by
        rw [hslots, Function.update_same]
        simp only [List.map_cons, List.tail_cons]
        rw [hnew]
        congr 1
        apply List.map_congr_left
        intro a ha
        have hmem : a ∈ (e.latch c' snap).slots c' := by
          rw [hslots, Function.update_same]
          exact List.mem_cons_of_mem _ ha
        have hne : a ≠ e.heap.length := by
          have hin : a ∈ e.slots c' := by
            split at ha
            · exact List.mem_of_mem_dropLast ha
            · exact ha
          have := hC.1 c' a hin
          omega
        exact (hslot_live c' a hmem hne).1
      rw [hcongr, hstack, hslots, Function.update_same, List.tail_cons]
      by_cases hfull : MAX_STACK_SIZE ≤ (e.slots c').length
      · rw [if_pos hfull, if_pos (by rw [← hlenst]; exact hfull)]
        simp only [List.map_cons, List.map_dropLast, hmap]
      · rw [if_neg hfull, if_neg (by rw [← hlenst]; exact hfull)]
        simp only [List.map_cons, hmap]
    · rw [hother c' hc, ← hD.1 c']
      have hsl : (e.latch c snap).slots c' = e.slots c' := by
        rw [hslots, Function.update_noteq hc]
      rw [hsl]
      apply List.map_congr_left
      intro a ha
      have hne : a ≠ e.heap.length := by
        have := hC.1 c' a ha
        omega
      exact (hslot_live c' a (by rw [hsl]; exact ha) hne).1
  · intro i
    rw [hsrc, htracks, ← hD.2 i]
    cases hs : e.sources i with
    | none => rfl
    | some a => exact (hsrc_live i a hs).1
  · intro i
    exact ⟨by rw [hsrc], by rw [htracks]⟩
  · intro i a ha
    obtain ⟨h1, h2⟩ := hsrc_live i a ha
    obtain ⟨obj, hobj⟩ := Option.isSome_iff_exists.mp h2
    exact ⟨obj, hobj, by rw [h1, hobj]⟩
  · intro c' a ha hne
    obtain ⟨h1, h2⟩ := hslot_live c' a ha hne
    obtain ⟨obj, hobj⟩ := Option.isSome_iff_exists.mp h2
    exact ⟨obj, hobj, by rw [h1, hobj]⟩
  · intro a ha hnone
    obtain ⟨h1, -⟩ := hcnt.2.2 a ha
    rw [← h1]
    unfold SharedState.object at hnone
    cases hcell : (e.latch c snap).heap.getD a none with
    | none => rfl
    | some p => rw [hcell] at hnone; cases hnone

theorem retain_length (heap : List Cell) (a : Nat) : (retain heap a).length = heap.length := by
  unfold retain
  split <;> simp

theorem retain_getD_ne (heap : List Cell) (a x : Nat) (h : x ≠ a) :
    (retain heap a).getD x none = heap.getD x none := by
  unfold retain
  split
  · rw [List.getD_eq_getElem?_getD, List.getD_eq_getElem?_getD, List.getElem?_set_ne (Ne.symm h)]
  · rfl

theorem retain_getD_eq (heap : List Cell) (a : Nat) (obj : DumbBuffer) (n : Nat)
    (h : heap.getD a none = some (obj, n)) :
    (retain heap a).getD a none = some (obj, n + 1) := by
  have ha : a < heap.length := by
    by_contra ha
    rw [List.getD_eq_default _ _ (by omega)] at h
    cases h
  have hget : heap[a]? = some (some (obj, n)) := by
    rw [List.getD_eq_getElem?_getD, List.getElem?_eq_getElem ha] at h
    rw [List.getElem?_eq_getElem ha]
    simpa using h
  unfold retain
  rw [hget]
  simp only
  rw [List.getD_eq_getElem?_getD, List.getElem?_set_self ha]
  rfl

/-- Replacing the source pointer of track `i` changes the number of owners of `x` by the
difference of the two pointers being pointers to `x`. -/
theorem owners_update_sources (e e' : SharedState) (i : Fin NUM_TRACKS) (v : Option Nat)
    (hs : e'.slots = e.slots) (hsrc : e'.sources = Function.update e.sources i v) (x : Nat) :
    e'.owners x + (if e.sources i = some x then 1 else 0)
      = e.owners x + (if v = some x then 1 else 0) := by
  have hfun : (fun i' => if (Function.update e.sources i v) i' = some x then 1 else 0)
      = Function.update (fun i' => if e.sources i' = some x then 1 else 0) i
          (if v = some x then 1 else 0) := by
    funext i'
    by_cases h : i' = i
    · subst h; simp
    · simp [Function.update_noteq h]
  have h := (sum_map_update_of_mem (fun i' => if e.sources i' = some x then 1 else 0) i
    (if v = some x then 1 else 0)
    (List.finRange NUM_TRACKS) (List.nodup_finRange _)).1 (List.mem_finRange i)
  simp only [SharedState.owners, hs, hsrc, hfun]
  omega

/-- The constructed engine holds no snapshot: the reference counts are exact. -/
theorem shared_init_counted : SharedState.init.Counted := by decide

/-- The assignment `playback.source = sample_stack[k]` keeps the reference counts exact, makes
the voice point to the snapshot in slot `k`, and leaves every object that still has an owner
alive and unchanged. -/
theorem shared_assign_source_spec (e : SharedState) (i : Fin NUM_TRACKS) (c : Fin NUM_INPUTS)
    (k a : Nat) (hC : e.Counted) (hk : (e.slots c)[k]? = some a) :
    (e.assign_source i c k).Counted ∧
    (e.assign_source i c k).slots = e.slots ∧
    (e.assign_source i c k).sources = Function.update e.sources i (some a) ∧
    ∀ x, x < e.heap.length → 0 < (e.assign_source i c k).owners x →
      (e.assign_source i c k).object x = e.object x ∧ (e.object x).isSome = true := by
  obtain ⟨h1, h2, h3⟩ := hC
  have hmem : a ∈ e.slots c := List.mem_iff_getElem?.mpr ⟨k, hk⟩
  have ha : a < e.heap.length := h1 c a hmem
  have hown_a : 0 < e.owners a := by
    have := owners_ge e c i a
    have : 0 < (e.slots c).count a := List.count_pos_iff.mpr hmem
    omega
  obtain ⟨obj, n, hcell_a, hn⟩ := use_count_pos_isSome (e.heap.getD a none)
    (by rw [(h3 a ha).1]; exact hown_a)
  have hn_eq : n = e.owners a := by
    have := (h3 a ha).1
    rw [hcell_a] at this
    exact this
  have hslots : (e.assign_source i c k).slots = e.slots := by
    unfold SharedState.assign_source
    rw [hk]
  have hsources : (e.assign_source i c k).sources = Function.update e.sources i (some a) := by
    unfold SharedState.assign_source
    rw [hk]
  have hown := owners_update_sources e (e.assign_source i c k) i (some a) hslots hsources
  have hheap : (e.assign_source i c k).heap =
      match e.sources i with
      | none => retain e.heap a
      | some old => release (retain e.heap a) old := by
    unfold SharedState.assign_source
    rw [hk]
  have hlen : (e.assign_source i c k).heap.length = e.heap.length := by
    rw [hheap]
    split
    · rw [retain_length]
    · rw [release_length, retain_length]
  have hkey : ∀ x, x < e.heap.length →
      (use_count ((e.assign_source i c k).heap.getD x none) = (e.assign_source i c k).owners x ∧
        (((e.assign_source i c k).heap.getD x none).isSome = true →
          0 < (e.assign_source i c k).owners x)) ∧
      (0 < (e.assign_source i c k).owners x →
        ((e.assign_source i c k).heap.getD x none).map Prod.fst
            = (e.heap.getD x none).map Prod.fst ∧
          ((e.heap.getD x none).map Prod.fst).isSome = true) := by
    intro x hx
    have ho := hown x
    obtain ⟨hc1, hc2⟩ := h3 x hx
    rw [hheap]
    cases hold : e.sources i with
    | none =>
      rw [hold] at ho
      simp only [reduceCtorEq, if_false, Option.some.injEq] at ho
      simp only
      by_cases hxa : x = a
      · subst hxa
        rw [if_pos (show x = x from rfl)] at ho
        rw [retain_getD_eq _ _ _ _ hcell_a, hcell_a]
        exact ⟨⟨by show n + 1 = _; omega, fun _ => by omega⟩, fun _ => ⟨rfl, rfl⟩⟩
      · rw [if_neg (show ¬ a = x from fun h => hxa h.symm)] at ho
        rw [retain_getD_ne _ _ _ hxa]
        have heq : (e.assign_source i c k).owners x = e.owners x := by omega
        rw [heq]
        refine ⟨⟨hc1, hc2⟩, fun hpos => ⟨rfl, ?_⟩⟩
        obtain ⟨obj', n', hcellv, -⟩ := use_count_pos_isSome (e.heap.getD x none) (by omega)
        rw [hcellv]; rfl
    | some old =>
      rw [hold] at ho
      simp only [Option.some.injEq] at ho
      simp only
      have hold_lt : old < e.heap.length := h2 i old (by rw [hold]; exact rfl)
      have hown_old : 0 < e.owners old := by
        have := owners_ge e c i old
        rw [hold, if_pos rfl] at this
        omega
      obtain ⟨obj_o, m, hcell_o, hm⟩ := use_count_pos_isSome (e.heap.getD old none)
        (by rw [(h3 old hold_lt).1]; exact hown_old)
      have hm_eq : m = e.owners old := by
        have := (h3 old hold_lt).1
        rw [hcell_o] at this
        exact this
      by_cases hoa : old = a
      · subst hoa
        have hrel : ∀ y, (release (retain e.heap old) old).getD y none = e.heap.getD y none := by
          intro y
          by_cases hy : y = old
          · subst hy
            rw [release_getD_eq _ _ obj (n + 1) (retain_getD_eq _ _ _ _ hcell_a), hcell_a,
              if_neg (by omega)]
            rfl
          · rw [release_getD_ne _ _ _ hy, retain_getD_ne _ _ _ hy]
        rw [hrel x]
        have heq : (e.assign_source i c k).owners x = e.owners x := by omega
        rw [heq]
        refine ⟨⟨hc1, hc2⟩, fun hpos => ⟨rfl, ?_⟩⟩
        obtain ⟨obj', n', hcellv, -⟩ := use_count_pos_isSome (e.heap.getD x none) (by omega)
        rw [hcellv]; rfl
      · by_cases hxa : x = a
        · subst hxa
          rw [if_neg (show ¬ old = x from hoa), if_pos (show x = x from rfl)] at ho
          rw [release_getD_ne _ _ _ (fun h => hoa h.symm), retain_getD_eq _ _ _ _ hcell_a,
            hcell_a]
          exact ⟨⟨by show n + 1 = _; omega, fun _ => by omega⟩, fun _ => ⟨rfl, rfl⟩⟩
        · rw [if_neg (show ¬ a = x from fun h => hxa h.symm)] at ho
          by_cases hxo : x = old
          · subst hxo
            rw [if_pos (show x = x from rfl)] at ho
            rw [release_getD_eq _ _ obj_o m (by rw [retain_getD_ne _ _ _ hxa]; exact hcell_o),
              hcell_o]
            by_cases hm1 : m ≤ 1
            · rw [if_pos hm1]
              exact ⟨⟨by show 0 = _; omega, fun h => by cases h⟩, fun hpos => by omega⟩
            · rw [if_neg hm1]
              exact ⟨⟨by show m - 1 = _; omega, fun _ => by omega⟩, fun _ => ⟨rfl, rfl⟩⟩
          · rw [if_neg (show ¬ old = x from fun h => hxo h.symm)] at ho
            rw [release_getD_ne _ _ _ hxo, retain_getD_ne _ _ _ hxa]
            have heq : (e.assign_source i c k).owners x = e.owners x := by omega
            rw [heq]
            refine ⟨⟨hc1, hc2⟩, fun hpos => ⟨rfl, ?_⟩⟩
            obtain ⟨obj', n', hcellv, -⟩ := use_count_pos_isSome (e.heap.getD x none) (by omega)
            rw [hcellv]; rfl
  refine ⟨⟨?_, ?_, ?_⟩, hslots, hsources, fun x hx hpos => (hkey x hx).2 hpos⟩
  · intro c' x hx
    rw [hlen]
    rw [hslots] at hx
    exact h1 c' x hx
  · intro i' x hx
    rw [hlen]
    rw [hsources] at hx
    by_cases hi : i' = i
    · subst hi
      rw [Function.update_same] at hx
      have : x = a := by
        have : some a = some x := hx
        exact (Option.some.inj this).symm
      omega
    · rw [Function.update_noteq hi] at hx
      exact h2 i' x hx
  · intro x hx
    rw [hlen] at hx
    exact (hkey x hx).1

/-- Witness for C16: a latch on channel 0, whose stack is full, destroys the pointer in the last
slot (address 15); the voice of track 0 holds the other pointer to that snapshot, which stays
alive with its contents while it is no longer in the stack. -/
theorem latch_keeps_shared_snapshots_witness :
    shared_full_example.Counted ∧ shared_full_example.Denotes engine_full_example ∧
    ∃ s', engine_full_example.latch_channel ⟨0, by decide⟩ = some s' ∧
      (s'.tracks ⟨0, by decide⟩).playback = ⟨some (snapshot_example 15), 1, 0⟩ ∧
      (shared_full_example.latch ⟨0, by decide⟩ (snapshot_example 7)).Denotes s' ∧
      (shared_full_example.latch ⟨0, by decide⟩ (snapshot_example 7)).object 15
        = some (snapshot_example 15) ∧
      (shared_full_example.latch ⟨0, by decide⟩ (snapshot_example 7)).slots ⟨0, by decide⟩
        = 64 :: List.range 15 := by
  refine ⟨by decide, by decide!, ?_⟩
  obtain ⟨s', snap, hrun, hsnap, -, hden, hvoice, hobj, -, -⟩ :=
    latch_keeps_shared_snapshots shared_full_example engine_full_example ⟨0, by decide⟩
      (by decide) (by decide!) ⟨rfl, Or.inl Nat.zero_lt_one⟩
  have hs : snap = snapshot_example 7 := by
    have h : (engine_full_example.input_channels ⟨0, by decide⟩).sampler.latch
        = some (snapshot_example 7) := by decide
    rw [h] at hsnap
    exact (Option.some.inj hsnap).symm
  subst hs
  obtain ⟨obj, h1, h2⟩ := hobj ⟨0, by decide⟩ 15 rfl
  have h3 : shared_full_example.object 15 = some (snapshot_example 15) := by decide!
  rw [h3] at h1
  refine ⟨s', hrun, (hvoice ⟨0, by decide⟩).2, hden, by rw [h2, ← Option.some.inj h1],
    by decide⟩

/-! ### Input mixing, voices without source, and the block loop -/

/-- **C18.** Input is not mixed as the sum of the gained inputs. With one stereo input bus
(A = 1, 2, 3, 4 and B = 10, 20, 30, 40), all gains to the main outputs equal to 1, offset 0 and
count 2, the sum would be 11, 22 on both main channels; `process_inputs` leaves 10, 20 on main
channel 0 (each input channel overwrites the output) and 30, 40 on main channel 1 (the pointer
`src` is not reset between the two output channels, so channel 1 reads the samples from
`offset + count` on). The capture buffers do ingest A[0..2) and B[0..2). For the last segment
of the block (offset 2, count 2) the reads for main channel 1 leave the input buffer. -/
theorem process_inputs_overwrites_and_shifts :
    (engine_mix_example.process_inputs data_mix_example 0 2).map
        (fun r => (r.2.outputs,
          (r.1.input_channels ⟨0, by decide⟩).sampler,
          (r.1.input_channels ⟨1, by decide⟩).sampler))
      = some ([⟨2, 0, [[10, 20, 0, 0], [30, 40, 0, 0]]⟩],
          ⟨[1, 2, 0], 2, 3⟩, ⟨[10, 20, 0], 2, 3⟩) ∧
    (1 * 1 + 10 * 1 : ℚ) ≠ 10 ∧ (1 * 1 + 10 * 1 : ℚ) ≠ 30 ∧
    (engine_mix_example.process_inputs data_mix_example 2 2).isSome = false := by
  refine ⟨by decide!, by decide!, by decide!, by decide!⟩

/-- **C20.** An active voice can lack a source. From idle voices without source, an enabled
sample trigger in direct-sample mode (track 1, step 0) makes `process_trigs` set the rate of the
voice to 1 and its position to 0 without giving it a source; the following `process_samples`
then fails at `assert(source)` in `Playback::fill`. -/
theorem direct_mode_trigger_activates_voice_without_source :
    (engine_direct_example.process_trigs data_example 0 0).map
        (fun r => (r.1.tracks ⟨1, by decide⟩).playback) = some ⟨none, 1, 0⟩ ∧
    ((engine_direct_example.process_trigs data_example 0 0).bind
        (fun r => r.1.process_samples r.2 0 2)).isSome = false := by
  refine ⟨by decide!, by decide!⟩

/-- **C11.** The pattern position can leave `[0, 4)`. `set_position` with project time `-1`
stores `fmod(-1, 4) = -1`. In the block loop the wrap test is `musicTime > 4`: at 60 BPM (11025
samples per step) a block of 11025 samples from position 15/4 ends with the stored position 4,
and so does a block of one pattern (88200 samples) from position 0 at 120 BPM. -/
theorem pattern_position_leaves_range :
    ((engine_idle_example 120 0).set_position 0 (-1)).positionInPattern = -1 ∧
    ((engine_idle_example 60 (15 / 4)).process_block 11025 (data_block_example 11025)).map
        (fun b => (b.segments, b.s.positionInPattern))
      = Outcome.done ([(0, 11025)], 4) ∧
    ((engine_idle_example 120 0).process_block 88200 (data_block_example 88200)).map
        (fun b => b.s.positionInPattern) = Outcome.done 4 := by
  refine ⟨by decide!, by decide!, by decide!⟩

/-- **C17.** Triggers are not evaluated once per step. At the default 120 BPM a step is 5512.5
samples long; in a block of one pattern (88200 samples) from position 0 without events,
`process_trigs` is called sixteen times, with the step indices 0, 0, 2, 2, ..., 14, 14: each
even step twice and no odd step. The second call is made at sample 5512 with music time
2756/11025, whose product with `TRIGS_PER_QN` is not an integer. -/
theorem block_loop_repeats_even_steps :
    ((engine_idle_example 120 0).process_block 88200 (data_block_example 88200)).map
        (fun b => b.trig_calls.map (fun c => (trig_index c.1, c.2)))
      = Outcome.done
          [(0, 0), (0, 5512), (2, 11025), (2, 16537), (4, 22050), (4, 27562), (6, 33075),
           (6, 38587), (8, 44100), (8, 49612), (10, 55125), (10, 60637), (12, 66150),
           (12, 71662), (14, 77175), (14, 82687)] ∧
    ((engine_idle_example 120 0).process_block 88200 (data_block_example 88200)).map
        (fun b => (b.trig_calls.map (fun c => c.1)).take 2)
      = Outcome.done [0, 2756 / 11025] ∧
    ¬ ∃ m : Int, (2756 / 11025 : ℚ) * (TRIGS_PER_QN : ℚ) = (m : ℚ) := by
  refine ⟨by decide!, by decide!, ?_⟩
  rintro ⟨m, hm⟩
  have h4 : ((TRIGS_PER_QN : Nat) : ℚ) = 4 := by norm_num
  rw [h4] at hm
  have h1 : (0 : ℚ) < (m : ℚ) := by rw [← hm]; norm_num
  have h2 : (m : ℚ) < 1 := by rw [← hm]; norm_num
  have h3 : (0 : Int) < m := by exact_mod_cast h1
  have h5 : m < 1 := by exact_mod_cast h2
  omega

/-! ### Tempo and capture-buffer capacity -/

/-- Growing a consistent capture buffer succeeds; the result is consistent, has the new
length, and its write cursor is the old length. -/
theorem set_length_grow_shape (fresh : Nat → ℚ) (sb : SampleBuffer) (L2 : Nat)
    (hwf : sb.WF) (hgrow : sb.length < L2) :
    ∃ sb', sb.set_length fresh L2 = some sb' ∧ sb'.length = L2 ∧
      sb'.buffer.length = L2 ∧ sb'.position = sb.length := by
  obtain ⟨hlen, hpos⟩ := hwf
  have hne : ¬ L2 = sb.length := by omega
  have hge : L2 ≥ sb.length := by omega
  have key : ∃ nb', set_length_grow_loop sb.buffer sb.length sb.length sb.position 0
        (alloc fresh L2) = some (nb', 0 + sb.length) ∧ nb'.length = (alloc fresh L2).length := by
    rcases hpos with hp | h0
    · obtain ⟨nb', h1, h2, -⟩ := set_length_grow_loop_spec sb.buffer sb.length hlen sb.length
        sb.position 0 (alloc fresh L2) hp (by rw [length_alloc]; omega)
      exact ⟨nb', h1, h2⟩
    · rw [h0]
      exact ⟨alloc fresh L2, by simp [set_length_grow_loop], rfl⟩
  obtain ⟨nb', hrun, hl⟩ := key
  rw [length_alloc] at hl
  obtain ⟨b, hms, hbl, -⟩ :=
    memset_zero_spec (0 + sb.length) (L2 - sb.length) nb' (by omega)
  refine ⟨⟨b, 0 + sb.length, L2⟩, ?_, rfl, by simp [hbl, hl], by simp⟩
  simp only [SampleBuffer.set_length, hne, hge, if_false, if_true, hrun, hms]

/-- Shrinking a capture buffer whose write cursor is 0 to a length of at least 2 reads
`buffer[length]`: after the first copy the cursor is stepped from 0 to `length`. -/
theorem set_length_shrink_at_zero (fresh : Nat → ℚ) (sb : SampleBuffer) (N : Nat)
    (hlen : sb.buffer.length = sb.length) (hpos : sb.position = 0)
    (h2 : 2 ≤ N) (hN : N < sb.length) :
    sb.set_length fresh N = none := by
  obtain ⟨m, rfl⟩ : ∃ m, N = m + 2 := ⟨N - 2, by omega⟩
  have hne : ¬ m + 2 = sb.length := by omega
  have hge : ¬ m + 2 ≥ sb.length := by omega
  have hr0 : readAt sb.buffer 0 = some (sb.buffer.get ⟨0, by omega⟩) := by
    simp only [readAt]
    exact List.getElem?_eq_getElem _
  have hrL : readAt sb.buffer sb.length = none := by
    simp only [readAt]
    exact List.getElem?_eq_none (by omega)
  have hw := writeAt_eq_some (sb.buffer.get ⟨0, by omega⟩)
    (show m + 1 < (alloc fresh (m + 2)).length by rw [length_alloc]; omega)
  simp only [SampleBuffer.set_length, hne, hge, if_false, hpos, set_length_shrink_loop, hr0, hw,
    lt_irrefl, hrL]

/-- The loop of `update_sample_buffers` over distinct channels, when every resize succeeds. -/
theorem update_sample_buffers_fold (fresh : Fin NUM_INPUTS → Nat → ℚ) (N : Nat) :
    ∀ (l : List (Fin NUM_INPUTS)) (s : VTrackEffect), l.Nodup →
      (∀ c, c ∈ l → ∃ sb, (s.input_channels c).sampler.set_length (fresh c) N = some sb) →
      ∃ s', l.foldlM (update_sample_buffers_channel fresh N) s = some s' ∧
        s'.tracks = s.tracks ∧ s'.tempo = s.tempo ∧
        s'.positionInPattern = s.positionInPattern ∧ s'.last_vu = s.last_vu ∧
        ∀ c, some (s'.input_channels c) =
          if c ∈ l then
            ((s.input_channels c).sampler.set_length (fresh c) N).map
              (fun sb => { s.input_channels c with sampler := sb })
          else some (s.input_channels c) := by
  intro l
  induction l with
  | nil => intro s _ _; exact ⟨s, rfl, rfl, rfl, rfl, rfl, fun c => by simp⟩
  | cons i l ih =>
    intro s hnd hok
    have hi : i ∉ l := (List.nodup_cons.mp hnd).1
    obtain ⟨sb, hsb⟩ := hok i (by simp)
    have hstep : update_sample_buffers_channel fresh N s i =
        some { s with input_channels :=
          Function.update s.input_channels i { s.input_channels i with sampler := sb } } := by
      simp only [update_sample_buffers_channel, hsb]
    obtain ⟨s', hrun, htr, hte, hpp, hvu, hch⟩ :=
      ih { s with input_channels :=
          Function.update s.input_channels i { s.input_channels i with sampler := sb } }
        (List.nodup_cons.mp hnd).2 (by
          intro c hc
          have hne : c ≠ i := fun h => hi (h ▸ hc)
          simpa [Function.update_noteq hne] using hok c (by simp [hc]))
    refine ⟨s', ?_, htr, hte, hpp, hvu, ?_⟩
    · rw [List.foldlM_cons, hstep]
      exact hrun
    · intro c
      rw [hch c]
      by_cases hc : c = i
      · subst hc
        simp [hi, hsb]
      · have hne : c ≠ i := hc
        by_cases hcl : c ∈ l
        · simp [hcl, Function.update_noteq hne]
        · simp [hcl, hc, Function.update_noteq hne]

/-- A tempo change that makes every capture buffer longer: `set_tempo t` returns, the tempo is
`t`, `samples_per_qn()` is `60 * 44100 / t`, and every capture buffer is consistent with length
`ceil(4 * 60 * 44100 / t)`. -/
theorem set_tempo_grow (fresh : Fin NUM_INPUTS → Nat → ℚ) (s : VTrackEffect) (t : ℚ)
    (hne : s.tempo ≠ t)
    (hwf : ∀ c, (s.input_channels c).sampler.WF)
    (hgrow : ∀ c, ((s.input_channels c).sampler.length : Int)
      < ⌈(((60 * SAMPLE_RATE : Nat) : ℚ) / t) * (PATTERN_LENGTH_QN : ℚ)⌉) :
    ∃ s', s.set_tempo fresh t = some s' ∧ s'.tempo = t ∧
      s'.samples_per_qn = ((60 * SAMPLE_RATE : Nat) : ℚ) / t ∧
      s'.tracks = s.tracks ∧
      ∀ c, (s'.input_channels c).sampler.WF ∧
        ((s'.input_channels c).sampler.length : Int)
          = ⌈(((60 * SAMPLE_RATE : Nat) : ℚ) / t) * (PATTERN_LENGTH_QN : ℚ)⌉ ∧
        (s'.input_channels c).sampler.position = (s.input_channels c).sampler.length ∧
        (s'.input_channels c).sample_stack = (s.input_channels c).sample_stack ∧
        (s'.input_channels c).direct = (s.input_channels c).direct ∧
        (s'.input_channels c).latch_trigs = (s.input_channels c).latch_trigs ∧
        (s'.input_channels c).latch_trig_oneshots = (s.input_channels c).latch_trig_oneshots ∧
        (s'.input_channels c).armed = (s.input_channels c).armed := by
  have hc0 : (0 : Int) ≤ ⌈(((60 * SAMPLE_RATE : Nat) : ℚ) / t) * (PATTERN_LENGTH_QN : ℚ)⌉ := by
    have := hgrow ⟨0, by decide⟩
    omega
  have hgrow' : ∀ c, (s.input_channels c).sampler.length
      < (⌈(((60 * SAMPLE_RATE : Nat) : ℚ) / t) * (PATTERN_LENGTH_QN : ℚ)⌉).toNat := by
    intro c
    have := hgrow c
    omega
  have hset : ∀ c, ∃ sb, (s.input_channels c).sampler.set_length (fresh c)
        (⌈(((60 * SAMPLE_RATE : Nat) : ℚ) / t) * (PATTERN_LENGTH_QN : ℚ)⌉).toNat = some sb ∧
      sb.length = (⌈(((60 * SAMPLE_RATE : Nat) : ℚ) / t) * (PATTERN_LENGTH_QN : ℚ)⌉).toNat ∧
      sb.buffer.length
        = (⌈(((60 * SAMPLE_RATE : Nat) : ℚ) / t) * (PATTERN_LENGTH_QN : ℚ)⌉).toNat ∧
      sb.position = (s.input_channels c).sampler.length := fun c =>
    set_length_grow_shape (fresh c) _ _ (hwf c) (hgrow' c)
  obtain ⟨s', hrun, htr, hte, -, -, hch⟩ := update_sample_buffers_fold fresh
    (⌈(((60 * SAMPLE_RATE : Nat) : ℚ) / t) * (PATTERN_LENGTH_QN : ℚ)⌉).toNat
    (List.finRange NUM_INPUTS) { s with tempo := t } (List.nodup_finRange _)
    (fun c _ => by obtain ⟨sb, h, -⟩ := hset c; exact ⟨sb, h⟩)
  refine ⟨s', ?_, hte, ?_, htr, ?_⟩
  · simp only [VTrackEffect.set_tempo, if_pos hne, VTrackEffect.update_sample_buffers,
      VTrackEffect.samples_per_qn, not_lt.mpr hc0, if_false]
    exact hrun
  · simp only [VTrackEffect.samples_per_qn, hte]
  · intro c
    obtain ⟨sb, hsb, hl, hbl, hp⟩ := hset c
    have h := hch c
    simp only [List.mem_finRange, if_true] at h
    have h' : some (s'.input_channels c)
        = some ({ s.input_channels c with sampler := sb } : InputChannel) := by
      rw [h]
      show Option.map _ ((s.input_channels c).sampler.set_length (fresh c) _) = _
      rw [hsb]
      rfl
    rw [Option.some.inj h']
    refine ⟨⟨by rw [hbl, hl], Or.inl ?_⟩, ?_, hp, rfl, rfl, rfl, rfl, rfl⟩
    · show sb.position < sb.length
      rw [hp, hl]; exact hgrow' c
    · show (sb.length : Int) = _
      rw [hl]; omega

theorem init_settings_sampler (s : VTrackEffect) (c : Fin NUM_INPUTS) :
    (s.init_settings.input_channels c).sampler = (s.input_channels c).sampler := by
  unfold VTrackEffect.init_settings
  by_cases hc : c = ⟨0, by decide⟩
  · subst hc
    simp only [Function.update_same]
  · simp only [ne_eq, hc, not_false_eq_true, Function.update_noteq]

theorem init_body_eq (fresh : Fin NUM_INPUTS → Nat → ℚ) (s s1 : VTrackEffect) (t : ℚ)
    (hrun : VTrackEffect.set_tempo fresh s t = some s1) :
    VTrackEffect.init_body fresh s t = some s1.init_settings := by
  unfold VTrackEffect.init_body
  rw [hrun]

/-- Under the checked reading the constructor leaves tempo 120, `samples_per_qn() = 22050` and
four capture buffers of 88200 samples with the write cursor at 0, and `set_tempo(120)` then
changes nothing; `set_tempo(240)` shrinks the buffers to 44100 samples, and the shrinking loop
of `set_length`, started at cursor 0, steps the cursor from 0 to `length` and reads
`buffer[88200]`, one slot outside the buffer, where the checked reading has no value. -/
theorem set_tempo_shrink_reads_past_buffer (fresh : Fin NUM_INPUTS → Nat → ℚ) (vu : ℚ) :
    ∃ s, VTrackEffect.init fresh vu = some s ∧ s.tempo = 120 ∧ s.samples_per_qn = 22050 ∧
      (∀ c, (s.input_channels c).sampler.length = 88200 ∧
        (s.input_channels c).sampler.buffer.length = 88200 ∧
        (s.input_channels c).sampler.position = 0) ∧
      s.set_tempo fresh 120 = some s ∧
      s.set_tempo fresh 240 = none := by
  have hc120 : ⌈(((60 * SAMPLE_RATE : Nat) : ℚ) / 120) * (PATTERN_LENGTH_QN : ℚ)⌉
      = (88200 : Int) := by decide!
  have hc240 : ⌈(((60 * SAMPLE_RATE : Nat) : ℚ) / 240) * (PATTERN_LENGTH_QN : ℚ)⌉
      = (44100 : Int) := by decide!
  obtain ⟨s1, hrun, htempo, -, htracks, hch⟩ := set_tempo_grow fresh
    { tracks := fun _ => Track.init, input_channels := fun _ => InputChannel.init,
      tempo := 0, positionInPattern := 0, last_vu := vu } 120
    (by show (0 : ℚ) ≠ 120; norm_num)
    (fun _ => ⟨rfl, Or.inr rfl⟩)
    (fun _ => by rw [hc120]; show ((0 : Nat) : Int) < 88200; norm_num)
  have hsamp : ∀ c, (s1.input_channels c).sampler.length = 88200 ∧
      (s1.input_channels c).sampler.buffer.length = 88200 ∧
      (s1.input_channels c).sampler.position = 0 := by
    intro c
    obtain ⟨⟨hbl, -⟩, hl, hp, -⟩ := hch c
    rw [hc120] at hl
    have hl' : (s1.input_channels c).sampler.length = 88200 := by omega
    exact ⟨hl', by rw [hbl, hl'], hp⟩
  have hinit : VTrackEffect.init fresh vu = some s1.init_settings :=
    init_body_eq fresh _ s1 120 hrun
  have htempo' : s1.init_settings.tempo = 120 := htempo
  refine ⟨s1.init_settings, hinit, htempo', ?_, ?_, ?_, ?_⟩
  · simp only [VTrackEffect.samples_per_qn, htempo']
    norm_num
  · intro c
    rw [init_settings_sampler]
    exact hsamp c
  · unfold VTrackEffect.set_tempo
    rw [if_neg (not_not.mpr htempo')]
  · have hfr : List.finRange NUM_INPUTS
        = [⟨0, by decide⟩, ⟨1, by decide⟩, ⟨2, by decide⟩, ⟨3, by decide⟩] := by decide
    have hne : s1.init_settings.tempo ≠ 240 := by rw [htempo']; norm_num
    have hfail : (s1.input_channels ⟨0, by decide⟩).sampler.set_length (fresh ⟨0, by decide⟩)
        (44100 : Int).toNat = none := by
      obtain ⟨hl, hbl, hp⟩ := hsamp ⟨0, by decide⟩
      exact set_length_shrink_at_zero _ _ _ (by rw [hbl, hl]) hp (by decide)
        (by rw [hl]; decide)
    unfold VTrackEffect.set_tempo
    rw [if_pos hne]
    unfold VTrackEffect.update_sample_buffers
    simp only [VTrackEffect.samples_per_qn, hc240, hfr, List.foldlM_cons,
      update_sample_buffers_channel, init_settings_sampler, hfail]
    rfl

theorem set_length_grow_loop_with_checked (buffer : List ℚ) (length : Nat) :
    ∀ (n p np : Nat) (nb : List ℚ),
      set_length_grow_loop_with readAt buffer length n p np nb
        = set_length_grow_loop buffer length n p np nb := by
  intro n
  induction n with
  | zero => intro p np nb; rfl
  | succ n ih =>
    intro p np nb
    simp only [set_length_grow_loop_with, set_length_grow_loop]
    cases readAt buffer p with
    | none => rfl
    | some v =>
      simp only
      cases writeAt nb np v with
      | none => rfl
      | some nb2 => exact ih _ _ _

theorem set_length_shrink_loop_with_checked (buffer : List ℚ) (length : Nat) :
    ∀ (n p : Nat) (nb : List ℚ),
      set_length_shrink_loop_with readAt buffer length n p nb
        = set_length_shrink_loop buffer length n p nb := by
  intro n
  induction n with
  | zero => intro p nb; rfl
  | succ n ih =>
    intro p nb
    simp only [set_length_shrink_loop_with, set_length_shrink_loop]
    cases readAt buffer p with
    | none => rfl
    | some v =>
      simp only
      cases writeAt nb n v with
      | none => rfl
      | some nb2 => exact ih _ _

/-- With the checked reading, `set_length_with` is `set_length`. -/
theorem set_length_with_checked (fresh : Nat → ℚ) (sb : SampleBuffer) (N : Nat) :
    sb.set_length_with readAt fresh N = sb.set_length fresh N := by
  simp only [SampleBuffer.set_length_with, SampleBuffer.set_length,
    set_length_grow_loop_with_checked, set_length_shrink_loop_with_checked]

/-- With the checked reading, `set_tempo_with` is `set_tempo`. -/
theorem set_tempo_with_checked (fresh : Fin NUM_INPUTS → Nat → ℚ) (s : VTrackEffect) (t : ℚ) :
    s.set_tempo_with readAt fresh t = s.set_tempo fresh t := by
  have hch : ∀ N, update_sample_buffers_channel_with readAt fresh N
      = update_sample_buffers_channel fresh N := by
    intro N
    funext s i
    simp only [update_sample_buffers_channel_with, update_sample_buffers_channel,
      set_length_with_checked]
  simp only [VTrackEffect.set_tempo_with, VTrackEffect.set_tempo,
    VTrackEffect.update_sample_buffers_with, VTrackEffect.update_sample_buffers, hch]

theorem foldlM_option_inv {α β : Type} (f : α → β → Option α) (P : α → Prop)
    (hf : ∀ a b a', P a → f a b = some a' → P a') :
    ∀ (l : List β) (a a' : α), P a → l.foldlM f a = some a' → P a' := by
  intro l
  induction l with
  | nil =>
    intro a a' ha h
    simp only [List.foldlM_nil] at h
    cases h
    exact ha
  | cons b l ih =>
    intro a a' ha h
    rw [List.foldlM_cons] at h
    cases hfa : f a b with
    | none => rw [hfa] at h; cases h
    | some a1 =>
      rw [hfa] at h
      exact ih a1 a' (hf a b a1 ha hfa) h

theorem process_events_loop_spec (events : List Event) (pos : Int) :
    process_events_loop events pos = -1 ∨ pos < process_events_loop events pos := by
  induction events with
  | nil => exact Or.inl rfl
  | cons e es ih =>
    unfold process_events_loop
    by_cases h1 : e.sampleOffset < pos
    · rw [if_pos h1]; exact ih
    · rw [if_neg h1]
      by_cases h2 : e.sampleOffset > pos
      · rw [if_pos h2]; exact Or.inr h2
      · rw [if_neg h2]; exact ih

theorem get_next_trig_ge (s : VTrackEffect) (qn : ℚ) (samples : Int)
    (htempo : 0 < s.tempo) (hs : 0 ≤ samples) : samples ≤ s.get_next_trig qn samples := by
  have h4 : ((TRIGS_PER_QN : Nat) : ℚ) = 4 := by norm_num
  have hspq : 0 < s.samples_per_qn := by
    unfold VTrackEffect.samples_per_qn
    exact div_pos (by norm_num) htempo
  have hc1 : qn * 4 ≤ ((⌈qn * 4⌉ : Int) : ℚ) := Int.le_ceil _
  have hd0 : 0 ≤ ((⌈qn * 4⌉ : Int) : ℚ) / 4 - qn := by linarith
  have hv0 : (samples : ℚ) ≤
      (samples : ℚ) + (((⌈qn * 4⌉ : Int) : ℚ) / 4 - qn) * s.samples_per_qn := by
    have := mul_nonneg hd0 hspq.le
    linarith
  have hsq : (0 : ℚ) ≤ (samples : ℚ) := by exact_mod_cast hs
  unfold VTrackEffect.get_next_trig
  simp only [h4]
  rw [trunc_of_nonneg (le_trans hsq hv0)]
  exact Int.le_floor.mpr hv0

theorem process_trigs_preserves (s : VTrackEffect) (data : ProcessData) (time : ℚ)
    (sampleOffset : Int) (r : VTrackEffect × ProcessData)
    (h : s.process_trigs data time sampleOffset = some r) :
    r.1.tempo = s.tempo ∧ r.2.numSamples = data.numSamples := by
  unfold VTrackEffect.process_trigs at h
  by_cases hr : 0 ≤ trig_index time ∧ trig_index time < (PATTERN_LENGTH : Int)
  · simp only [dif_pos hr] at h
    obtain ⟨hev, hte, -⟩ := process_trigs_track_fold_events
      ⟨(trig_index time).toNat, by omega⟩ time sampleOffset (List.finRange NUM_TRACKS) (s, data)
    cases hl : (List.finRange NUM_INPUTS).foldlM
        (process_trigs_latch ⟨(trig_index time).toNat, by omega⟩)
        ((List.finRange NUM_TRACKS).foldl
          (process_trigs_track ⟨(trig_index time).toNat, by omega⟩ time sampleOffset)
          (s, data)).1 with
    | none => rw [hl] at h; cases h
    | some s' =>
      rw [hl] at h
      simp only [Option.some.injEq] at h
      subst h
      have hinv := foldlM_option_inv
        (process_trigs_latch ⟨(trig_index time).toNat, by omega⟩)
        (fun a => a.tempo = s.tempo) (by
          intro a b a' ha hab
          rw [process_trigs_latch_eq] at hab
          cases hc : latch_trig_apply ⟨(trig_index time).toNat, by omega⟩ (a.input_channels b) with
          | none => rw [hc] at hab; cases hab
          | some chan =>
            rw [hc] at hab
            simp only [Option.some.injEq] at hab
            subst hab
            exact ha)
        (List.finRange NUM_INPUTS) _ s' hte hl
      refine ⟨hinv, ?_⟩
      show ((List.finRange NUM_TRACKS).foldl _ (s, data)).2.numSamples = data.numSamples
      rw [hev]
  · simp only [dif_neg hr] at h
    cases h

theorem process_samples_preserves (s : VTrackEffect) (data : ProcessData) (offset count : Nat)
    (r : VTrackEffect × ProcessData) (h : s.process_samples data offset count = some r) :
    r.1.tempo = s.tempo ∧ r.2.numSamples = data.numSamples := by
  unfold VTrackEffect.process_samples at h
  cases ho : data.outputs[0]? with
  | none => rw [ho] at h; cases h
  | some outp =>
    rw [ho] at h
    simp only at h
    cases hf : (List.finRange NUM_TRACKS).foldlM (process_samples_track offset count)
        (s, outp) with
    | none => rw [hf] at h; cases h
    | some acc =>
      rw [hf] at h
      simp only [Option.some.injEq] at h
      subst h
      have hinv := foldlM_option_inv (process_samples_track offset count)
        (fun a => a.1.tempo = s.tempo) (by
          intro a i a' ha hab
          unfold process_samples_track at hab
          by_cases hr : (a.1.tracks i).playback.rate = 0
          · simp only [hr, if_true, Option.some.injEq] at hab
            subst hab
            exact ha
          · simp only [hr, if_false] at hab
            cases h1 : [0, 1].foldlM (process_samples_channel (a.1.tracks i).playback
                (a.1.tracks i).level offset count) a.2 with
            | none => rw [h1] at hab; cases hab
            | some outp' =>
              rw [h1] at hab
              cases h2 : (a.1.tracks i).playback.advance (count : ℚ) with
              | none => rw [h2] at hab; cases hab
              | some pb =>
                rw [h2] at hab
                simp only [Option.some.injEq] at hab
                subst hab
                exact ha)
        (List.finRange NUM_TRACKS) (s, outp) acc rfl hf
      exact ⟨hinv, rfl⟩

theorem samples_per_trig_congr (s s' : VTrackEffect) (h : s'.tempo = s.tempo) :
    s'.samples_per_trig = s.samples_per_trig ∧ s'.samples_per_qn = s.samples_per_qn := by
  simp only [VTrackEffect.samples_per_trig, VTrackEffect.samples_per_qn, h, and_self]

/-- The first part of an iteration, entered with `0 <= sample_position < numSamples` at a tempo
with at least one sample per step: when no fault occurs in `process_trigs`, the computed
`next_sample_pos` lies after `sample_position` and not after `numSamples`. -/
theorem block_next_spec (b : BlockState) (htempo : 0 < b.s.tempo)
    (hspt : 1 ≤ b.s.samples_per_trig) (hpos : 0 ≤ b.sample_position)
    (hlt : b.sample_position < (b.data.numSamples : Int))
    (r : VTrackEffect × ProcessData × List (ℚ × Int) × Int) (h : block_next b = some r) :
    r.1.tempo = b.s.tempo ∧ r.2.1.numSamples = b.data.numSamples ∧
      b.sample_position < r.2.2.2 ∧ r.2.2.2 ≤ (r.2.1.numSamples : Int) := by
  have hev := process_events_loop_spec b.data.inputEvents b.sample_position
  have hge := get_next_trig_ge b.s b.musicTime b.sample_position htempo hpos
  unfold block_next at h
  by_cases hfire : b.s.get_next_trig b.musicTime b.sample_position = b.sample_position
  · simp only [hfire, if_true] at h
    cases ht : b.s.process_trigs b.data b.musicTime b.sample_position with
    | none => rw [ht] at h; cases h
    | some r0 =>
      rw [ht] at h
      simp only [Option.some.injEq] at h
      obtain ⟨h1, h2⟩ := process_trigs_preserves _ _ _ _ r0 ht
      have hspt0 : 1 ≤ r0.1.samples_per_trig := by
        rw [(samples_per_trig_congr b.s r0.1 h1).1]; exact hspt
      have hq : (0 : ℚ) ≤ (b.sample_position : ℚ) := by exact_mod_cast hpos
      have hnext : b.sample_position + 1
          ≤ trunc ((b.sample_position : ℚ) + r0.1.samples_per_trig) := by
        rw [trunc_of_nonneg (by linarith)]
        apply Int.le_floor.mpr
        push_cast
        linarith
      subst h
      refine ⟨h1, h2, ?_, ?_⟩
      · show b.sample_position < (if process_events b.data b.sample_position ≥ 0 then _ else _)
        unfold process_events
        rw [h2]
        split <;> omega
      · show (if process_events b.data b.sample_position ≥ 0 then _ else _)
          ≤ (r0.2.numSamples : Int)
        split <;> omega
  · simp only [hfire, if_false, Option.some.injEq] at h
    subst h
    refine ⟨rfl, rfl, ?_, ?_⟩
    · show b.sample_position < (if process_events b.data b.sample_position ≥ 0 then _ else _)
      unfold process_events
      split <;> omega
    · show (if process_events b.data b.sample_position ≥ 0 then _ else _)
        ≤ (b.data.numSamples : Int)
      split <;> omega

theorem mix_loop_with_checked (f : ℚ) (inbuf : List ℚ) :
    ∀ (n src dst : Nat) (out : List ℚ) (silent : Bool),
      mix_loop_with readAt f inbuf n src dst out silent = mix_loop f inbuf n src dst out silent := by
  intro n
  induction n with
  | zero => intro src dst out silent; rfl
  | succ n ih =>
    intro src dst out silent
    simp only [mix_loop_with, mix_loop]
    cases readAt inbuf src with
    | none => rfl
    | some v =>
      simp only
      cases writeAt out dst (v * f) with
      | none => rfl
      | some out2 => exact ih _ _ _ _

/-- With the checked reading, `process_with` is `process`. -/
theorem process_with_checked (s : VTrackEffect) (data : ProcessData) (offset count : Nat) :
    s.process_with readAt data offset count = s.process data offset count := by
  have h1 : ∀ inp c inbuf chan, process_inputs_out_with readAt inp c inbuf chan offset count
      = process_inputs_out inp c inbuf chan offset count := by
    intro inp c inbuf chan
    funext acc outc
    simp only [process_inputs_out_with, process_inputs_out, mix_loop_with_checked]
  have h2 : ∀ inp, process_inputs_channel_with readAt inp offset count
      = process_inputs_channel inp offset count := by
    intro inp
    funext acc c
    simp only [process_inputs_channel_with, process_inputs_channel, h1]
  have h3 : process_inputs_bus_with readAt data offset count
      = process_inputs_bus data offset count := by
    funext acc bus
    simp only [process_inputs_bus_with, process_inputs_bus, h2]
  simp only [VTrackEffect.process_with, VTrackEffect.process, VTrackEffect.process_inputs_with,
    VTrackEffect.process_inputs, h3]

/-- With the checked reading, `process_block_with` is `process_block`. -/
theorem process_block_with_checked (fuel : Nat) (s : VTrackEffect) (data : ProcessData) :
    s.process_block_with readAt fuel data = s.process_block fuel data := by
  have hit : ∀ b, block_iteration_with readAt b = block_iteration b := by
    intro b
    unfold block_iteration_with block_iteration
    cases block_next b with
    | none => rfl
    | some r => simp only [process_with_checked]
  have hloop : ∀ (fuel : Nat) (b : BlockState), block_loop_with readAt fuel b = block_loop fuel b := by
    intro fuel
    induction fuel with
    | zero => intro b; rfl
    | succ fuel ih =>
      intro b
      simp only [block_loop_with, block_loop, hit]
      split
      · cases block_iteration b with
        | none => rfl
        | some b1 => exact ih b1
      · rfl
  simp only [VTrackEffect.process_block_with, VTrackEffect.process_block, hloop]

theorem process_inputs_with_preserves (read : Read) (s : VTrackEffect) (data : ProcessData)
    (offset count : Nat) (r : VTrackEffect × ProcessData)
    (h : s.process_inputs_with read data offset count = some r) :
    r.1.tempo = s.tempo ∧ r.2.numSamples = data.numSamples := by
  unfold VTrackEffect.process_inputs_with at h
  split at h
  · cases ho : data.outputs[0]? with
    | none => rw [ho] at h; cases h
    | some outp =>
      rw [ho] at h
      simp only at h
      cases hf : (List.range data.numInputs).foldlM
          (process_inputs_bus_with read data offset count) (s, outp, 0) with
      | none => rw [hf] at h; cases h
      | some acc =>
        rw [hf] at h
        simp only [Option.some.injEq] at h
        subst h
        have hchan : ∀ (inp : AudioBusBuffers) (a : VTrackEffect × AudioBusBuffers × Nat)
            (c : Nat) (a' : VTrackEffect × AudioBusBuffers × Nat), a.1.tempo = s.tempo →
            process_inputs_channel_with read inp offset count a c = some a' →
            a'.1.tempo = s.tempo := by
          intro inp a c a' ha hab
          unfold process_inputs_channel_with at hab
          by_cases hi : a.2.2 < NUM_INPUTS
          · simp only [dif_pos hi] at hab
            cases h1 : inp.channelBuffers32[c]? with
            | none => rw [h1] at hab; cases hab
            | some inbuf =>
              rw [h1] at hab
              simp only at hab
              cases h2 : (a.1.input_channels ⟨a.2.2, hi⟩).sampler.add_samples
                  (inbuf.drop offset) count with
              | none => rw [h2] at hab; cases hab
              | some sampler =>
                rw [h2] at hab
                simp only at hab
                split at hab
                · cases hab
                · simp only [Option.some.injEq] at hab
                  subst hab
                  exact ha
          · simp only [dif_neg hi] at hab
            cases hab
        have hinv := foldlM_option_inv (process_inputs_bus_with read data offset count)
          (fun a => a.1.tempo = s.tempo) (by
            intro a bus a' ha hab
            unfold process_inputs_bus_with at hab
            cases h1 : data.inputs[bus]? with
            | none => rw [h1] at hab; cases hab
            | some inp =>
              rw [h1] at hab
              simp only at hab
              split at hab
              · exact foldlM_option_inv (process_inputs_channel_with read inp offset count)
                  (fun a => a.1.tempo = s.tempo) (hchan inp) _ a a' ha hab
              · cases hab)
          (List.range data.numInputs) (s, outp, 0) acc rfl hf
        exact ⟨hinv, rfl⟩
  · cases h

theorem process_with_preserves (read : Read) (s : VTrackEffect) (data : ProcessData)
    (offset count : Nat) (r : VTrackEffect × ProcessData)
    (h : s.process_with read data offset count = some r) :
    r.1.tempo = s.tempo ∧ r.2.numSamples = data.numSamples := by
  unfold VTrackEffect.process_with at h
  cases hi : s.process_inputs_with read data offset count with
  | none => rw [hi] at h; cases h
  | some r1 =>
    rw [hi] at h
    obtain ⟨h1, h2⟩ := process_inputs_with_preserves read s data offset count r1 hi
    obtain ⟨h3, h4⟩ := process_samples_preserves r1.1 r1.2 offset count r h
    exact ⟨by rw [h3, h1], by rw [h4, h2]⟩

/-- A whole iteration entered with `0 <= sample_position < numSamples` at a tempo with at
least one sample per step: when it returns, the cursor has advanced to at most `numSamples`,
tempo and block length are unchanged, and the segment from the old to the new cursor is
recorded. -/
theorem block_iteration_with_spec (read : Read) (b : BlockState) (htempo : 0 < b.s.tempo)
    (hspt : 1 ≤ b.s.samples_per_trig) (hpos : 0 ≤ b.sample_position)
    (hlt : b.sample_position < (b.data.numSamples : Int))
    (b' : BlockState) (h : block_iteration_with read b = some b') :
    b'.s.tempo = b.s.tempo ∧ b'.data.numSamples = b.data.numSamples ∧
      b.sample_position < b'.sample_position ∧
      b'.sample_position ≤ (b.data.numSamples : Int) ∧
      b'.segments = b.segments ++ [(b.sample_position, b'.sample_position - b.sample_position)] := by
  unfold block_iteration_with at h
  cases hn : block_next b with
  | none => rw [hn] at h; cases h
  | some r =>
    obtain ⟨h1, h2, h3, h4⟩ := block_next_spec b htempo hspt hpos hlt r hn
    rw [hn] at h
    simp only [if_pos h4] at h
    have hne : r.2.2.2 - b.sample_position ≠ 0 := by omega
    have hok : 0 ≤ b.sample_position ∧ 0 ≤ r.2.2.2 - b.sample_position := ⟨hpos, by omega⟩
    simp only [ne_eq, hne, not_false_eq_true, if_true, hok, and_self] at h
    cases hp : r.1.process_with read r.2.1 b.sample_position.toNat
        (r.2.2.2 - b.sample_position).toNat with
    | none => rw [hp] at h; cases h
    | some r1 =>
      rw [hp] at h
      simp only [Option.some.injEq] at h
      obtain ⟨h5, h6⟩ := process_with_preserves read _ _ _ _ r1 hp
      subst h
      exact ⟨by rw [h5, h1], by rw [h6, h2], h3, by rw [← h2]; exact h4, rfl⟩

/-- The block loop from a cursor in `[0, numSamples]`: with fuel for the samples left it does
not reach the bound, and when it finishes the cursor is `numSamples` and the segments recorded
since cover what was left of the block. -/
theorem block_loop_with_spec (read : Read) :
    ∀ (fuel : Nat) (b : BlockState), 0 < b.s.tempo → 1 ≤ b.s.samples_per_trig →
      0 ≤ b.sample_position → b.sample_position ≤ (b.data.numSamples : Int) →
      ((b.data.numSamples : Int) - b.sample_position).toNat ≤ fuel →
      block_loop_with read fuel b ≠ Outcome.timeout ∧
      ∀ r, block_loop_with read fuel b = Outcome.done r →
        r.sample_position = (b.data.numSamples : Int) ∧
        ∃ segs, r.segments = b.segments ++ segs ∧
          SegmentsCover segs b.sample_position (b.data.numSamples : Int) ∧
          (segs.length : Int) ≤ (b.data.numSamples : Int) - b.sample_position := by
  intro fuel
  induction fuel with
  | zero =>
    intro b _ _ _ hle hfuel
    have hnot : ¬ b.sample_position < (b.data.numSamples : Int) := by omega
    simp only [block_loop_with, if_neg hnot]
    refine ⟨by simp, ?_⟩
    intro r hr
    cases hr
    exact ⟨by omega, [], by simp, by show b.sample_position = _; omega, by simp; omega⟩
  | succ fuel ih =>
    intro b htempo hspt hpos hle hfuel
    by_cases hlt : b.sample_position < (b.data.numSamples : Int)
    · simp only [block_loop_with, if_pos hlt]
      cases hit : block_iteration_with read b with
      | none => exact ⟨by simp, fun r hr => by cases hr⟩
      | some b1 =>
        obtain ⟨h1, h2, h3, h4, h5⟩ :=
          block_iteration_with_spec read b htempo hspt hpos hlt b1 hit
        obtain ⟨hnt, hdone⟩ := ih b1 (by rw [h1]; exact htempo)
          (by rw [(samples_per_trig_congr b.s b1.s h1).1]; exact hspt) (by omega)
          (by rw [h2]; exact h4) (by rw [h2]; omega)
        refine ⟨hnt, ?_⟩
        intro r hr
        obtain ⟨hr1, segs, hr2, hr3, hr4⟩ := hdone r hr
        rw [h2] at hr1 hr3 hr4
        refine ⟨hr1, (b.sample_position, b1.sample_position - b.sample_position) :: segs,
          ?_, ?_, ?_⟩
        · rw [hr2, h5, List.append_assoc]; rfl
        · refine ⟨rfl, by show 0 < b1.sample_position - b.sample_position; omega, ?_⟩
          have e : b.sample_position + (b1.sample_position - b.sample_position)
              = b1.sample_position := by omega
          show SegmentsCover segs (b.sample_position
            + (b1.sample_position - b.sample_position)) _
          rw [e]; exact hr3
        · simp only [List.length_cons]
          push_cast
          omega
    · simp only [block_loop_with, if_neg hlt]
      refine ⟨by simp, ?_⟩
      intro r hr
      cases hr
      exact ⟨by omega, [], by simp, by show b.sample_position = _; omega, by simp; omega⟩

theorem mix_loop_with_total (read : Read) (hread : ∀ buf i, ∃ v, read buf i = some v)
    (f : ℚ) (inbuf : List ℚ) :
    ∀ (n src dst : Nat) (out : List ℚ) (silent : Bool), dst + n ≤ out.length →
      ∃ r, mix_loop_with read f inbuf n src dst out silent = some r ∧
        r.2.1.length = out.length := by
  intro n
  induction n with
  | zero => intro src dst out silent _; exact ⟨_, rfl, rfl⟩
  | succ n ih =>
    intro src dst out silent h
    obtain ⟨v, hv⟩ := hread inbuf src
    have hw := writeAt_eq_some (v * f) (show dst < out.length by omega)
    obtain ⟨r, h1, h2⟩ := ih (src + 1) (dst + 1) (out.set dst (v * f))
      (if v * f ≠ 0 then false else silent) (by rw [List.length_set]; omega)
    refine ⟨r, ?_, by rw [h2, List.length_set]⟩
    simp only [mix_loop_with, hv, hw]
    exact h1

theorem output_ready_set (n : Nat) (outp : AudioBusBuffers) (j : Nat) (out : List ℚ)
    (flags : Nat) (h : OutputReady n outp)
    (hout : out.length = (outp.channelBuffers32.getD j []).length) :
    OutputReady n { outp with channelBuffers32 := outp.channelBuffers32.set j out,
                              silenceFlags := flags } := by
  obtain ⟨h1, h2, h3⟩ := h
  refine ⟨h1, by simpa using h2, ?_⟩
  intro k hk
  show n ≤ ((outp.channelBuffers32.set j out).getD k []).length
  by_cases hkj : j = k
  · subst hkj
    rw [List.getD_eq_getElem?_getD, List.getElem?_set_self (by omega)]
    show n ≤ out.length
    rw [hout]
    exact h3 j hk
  · rw [List.getD_eq_getElem?_getD, List.getElem?_set_ne hkj, ← List.getD_eq_getElem?_getD]
    exact h3 k hk

theorem process_inputs_out_with_total (read : Read)
    (hread : ∀ buf i, ∃ v, read buf i = some v) (inp : AudioBusBuffers) (c : Nat)
    (inbuf : List ℚ) (chan : InputChannel) (offset count n : Nat) (hfit : offset + count ≤ n)
    (acc : Nat × AudioBusBuffers) (outc : Fin NUM_OUTPUTS) (houtc : outc.val < 2)
    (hready : OutputReady n acc.2) :
    ∃ r, process_inputs_out_with read inp c inbuf chan offset count acc outc = some r ∧
      OutputReady n r.2 := by
  obtain ⟨h1, h2, h3⟩ := hready
  have hlen := h3 outc.val houtc
  have hget : acc.2.channelBuffers32[outc.val]?
      = some (acc.2.channelBuffers32.getD outc.val []) := by
    rw [List.getD_eq_getElem?_getD, List.getElem?_eq_getElem (by omega)]
    rfl
  unfold process_inputs_out_with
  simp only [hget]
  split
  · obtain ⟨b, hb, hbl, -⟩ := memset_zero_spec offset count
      (acc.2.channelBuffers32.getD outc.val []) (by omega)
    rw [hb]
    exact ⟨_, rfl, output_ready_set n acc.2 outc.val b acc.2.silenceFlags ⟨h1, h2, h3⟩ hbl⟩
  · obtain ⟨r, hr, hrl⟩ := mix_loop_with_total read hread (chan.direct outc) inbuf count acc.1
      offset (acc.2.channelBuffers32.getD outc.val []) true (by omega)
    rw [hr]
    refine ⟨_, rfl, ?_⟩
    simp only
    split
    · exact output_ready_set n acc.2 outc.val r.2.1 _ ⟨h1, h2, h3⟩ hrl
    · exact output_ready_set n acc.2 outc.val r.2.1 acc.2.silenceFlags ⟨h1, h2, h3⟩ hrl

theorem add_samples_total (sb : SampleBuffer) (input : List ℚ) (n : Nat)
    (hlen : sb.buffer.length = sb.length) (hpos : sb.position < sb.length)
    (hn : n ≤ input.length) :
    ∃ sb', sb.add_samples input n = some sb' ∧ sb'.buffer.length = sb'.length ∧
      sb'.position < sb'.length := by
  obtain ⟨buf', hrun, hl, -⟩ := add_samples_loop_spec sb.length n input sb.buffer sb.position
    hlen hpos hn
  refine ⟨{ sb with buffer := buf', position := (sb.position + n) % sb.length }, ?_, hl, ?_⟩
  · simp only [SampleBuffer.add_samples, hrun]
  · exact Nat.mod_lt _ (by omega)

theorem process_inputs_channel_with_total (read : Read)
    (hread : ∀ buf i, ∃ v, read buf i = some v) (inp : AudioBusBuffers)
    (offset count n : Nat) (hfit : offset + count ≤ n)
    (acc : VTrackEffect × AudioBusBuffers × Nat) (c : Nat)
    (hidx : acc.2.2 < NUM_INPUTS)
    (hcap : ∀ k, (acc.1.input_channels k).sampler.buffer.length
        = (acc.1.input_channels k).sampler.length ∧
      (acc.1.input_channels k).sampler.position < (acc.1.input_channels k).sampler.length)
    (hready : OutputReady n acc.2.1)
    (hc : c < inp.channelBuffers32.length)
    (hbuf : n ≤ (inp.channelBuffers32.getD c []).length) :
    ∃ acc', process_inputs_channel_with read inp offset count acc c = some acc' ∧
      acc'.2.2 = acc.2.2 + 1 ∧ acc'.1.tracks = acc.1.tracks ∧ acc'.1.tempo = acc.1.tempo ∧
      (∀ k, (acc'.1.input_channels k).sampler.buffer.length
          = (acc'.1.input_channels k).sampler.length ∧
        (acc'.1.input_channels k).sampler.position
          < (acc'.1.input_channels k).sampler.length) ∧
      OutputReady n acc'.2.1 := by
  have hget : inp.channelBuffers32[c]? = some (inp.channelBuffers32.getD c []) := by
    rw [List.getD_eq_getElem?_getD, List.getElem?_eq_getElem hc]
    rfl
  obtain ⟨sb', hadd, hl', hp'⟩ := add_samples_total (acc.1.input_channels ⟨acc.2.2, hidx⟩).sampler
    ((inp.channelBuffers32.getD c []).drop offset) count (hcap _).1 (hcap _).2
    (by rw [List.length_drop]; omega)
  obtain ⟨r0, hr0, hready0⟩ := process_inputs_out_with_total read hread inp c
    (inp.channelBuffers32.getD c [])
    ({ acc.1.input_channels ⟨acc.2.2, hidx⟩ with sampler := sb' } : InputChannel)
    offset count n hfit (offset, acc.2.1) ⟨0, by decide⟩ (by decide) hready
  obtain ⟨r1, hr1, hready1⟩ := process_inputs_out_with_total read hread inp c
    (inp.channelBuffers32.getD c [])
    ({ acc.1.input_channels ⟨acc.2.2, hidx⟩ with sampler := sb' } : InputChannel)
    offset count n hfit r0 ⟨1, by decide⟩ (by decide) hready0
  refine ⟨({ acc.1 with input_channels := (Function.update acc.1.input_channels ⟨acc.2.2, hidx⟩
      ({ acc.1.input_channels ⟨acc.2.2, hidx⟩ with sampler := sb' } : InputChannel)) },
      r1.2, acc.2.2 + 1), ?_, rfl, rfl, rfl, ?_, hready1⟩
  · unfold process_inputs_channel_with
    simp only [dif_pos hidx, hget, hadd, List.foldlM_cons, List.foldlM_nil, hr0,
      Option.pure_def, Option.bind_eq_bind, Option.some_bind, Option.bind_some, hr1]
  · intro k
    show ((Function.update acc.1.input_channels ⟨acc.2.2, hidx⟩ _ k).sampler.buffer.length
        = (Function.update acc.1.input_channels ⟨acc.2.2, hidx⟩ _ k).sampler.length) ∧
      (Function.update acc.1.input_channels ⟨acc.2.2, hidx⟩ _ k).sampler.position
        < (Function.update acc.1.input_channels ⟨acc.2.2, hidx⟩ _ k).sampler.length
    by_cases hk : k = ⟨acc.2.2, hidx⟩
    · subst hk
      rw [Function.update_same]
      exact ⟨hl', hp'⟩
    · rw [Function.update_noteq hk]
      exact hcap k

theorem foldlM_range_inv {α : Type} (f : α → Nat → Option α) (P : Nat → α → Prop) (m : Nat)
    (hstep : ∀ k a, k < m → P k a → ∃ a', f a k = some a' ∧ P (k + 1) a') :
    ∀ a, P 0 a → ∃ a', (List.range m).foldlM f a = some a' ∧ P m a' := by
  intro a h0
  have key : ∀ k, k ≤ m → ∃ a', (List.range k).foldlM f a = some a' ∧ P k a' := by
    intro k
    induction k with
    | zero => intro _; exact ⟨a, rfl, h0⟩
    | succ k ih =>
      intro hk
      obtain ⟨a1, h1, hP1⟩ := ih (by omega)
      obtain ⟨a2, h2, hP2⟩ := hstep k a1 (by omega) hP1
      refine ⟨a2, ?_, hP2⟩
      rw [List.range_succ, List.foldlM_append, h1]
      simp only [Option.bind_eq_bind, Option.some_bind, List.foldlM_cons, List.foldlM_nil, h2,
        Option.pure_def]
  exact key m (le_refl _)

theorem process_inputs_bus_with_total (read : Read)
    (hread : ∀ buf i, ∃ v, read buf i = some v) (s : VTrackEffect) (data : ProcessData)
    (offset count : Nat) (hfit : offset + count ≤ data.numSamples)
    (hdata : DataReady data)
    (acc : VTrackEffect × AudioBusBuffers × Nat) (bus : Nat) (hbus : bus < data.numInputs)
    (hacc : InputsAcc s data.numSamples acc) (hidx : acc.2.2 ≤ 2 * bus) :
    ∃ acc', process_inputs_bus_with read data offset count acc bus = some acc' ∧
      InputsAcc s data.numSamples acc' ∧ acc'.2.2 ≤ 2 * (bus + 1) := by
  obtain ⟨-, -, hn2, hnl, hin⟩ := hdata
  obtain ⟨hi1, hi2, hi3⟩ := hin bus hbus
  have hget : data.inputs[bus]? = some (data.inputs.getD bus ⟨0, 0, []⟩) := by
    rw [List.getD_eq_getElem?_getD, List.getElem?_eq_getElem (by omega)]
    rfl
  obtain ⟨acc', hrun, hP⟩ := foldlM_range_inv
    (process_inputs_channel_with read (data.inputs.getD bus ⟨0, 0, []⟩) offset count)
    (fun k a => InputsAcc s data.numSamples a ∧ a.2.2 = acc.2.2 + k)
    (data.inputs.getD bus ⟨0, 0, []⟩).numChannels
    (by
      intro k a hk ⟨⟨ha1, ha2, ha3, ha4⟩, ha5⟩
      obtain ⟨a', h1, h2, h3, h4, h5, h6⟩ := process_inputs_channel_with_total read hread
        (data.inputs.getD bus ⟨0, 0, []⟩) offset count data.numSamples hfit a k
        (by rw [ha5]; show acc.2.2 + k < 4; omega) ha3 ha4 (by omega) (hi3 k hk)
      exact ⟨a', h1, ⟨by rw [h3, ha1], by rw [h4, ha2], h5, h6⟩, by rw [h2, ha5]; omega⟩)
    acc ⟨hacc, rfl⟩
  refine ⟨acc', ?_, hP.1, by rw [hP.2]; omega⟩
  unfold process_inputs_bus_with
  simp only [hget, hacc.2.2.2.1, if_true]
  exact hrun

/-- When no read stops the program, `process_inputs` returns on host data that is ready for
the block, for every segment inside the block: tracks and tempo are untouched, the capture
buffers stay consistent, and only the main output bus of the host data changes, staying ready. -/
theorem process_inputs_with_total (read : Read)
    (hread : ∀ buf i, ∃ v, read buf i = some v) (s : VTrackEffect) (data : ProcessData)
    (offset count : Nat) (hcount : 0 < count) (hfit : offset + count ≤ data.numSamples)
    (hdata : DataReady data)
    (hcap : ∀ k, (s.input_channels k).sampler.buffer.length
        = (s.input_channels k).sampler.length ∧
      (s.input_channels k).sampler.position < (s.input_channels k).sampler.length) :
    ∃ s' outp, s.process_inputs_with read data offset count
        = some (s', { data with outputs := data.outputs.set 0 outp }) ∧
      s'.tracks = s.tracks ∧ s'.tempo = s.tempo ∧
      (∀ k, (s'.input_channels k).sampler.buffer.length
          = (s'.input_channels k).sampler.length ∧
        (s'.input_channels k).sampler.position < (s'.input_channels k).sampler.length) ∧
      OutputReady data.numSamples outp := by
  have hout := hdata.2.1
  have hlen0 : 0 < data.outputs.length := by
    by_contra h
    have h0 : data.outputs.length = 0 := by omega
    rw [List.getD_eq_default _ _ (by omega)] at hout
    have := hout.1
    simp at this
  have hget : data.outputs[0]? = some (data.outputs.getD 0 ⟨0, 0, []⟩) := by
    rw [List.getD_eq_getElem?_getD, List.getElem?_eq_getElem hlen0]
    rfl
  obtain ⟨acc', hrun, hP, -⟩ := foldlM_range_inv
    (process_inputs_bus_with read data offset count)
    (fun b a => InputsAcc s data.numSamples a ∧ a.2.2 ≤ 2 * b)
    data.numInputs
    (by
      intro b a hb ⟨ha, hidx⟩
      obtain ⟨a', h1, h2, h3⟩ := process_inputs_bus_with_total read hread s data offset count
        hfit hdata a b hb ha hidx
      exact ⟨a', h1, h2, h3⟩)
    (s, data.outputs.getD 0 ⟨0, 0, []⟩, 0) ⟨⟨rfl, rfl, hcap, hout⟩, Nat.zero_le _⟩
  refine ⟨acc'.1, acc'.2.1, ?_, hP.1, hP.2.1, hP.2.2.1, hP.2.2.2⟩
  unfold VTrackEffect.process_inputs_with
  rw [if_pos ⟨hdata.1, hcount, by omega, hfit⟩]
  simp only [hget, hrun]

theorem process_samples_idle_fold (offset count : Nat) :
    ∀ (l : List (Fin NUM_TRACKS)) (acc : VTrackEffect × AudioBusBuffers),
      (∀ i, (acc.1.tracks i).playback.rate = 0) →
      l.foldlM (process_samples_track offset count) acc = some acc := by
  intro l
  induction l with
  | nil => intro acc _; rfl
  | cons i l ih =>
    intro acc hidle
    have hstep : process_samples_track offset count acc i = some acc := by
      unfold process_samples_track
      simp only [hidle i, if_true]
    rw [List.foldlM_cons, hstep]
    exact ih acc hidle

/-- With every voice idle, `process_samples` returns and changes nothing: every track is
skipped. -/
theorem process_samples_idle (s : VTrackEffect) (data : ProcessData) (offset count : Nat)
    (hidle : ∀ i, (s.tracks i).playback.rate = 0) (outp : AudioBusBuffers)
    (hout : data.outputs[0]? = some outp) :
    s.process_samples data offset count
      = some (s, { data with outputs := data.outputs.set 0 outp }) := by
  unfold VTrackEffect.process_samples
  rw [hout]
  simp only
  rw [process_samples_idle_fold offset count (List.finRange NUM_TRACKS) (s, outp) hidle]

theorem data_ready_set_output (data : ProcessData) (outp : AudioBusBuffers)
    (hdata : DataReady data) (hready : OutputReady data.numSamples outp) :
    DataReady { data with outputs := data.outputs.set 0 outp } ∧
      ({ data with outputs := data.outputs.set 0 outp } : ProcessData).outputs[0]? = some outp := by
  have hlen0 : 0 < data.outputs.length := by
    by_contra h
    have hout := hdata.2.1
    rw [List.getD_eq_default _ _ (by omega)] at hout
    have := hout.1
    simp at this
  have hget : (data.outputs.set 0 outp)[0]? = some outp := List.getElem?_set_self hlen0
  refine ⟨⟨hdata.1, ?_, hdata.2.2.1, hdata.2.2.2.1, hdata.2.2.2.2⟩, hget⟩
  show OutputReady data.numSamples ((data.outputs.set 0 outp).getD 0 ⟨0, 0, []⟩)
  rw [List.getD_eq_getElem?_getD, hget]
  exact hready

/-- When no read stops the program, the processing of a segment inside the block returns on a
capture-only engine and ready host data, and leaves both so. -/
theorem process_with_total (read : Read) (hread : ∀ buf i, ∃ v, read buf i = some v)
    (s : VTrackEffect) (data : ProcessData) (offset count : Nat) (hcount : 0 < count)
    (hfit : offset + count ≤ data.numSamples) (hs : CaptureOnly s) (hdata : DataReady data) :
    ∃ r, s.process_with read data offset count = some r ∧ r.1.tempo = s.tempo ∧
      CaptureOnly r.1 ∧ DataReady r.2 ∧ r.2.numSamples = data.numSamples ∧
      r.2.inputEvents = data.inputEvents := by
  obtain ⟨s', outp, hrun, htr, hte, hcap, hready⟩ := process_inputs_with_total read hread s data
    offset count hcount hfit hdata hs.1
  obtain ⟨hd1, hget1⟩ := data_ready_set_output data outp hdata hready
  have hidle : ∀ i, (s'.tracks i).playback.rate = 0 := fun i => by rw [htr]; exact hs.2.1 i
  have hsamp := process_samples_idle s' { data with outputs := data.outputs.set 0 outp }
    offset count hidle outp hget1
  obtain ⟨hd2, -⟩ := data_ready_set_output { data with outputs := data.outputs.set 0 outp } outp
    hd1 hready
  have htrig : ∀ i t, ((s'.tracks i).sample_trigs t).enabled = false := fun i t => by
    rw [htr]; exact hs.2.2 i t
  refine ⟨(s', { ({ data with outputs := data.outputs.set 0 outp } : ProcessData) with
      outputs := (data.outputs.set 0 outp).set 0 outp }), ?_, hte, ⟨hcap, hidle, htrig⟩, hd2,
    rfl, rfl⟩
  unfold VTrackEffect.process_with
  rw [hrun]
  exact hsamp

theorem process_trigs_track_fold_sample_trigs (trig : Fin PATTERN_LENGTH) (time : ℚ)
    (sampleOffset : Int) :
    ∀ (l : List (Fin NUM_TRACKS)) (acc : VTrackEffect × ProcessData) (j : Fin NUM_TRACKS),
      ((l.foldl (process_trigs_track trig time sampleOffset) acc).1.tracks j).sample_trigs
        = (acc.1.tracks j).sample_trigs := by
  intro l
  induction l with
  | nil => intro acc j; rfl
  | cons i l ih =>
    intro acc j
    rw [List.foldl_cons, ih]
    by_cases hj : j = i
    · subst hj; simp [process_trigs_track]
    · simp [process_trigs_track, Function.update_noteq hj]

theorem sample_trig_apply_disabled (input_channels : Fin NUM_INPUTS → InputChannel)
    (sample : SampleTrig) (playback : Playback) (h : sample.enabled = false) :
    sample_trig_apply input_channels sample playback = playback := by
  unfold sample_trig_apply
  simp [h]

/-- The step index of a pattern position in `[0, 4]` is a valid step. -/
theorem trig_index_range (time : ℚ) (h0 : 0 ≤ time) (h4 : time ≤ 4) :
    0 ≤ trig_index time ∧ trig_index time < (PATTERN_LENGTH : Int) := by
  have hP : ((PATTERN_LENGTH_QN : Nat) : ℚ) = 4 := by norm_num
  have hT : ((TRIGS_PER_QN : Nat) : ℚ) = 4 := by norm_num
  have hL : ((PATTERN_LENGTH : Nat) : Int) = 16 := by norm_num
  unfold trig_index fmod
  rw [hP, hT, hL]
  have hq : 0 ≤ time / 4 := by positivity
  rw [trunc_of_nonneg hq]
  rcases lt_or_eq_of_le h4 with hlt | heq
  · have hfl : ⌊time / 4⌋ = 0 := by
      rw [Int.floor_eq_iff]
      constructor
      · simpa using hq
      · have : time / 4 < 1 := by linarith
        simpa using this
    rw [hfl]
    simp only [Int.cast_zero, zero_mul, sub_zero]
    have hm : 0 ≤ time * 4 := by positivity
    rw [trunc_of_nonneg hm]
    constructor
    · exact Int.floor_nonneg.mpr hm
    · apply Int.floor_lt.mpr
      push_cast
      linarith
  · subst heq
    have : trunc (((4 : ℚ) - ((⌊(4 : ℚ) / 4⌋ : Int) : ℚ) * 4) * 4) = 0 := by
      norm_num [trunc]
    rw [this]
    constructor <;> norm_num

/-- On a capture-only engine `process_trigs` returns at every pattern position in `[0, 4]`;
the engine stays capture-only, and of the host data only the output events change. -/
theorem process_trigs_total (s : VTrackEffect) (data : ProcessData) (time : ℚ)
    (sampleOffset : Int) (h0 : 0 ≤ time) (h4 : time ≤ 4) (hs : CaptureOnly s)
    (hdata : DataReady data) :
    ∃ r, s.process_trigs data time sampleOffset = some r ∧ r.1.tempo = s.tempo ∧
      CaptureOnly r.1 ∧ DataReady r.2 ∧ r.2.numSamples = data.numSamples ∧
      r.2.inputEvents = data.inputEvents := by
  have hrange := trig_index_range time h0 h4
  have hwf : ∀ c, (s.input_channels c).sampler.WF := fun c => ⟨(hs.1 c).1, Or.inl (hs.1 c).2⟩
  obtain ⟨hch, htr⟩ := process_trigs_track_fold ⟨(trig_index time).toNat, by omega⟩ time
    sampleOffset (List.finRange NUM_TRACKS) (s, data) (List.nodup_finRange _)
  obtain ⟨hev, hte, -⟩ := process_trigs_track_fold_events ⟨(trig_index time).toNat, by omega⟩
    time sampleOffset (List.finRange NUM_TRACKS) (s, data)
  have hst := process_trigs_track_fold_sample_trigs ⟨(trig_index time).toNat, by omega⟩ time
    sampleOffset (List.finRange NUM_TRACKS) (s, data)
  obtain ⟨s', hrun, hts, hte', hchan⟩ := process_trigs_latch_fold_channels
    ⟨(trig_index time).toNat, by omega⟩ (List.finRange NUM_INPUTS)
    ((List.finRange NUM_TRACKS).foldl
      (process_trigs_track ⟨(trig_index time).toNat, by omega⟩ time sampleOffset) (s, data)).1
    (List.nodup_finRange _) (fun c => by rw [hch]; exact hwf c)
  refine ⟨(s', ((List.finRange NUM_TRACKS).foldl
      (process_trigs_track ⟨(trig_index time).toNat, by omega⟩ time sampleOffset) (s, data)).2),
    ?_, by rw [hte', hte], ⟨?_, ?_, ?_⟩, ?_, ?_, ?_⟩
  · simp only [VTrackEffect.process_trigs, dif_pos hrange, hrun]
  · intro c
    have h := hchan c
    rw [if_pos (List.mem_finRange c), hch] at h
    obtain ⟨chan', hc1, hc2⟩ := latch_trig_apply_some ⟨(trig_index time).toNat, by omega⟩
      (s.input_channels c) (hwf c)
    rw [hc1] at h
    rw [Option.some.inj h, hc2]
    exact hs.1 c
  · intro i
    rw [hts, htr i, if_pos (List.mem_finRange i)]
    rw [sample_trig_apply_disabled _ _ _ (hs.2.2 i _)]
    exact hs.2.1 i
  · intro i t
    rw [hts, hst]
    exact hs.2.2 i t
  · show DataReady ((List.finRange NUM_TRACKS).foldl _ (s, data)).2
    rw [hev]
    exact hdata
  · show ((List.finRange NUM_TRACKS).foldl _ (s, data)).2.numSamples = _
    rw [hev]
  · show ((List.finRange NUM_TRACKS).foldl _ (s, data)).2.inputEvents = _
    rw [hev]

theorem get_next_trig_le_step (s : VTrackEffect) (qn : ℚ) (samples : Int)
    (htempo : 0 < s.tempo) (hs : 0 ≤ samples) :
    ((s.get_next_trig qn samples : Int) : ℚ) ≤ (samples : ℚ) + s.samples_per_trig := by
  have h4 : ((TRIGS_PER_QN : Nat) : ℚ) = 4 := by norm_num
  have hspq : 0 < s.samples_per_qn := by
    unfold VTrackEffect.samples_per_qn
    exact div_pos (by norm_num) htempo
  have hc1 : qn * 4 ≤ ((⌈qn * 4⌉ : Int) : ℚ) := Int.le_ceil _
  have hc2 : ((⌈qn * 4⌉ : Int) : ℚ) < qn * 4 + 1 := Int.ceil_lt_add_one _
  have hd0 : 0 ≤ ((⌈qn * 4⌉ : Int) : ℚ) / 4 - qn := by linarith
  have hd1 : ((⌈qn * 4⌉ : Int) : ℚ) / 4 - qn < 1 / 4 := by linarith
  have hv0 : (samples : ℚ) ≤
      (samples : ℚ) + (((⌈qn * 4⌉ : Int) : ℚ) / 4 - qn) * s.samples_per_qn := by
    have := mul_nonneg hd0 hspq.le
    linarith
  have hsq : (0 : ℚ) ≤ (samples : ℚ) := by exact_mod_cast hs
  have hval : s.get_next_trig qn samples =
      ⌊(samples : ℚ) + (((⌈qn * 4⌉ : Int) : ℚ) / 4 - qn) * s.samples_per_qn⌋ := by
    unfold VTrackEffect.get_next_trig
    simp only [h4]
    exact trunc_of_nonneg (le_trans hsq hv0)
  rw [hval]
  have hfl := Int.floor_le
    ((samples : ℚ) + (((⌈qn * 4⌉ : Int) : ℚ) / 4 - qn) * s.samples_per_qn)
  have hlt : (((⌈qn * 4⌉ : Int) : ℚ) / 4 - qn) * s.samples_per_qn
      < 1 / 4 * s.samples_per_qn := mul_lt_mul_of_pos_right hd1 hspq
  have hspt : s.samples_per_trig = 1 / 4 * s.samples_per_qn := by
    unfold VTrackEffect.samples_per_trig
    rw [h4]; ring
  rw [hspt]
  linarith

/-- The first part of an iteration on a capture-only engine and ready host data, entered
with the cursor inside the block and the pattern position in `[0, 4]`: it returns, engine and
host data stay as required, and `next_sample_pos` is at most one step after the cursor. -/
theorem block_next_total (b : BlockState) (htempo : 0 < b.s.tempo)
    (hpos : 0 ≤ b.sample_position) (hmt0 : 0 ≤ b.musicTime) (hmt4 : b.musicTime ≤ 4)
    (hs : CaptureOnly b.s) (hd : DataReady b.data) :
    ∃ r, block_next b = some r ∧ r.1.tempo = b.s.tempo ∧ CaptureOnly r.1 ∧ DataReady r.2.1 ∧
      r.2.1.inputEvents = b.data.inputEvents ∧
      (r.2.2.2 : ℚ) ≤ (b.sample_position : ℚ) + b.s.samples_per_trig := by
  have hq : (0 : ℚ) ≤ (b.sample_position : ℚ) := by exact_mod_cast hpos
  have hspt0 : 0 ≤ b.s.samples_per_trig := by
    unfold VTrackEffect.samples_per_trig VTrackEffect.samples_per_qn
    positivity
  unfold block_next
  by_cases hfire : b.s.get_next_trig b.musicTime b.sample_position = b.sample_position
  · obtain ⟨r0, hr0, h1, h2, h3, -, h5⟩ := process_trigs_total b.s b.data b.musicTime
      b.sample_position hmt0 hmt4 hs hd
    have hsptc : r0.1.samples_per_trig = b.s.samples_per_trig :=
      (samples_per_trig_congr b.s r0.1 h1).1
    have hnt : ((trunc ((b.sample_position : ℚ) + r0.1.samples_per_trig) : Int) : ℚ)
        ≤ (b.sample_position : ℚ) + b.s.samples_per_trig := by
      rw [hsptc, trunc_of_nonneg (by linarith)]
      exact Int.floor_le _
    simp only [hfire, if_true, hr0]
    refine ⟨_, rfl, h1, h2, h3, h5, ?_⟩
    refine le_trans ?_ hnt
    show (((if process_events b.data b.sample_position ≥ 0 then _ else _ : Int)) : ℚ) ≤ _
    have hle : (if process_events b.data b.sample_position ≥ 0
        then min (min (r0.2.numSamples : Int)
          (trunc ((b.sample_position : ℚ) + r0.1.samples_per_trig)))
          (process_events b.data b.sample_position)
        else min (r0.2.numSamples : Int)
          (trunc ((b.sample_position : ℚ) + r0.1.samples_per_trig)))
        ≤ trunc ((b.sample_position : ℚ) + r0.1.samples_per_trig) := by
      split <;> omega
    exact_mod_cast hle
  · have hnt := get_next_trig_le_step b.s b.musicTime b.sample_position htempo hpos
    simp only [hfire, if_false]
    refine ⟨_, rfl, rfl, hs, hd, rfl, ?_⟩
    refine le_trans ?_ hnt
    show (((if process_events b.data b.sample_position ≥ 0 then _ else _ : Int)) : ℚ) ≤ _
    have hle : (if process_events b.data b.sample_position ≥ 0
        then min (min (b.data.numSamples : Int)
          (b.s.get_next_trig b.musicTime b.sample_position))
          (process_events b.data b.sample_position)
        else min (b.data.numSamples : Int)
          (b.s.get_next_trig b.musicTime b.sample_position))
        ≤ b.s.get_next_trig b.musicTime b.sample_position := by
      split <;> omega
    exact_mod_cast hle

/-- A whole iteration on a capture-only engine and ready host data, when no read stops the
program: it returns, and the state after it meets the same conditions. -/
theorem block_iteration_with_total (read : Read) (hread : ∀ buf i, ∃ v, read buf i = some v)
    (b : BlockState) (htempo : 0 < b.s.tempo) (hspt : 1 ≤ b.s.samples_per_trig)
    (hpos : 0 ≤ b.sample_position) (hlt : b.sample_position < (b.data.numSamples : Int))
    (hmt0 : 0 ≤ b.musicTime) (hmt4 : b.musicTime ≤ 4)
    (hs : CaptureOnly b.s) (hd : DataReady b.data) :
    ∃ b', block_iteration_with read b = some b' ∧ 0 ≤ b'.musicTime ∧ b'.musicTime ≤ 4 ∧
      CaptureOnly b'.s ∧ DataReady b'.data := by
  obtain ⟨r, hn, ht, hs1, hd1, hev, hstep⟩ := block_next_total b htempo hpos hmt0 hmt4 hs hd
  obtain ⟨-, h2, h3, h4⟩ := block_next_spec b htempo hspt hpos hlt r hn
  have hne : r.2.2.2 - b.sample_position ≠ 0 := by omega
  have hok : 0 ≤ b.sample_position ∧ 0 ≤ r.2.2.2 - b.sample_position := ⟨hpos, by omega⟩
  obtain ⟨r1, hp, hte, hs2, hd2, -, -⟩ := process_with_total read hread r.1 r.2.1
    b.sample_position.toNat (r.2.2.2 - b.sample_position).toNat (by omega) (by omega) hs1 hd1
  have hspq : 0 < b.s.samples_per_qn := by
    unfold VTrackEffect.samples_per_qn
    exact div_pos (by norm_num) htempo
  have hspqc : r1.1.samples_per_qn = b.s.samples_per_qn :=
    (samples_per_trig_congr b.s r1.1 (by rw [hte, ht])).2
  have hsptq : b.s.samples_per_trig = b.s.samples_per_qn / 4 := by
    unfold VTrackEffect.samples_per_trig
    norm_num
  have hnum0 : (0 : ℚ) ≤ ((r.2.2.2 - b.sample_position : Int) : ℚ) := by
    exact_mod_cast hok.2
  have hnum1 : ((r.2.2.2 - b.sample_position : Int) : ℚ) ≤ b.s.samples_per_qn / 4 := by
    push_cast
    linarith
  have hd0 : 0 ≤ ((r.2.2.2 - b.sample_position : Int) : ℚ) / b.s.samples_per_qn :=
    div_nonneg hnum0 hspq.le
  have hd14 : ((r.2.2.2 - b.sample_position : Int) : ℚ) / b.s.samples_per_qn ≤ 1 / 4 := by
    rw [div_le_iff₀ hspq]
    linarith
  have hP : ((PATTERN_LENGTH_QN : Nat) : ℚ) = 4 := by norm_num
  refine ⟨⟨r1.1, r1.2, r.2.2.2,
      (if b.musicTime + ((r.2.2.2 - b.sample_position : Int) : ℚ) / r1.1.samples_per_qn
            > (PATTERN_LENGTH_QN : ℚ)
        then b.musicTime + ((r.2.2.2 - b.sample_position : Int) : ℚ) / r1.1.samples_per_qn
          - (PATTERN_LENGTH_QN : ℚ)
        else b.musicTime + ((r.2.2.2 - b.sample_position : Int) : ℚ) / r1.1.samples_per_qn),
      r.2.2.1, b.segments ++ [(b.sample_position, r.2.2.2 - b.sample_position)]⟩,
    ?_, ?_, ?_, hs2, hd2⟩
  · unfold block_iteration_with
    rw [hn]
    simp only [if_pos h4, ne_eq, hne, not_false_eq_true, if_true, hok, and_self, hp]
  · show 0 ≤ (if _ then _ else _ : ℚ)
    rw [hspqc, hP]
    split <;> linarith
  · show (if _ then _ else _ : ℚ) ≤ 4
    rw [hspqc, hP]
    split <;> linarith

/-- The block loop on a capture-only engine and ready host data, when no read stops the
program: with fuel for the samples left it runs to the end. -/
theorem block_loop_with_total (read : Read) (hread : ∀ buf i, ∃ v, read buf i = some v) :
    ∀ (fuel : Nat) (b : BlockState), 0 < b.s.tempo → 1 ≤ b.s.samples_per_trig →
      0 ≤ b.sample_position → b.sample_position ≤ (b.data.numSamples : Int) →
      ((b.data.numSamples : Int) - b.sample_position).toNat ≤ fuel →
      0 ≤ b.musicTime → b.musicTime ≤ 4 → CaptureOnly b.s → DataReady b.data →
      ∃ r, block_loop_with read fuel b = Outcome.done r := by
  intro fuel
  induction fuel with
  | zero =>
    intro b _ _ _ hle hfuel _ _ _ _
    have hnot : ¬ b.sample_position < (b.data.numSamples : Int) := by omega
    exact ⟨b, by simp only [block_loop_with, if_neg hnot]⟩
  | succ fuel ih =>
    intro b htempo hspt hpos hle hfuel hmt0 hmt4 hs hd
    by_cases hlt : b.sample_position < (b.data.numSamples : Int)
    · obtain ⟨b1, hit, h0, h4, hs1, hd1⟩ := block_iteration_with_total read hread b htempo hspt
        hpos hlt hmt0 hmt4 hs hd
      obtain ⟨e1, e2, e3, e4, -⟩ := block_iteration_with_spec read b htempo hspt hpos hlt b1 hit
      obtain ⟨r, hr⟩ := ih b1 (by rw [e1]; exact htempo)
        (by rw [(samples_per_trig_congr b.s b1.s e1).1]; exact hspt) (by omega)
        (by rw [e2]; exact e4) (by rw [e2]; omega) h0 h4 hs1 hd1
      refine ⟨r, ?_⟩
      simp only [block_loop_with, if_pos hlt, hit]
      exact hr
    · exact ⟨b, by simp only [block_loop_with, if_neg hlt]⟩

/-- **C19.** The block loop always makes progress and covers the block exactly. At a tempo
`> 0` with `samples_per_trig() >= 1`, for every block length, every starting pattern position,
every list of queued events and every reading of the input buffers (checked, or going on after
a read outside them): (1) every iteration entered with `0 <= sample_position < numSamples` at
that tempo and block length which gets past `process_trigs` computes `next_sample_pos` with
`sample_position < next_sample_pos <= numSamples`, so the assertion holds and the segment is
not empty; (2) run for up to `numSamples` iterations, the loop does not reach the bound: it
finishes, unless it stops at a fault inside trigger evaluation or segment processing; (3) when
it finishes, the cursor is `numSamples`, at most `numSamples` iterations were made, and their
segments follow one another from 0 to `numSamples` with positive lengths, so no sample is
processed twice or skipped; (4) it does finish, from every pattern position in `[0, 4]`, when
no read stops the program, the host data is ready for the block and the engine is
capture-only. -/
theorem block_loop_terminates_and_partitions (read : Read) (s : VTrackEffect)
    (data : ProcessData) (fuel : Nat)
    (htempo : 0 < s.tempo) (hspt : 1 ≤ s.samples_per_trig) (hfuel : data.numSamples ≤ fuel) :
    (∀ (b : BlockState) (r : VTrackEffect × ProcessData × List (ℚ × Int) × Int),
      b.s.tempo = s.tempo → b.data.numSamples = data.numSamples →
      0 ≤ b.sample_position → b.sample_position < (data.numSamples : Int) →
      block_next b = some r →
      b.sample_position < r.2.2.2 ∧ r.2.2.2 ≤ (r.2.1.numSamples : Int) ∧
        r.2.1.numSamples = data.numSamples) ∧
    s.process_block_with read fuel data ≠ Outcome.timeout ∧
    (∀ r, s.process_block_with read fuel data = Outcome.done r →
      r.sample_position = (data.numSamples : Int) ∧
      SegmentsCover r.segments 0 (data.numSamples : Int) ∧
      r.segments.length ≤ data.numSamples) ∧
    ((∀ buf i, ∃ v, read buf i = some v) →
      0 ≤ s.positionInPattern → s.positionInPattern ≤ 4 → CaptureOnly s → DataReady data →
      ∃ r, s.process_block_with read fuel data = Outcome.done r) := by
  refine ⟨?_, ?_⟩
  · intro b r ht hn hpos hlt hr
    obtain ⟨-, h2, h3, h4⟩ := block_next_spec b (by rw [ht]; exact htempo)
      (by rw [(samples_per_trig_congr s b.s ht).1]; exact hspt) hpos (by rw [hn]; exact hlt) r hr
    exact ⟨h3, h4, by rw [h2, hn]⟩
  · obtain ⟨hnt, hdone⟩ := block_loop_with_spec read fuel
      { s := s, data := data, sample_position := 0, musicTime := s.positionInPattern,
        trig_calls := [], segments := [] } htempo hspt (le_refl _)
      (by show (0 : Int) ≤ (data.numSamples : Int); omega)
      (by show ((data.numSamples : Int) - 0).toNat ≤ fuel; omega)
    have htotal : (∀ buf i, ∃ v, read buf i = some v) →
        0 ≤ s.positionInPattern → s.positionInPattern ≤ 4 → CaptureOnly s → DataReady data →
        ∃ r, block_loop_with read fuel
          { s := s, data := data, sample_position := 0, musicTime := s.positionInPattern,
            trig_calls := [], segments := [] } = Outcome.done r :=
      fun hread h0 h4 hs hd => block_loop_with_total read hread fuel
        { s := s, data := data, sample_position := 0, musicTime := s.positionInPattern,
          trig_calls := [], segments := [] } htempo hspt (le_refl _)
        (by show (0 : Int) ≤ (data.numSamples : Int); omega)
        (by show ((data.numSamples : Int) - 0).toNat ≤ fuel; omega) h0 h4 hs hd
    unfold VTrackEffect.process_block_with
    cases hl : block_loop_with read fuel
        { s := s, data := data, sample_position := 0, musicTime := s.positionInPattern,
          trig_calls := [], segments := [] } with
    | timeout => exact absurd hl hnt
    | fault =>
      refine ⟨by simp, fun r hr => (by cases hr), ?_⟩
      intro hread h0 h4 hs hd
      obtain ⟨r, hr⟩ := htotal hread h0 h4 hs hd
      rw [hl] at hr
      cases hr
    | done b =>
      refine ⟨by simp, ?_, fun _ _ _ _ _ => ⟨_, rfl⟩⟩
      intro r hr
      simp only [Outcome.done.injEq] at hr
      subst hr
      obtain ⟨h1, segs, h2, h3, h4⟩ := hdone b hl
      simp only [List.nil_append] at h2
      refine ⟨h1, ?_, ?_⟩
      · show SegmentsCover b.segments 0 _
        rw [h2]; exact h3
      · show b.segments.length ≤ data.numSamples
        rw [h2]
        have : (segs.length : Int) ≤ (data.numSamples : Int) - 0 := h4
        omega

/-- Witness for C19: a block of six samples with a live stereo input and queued events at
offsets 2 and 4, read without bounds checks (zeros after the input buffers), at 120 BPM from
pattern position 0 on a capture-only engine: the loop finishes, and its segments are `[0, 2)`,
`[2, 4)`, `[4, 6)`. -/
theorem block_loop_terminates_and_partitions_witness :
    (0 : ℚ) < engine_live_example.tempo ∧
    (1 : ℚ) ≤ engine_live_example.samples_per_trig ∧
    CaptureOnly engine_live_example ∧ DataReady data_live_example ∧
    (engine_live_example.process_block_with (readPast fun _ => 0) 6 data_live_example).map
      (fun b => (b.sample_position, b.segments)) = Outcome.done (6, [(0, 2), (2, 2), (4, 2)]) ∧
    ∃ r, engine_live_example.process_block_with (readPast fun _ => 0) 6 data_live_example
        = Outcome.done r ∧
      SegmentsCover r.segments 0 (6 : Nat) := by
  obtain ⟨-, -, hcover, hdone⟩ :=
    block_loop_terminates_and_partitions (readPast fun _ => 0) engine_live_example
      data_live_example 6 (by decide!) (by decide!) (le_refl _)
  obtain ⟨r, hr⟩ := hdone (fun buf i => ⟨_, rfl⟩) (by decide!) (by decide!) (by decide!)
    (by decide)
  exact ⟨by decide!, by decide!, by decide!, by decide, by decide!, r, hr, (hcover r hr).2.1⟩

/-! ### Accesses of `set_length` -/

/-- The shrinking loop returns exactly when every index it reads is inside `buffer` (the
writes, at `n - 1, ..., 0`, are inside the new buffer when it has room for `n` samples). -/
theorem set_length_shrink_loop_reads (buffer : List ℚ) (length : Nat) :
    ∀ (n p : Nat) (nb : List ℚ), n ≤ nb.length →
      ((set_length_shrink_loop buffer length n p nb).isSome = true ↔
        ∀ i, i ∈ set_length_shrink_reads length n p → i < buffer.length) := by
  intro n
  induction n with
  | zero =>
    intro p nb _
    simp [set_length_shrink_loop, set_length_shrink_reads]
  | succ n ih =>
    intro p nb hn
    by_cases hp : p < buffer.length
    · have hr : readAt buffer p = some (buffer.get ⟨p, hp⟩) := by
        simp only [readAt]
        exact List.getElem?_eq_getElem _
      have hw := writeAt_eq_some (buffer.get ⟨p, hp⟩) (show n < nb.length by omega)
      simp only [set_length_shrink_loop, hr, hw, set_length_shrink_reads, List.mem_cons,
        forall_eq_or_imp, hp, true_and]
      exact ih _ _ (by simp; omega)
    · have hr : readAt buffer p = none := by
        simp only [readAt]
        exact List.getElem?_eq_none (by omega)
      simp only [set_length_shrink_loop, hr, set_length_shrink_reads, List.mem_cons,
        forall_eq_or_imp, hp, false_and]
      simp

/-- When the shrinking loop runs for more iterations than there are slots from the cursor
down to 0, it reads index `length`. -/
theorem set_length_shrink_reads_wrap (length : Nat) :
    ∀ (p n : Nat), p + 1 < n → length ∈ set_length_shrink_reads length n p := by
  intro p
  induction p with
  | zero =>
    intro n hn
    obtain ⟨m, rfl⟩ : ∃ m, n = m + 2 := ⟨n - 2, by omega⟩
    simp [set_length_shrink_reads]
  | succ k ih =>
    intro n hn
    obtain ⟨m, rfl⟩ : ∃ m, n = m + 1 := ⟨n - 1, by omega⟩
    simp only [set_length_shrink_reads, List.mem_cons]
    right
    have : (if k + 1 > 0 then k + 1 - 1 else length) = k := by simp
    rw [this]
    exact ih m (by omega)

/-- When the new length is at most the number of slots from the cursor down to 0, the
shrinking loop stays inside `[0, p]`. -/
theorem set_length_shrink_reads_no_wrap (length : Nat) :
    ∀ (n p : Nat), n ≤ p + 1 → ∀ i, i ∈ set_length_shrink_reads length n p → i ≤ p := by
  intro n
  induction n with
  | zero => intro p _ i hi; simp [set_length_shrink_reads] at hi
  | succ n ih =>
    intro p hn i hi
    simp only [set_length_shrink_reads, List.mem_cons] at hi
    rcases hi with rfl | hi
    · exact le_refl _
    · cases n with
      | zero => simp [set_length_shrink_reads] at hi
      | succ m =>
        have hp : p > 0 := by omega
        rw [if_pos hp] at hi
        have := ih (p - 1) (by omega) i hi
        omega

/-- Shrinking a consistent capture buffer returns exactly when the new length is at most
`position + 1`, that is when the backward copy does not pass slot 0. -/
theorem set_length_shrink_returns_iff (fresh : Nat → ℚ) (sb : SampleBuffer) (N : Nat)
    (hlen : sb.buffer.length = sb.length) (hp : sb.position < sb.length)
    (hN : N < sb.length) :
    (sb.set_length fresh N).isSome = true ↔ N ≤ sb.position + 1 := by
  have hne : ¬ N = sb.length := by omega
  have hge : ¬ N ≥ sb.length := by omega
  have hloop := set_length_shrink_loop_reads sb.buffer sb.length N sb.position (alloc fresh N)
    (by rw [length_alloc])
  have hset : (sb.set_length fresh N).isSome
      = (set_length_shrink_loop sb.buffer sb.length N sb.position (alloc fresh N)).isSome := by
    simp only [SampleBuffer.set_length, hne, hge, if_false]
    cases set_length_shrink_loop sb.buffer sb.length N sb.position (alloc fresh N) <;> rfl
  rw [hset, hloop]
  constructor
  · intro h
    by_contra hcon
    have := h sb.length (set_length_shrink_reads_wrap sb.length sb.position N (by omega))
    omega
  · intro h i hi
    have := set_length_shrink_reads_no_wrap sb.length N sb.position h i hi
    omega

/-- **C21.** Resizing can read outside the old buffer. On the ring `[10, 11, 12, 13]` with
write cursor 0, `set_length 2` (shrinking) reads the old buffer at the indices 0 and 4: after
the first copy the cursor is stepped from 0 to `length` instead of `length - 1`, and index 4 is
not in `[0, 4)`; the call therefore has no defined result, whatever the fresh memory holds. -/
theorem set_length_shrink_reads_past_end (fresh : Nat → ℚ) :
    set_length_shrink_reads 4 2 0 = [0, 4] ∧ ¬ (4 < 4) ∧
    readAt [10, 11, 12, 13] 4 = none ∧
    (⟨[10, 11, 12, 13], 0, 4⟩ : SampleBuffer).set_length fresh 2 = none := by
  refine ⟨by decide, by decide, by decide, ?_⟩
  exact set_length_shrink_at_zero fresh ⟨[10, 11, 12, 13], 0, 4⟩ 2 rfl rfl (by decide)
    (by decide)

end VTrack
